import Mathlib

/-!
# Bohrium kernel-fusion pass: dual dependency/weight graph (`bh_dag.h`)

A shallow embedding of `src/include/bh_dag.h`.  The Boost graph
`adjacency_list<setS, vecS, bidirectionalS, VP, EP>` is embedded as a vector of
vertex properties together with the global edge list `m_edges` (insertion
order, no parallel edges).  Vertex descriptors of a `vecS` graph are
indices (`typedef uint64_t Vertex`), embedded as `Nat`.  Loops that the C++
runs until a queue or a worklist is empty are given a fuel argument; running
out of fuel is reported as such and is proved not to happen.
-/

namespace bohrium
namespace dag

/-- Faults a call can end with: `logic_error` and `not_a_dag` are the C++
exceptions of that name, `out_of_fuel` is the embedding running out of fuel. -/
inductive Fault where
  | logic_error
  | not_a_dag
  | out_of_fuel
  deriving DecidableEq, Repr

deriving instance DecidableEq for Except

/-- Modelled from the spec: the class `bh_ir_kernel` (declared in `bh.h`, which
is not part of the sources).  A kernel is an ordered sequence of instructions;
the default-constructed kernel is the empty one. -/
structure bh_ir_kernel (I : Type) where
  instr_list : List I
  deriving DecidableEq, Repr

instance {I : Type} : Inhabited (bh_ir_kernel I) := ⟨⟨[]⟩⟩

/-- Modelled from the spec: `bh_ir_kernel::add_instr` appends the instruction
to the end of the kernel's instruction list. -/
def bh_ir_kernel.add_instr {I : Type} (k : bh_ir_kernel I) (i : I) : bh_ir_kernel I :=
  ⟨k.instr_list ++ [i]⟩

/-- Modelled from the spec: the kernel predicates of `bh_ir_kernel` (methods
`dependency`, `dependency_cost`, `fusible`, `fusible_gently`), whose bodies are
not part of the sources.  `k.dependency(o)` is `ops.dependency k o`. -/
structure KernelOps (I : Type) where
  dependency : bh_ir_kernel I → bh_ir_kernel I → Bool
  dependency_cost : bh_ir_kernel I → bh_ir_kernel I → Int
  fusible : bh_ir_kernel I → bh_ir_kernel I → Bool
  fusible_gently : bh_ir_kernel I → bh_ir_kernel I → Bool

/-- Modelled from the spec: the batch `bh_ir` (declared in `bh.h`): an
instruction list and a kernel list. -/
structure bh_ir (I : Type) where
  instr_list : List I
  kernel_list : List (bh_ir_kernel I)

/-- The edge property of the weight graph (`struct EdgeWeight`). -/
structure EdgeWeight where
  value : Int
  deriving DecidableEq, Repr

instance : Inhabited EdgeWeight := ⟨⟨0⟩⟩

/-- An element of the global edge list of a bidirectional `adjacency_list`. -/
structure list_edge (EP : Type) where
  m_source : Nat
  m_target : Nat
  m_property : EP
  deriving DecidableEq, Repr

/-- The graph `boost::adjacency_list<setS, vecS, bidirectionalS, VP, EP>`:
`m_vertices` holds the vertex properties by index, `m_edges` the edges in
insertion order (what `edges(g)` iterates).  With `setS` no two edges share
source and target. -/
structure adjacency_list (VP EP : Type) where
  m_vertices : List VP
  m_edges : List (list_edge EP)
  deriving DecidableEq, Repr

abbrev GraphD (I : Type) := adjacency_list (bh_ir_kernel I) Unit
abbrev GraphW := adjacency_list Unit EdgeWeight
abbrev EdgeD := list_edge Unit
abbrev EdgeW := list_edge EdgeWeight

section boost
variable {VP EP : Type}

def num_vertices (g : adjacency_list VP EP) : Nat := g.m_vertices.length

def vertices (g : adjacency_list VP EP) : List Nat := List.range (num_vertices g)

def edges (g : adjacency_list VP EP) : List (list_edge EP) := g.m_edges

/-- The bundled property `g[v]`. -/
def bundle [Inhabited VP] (g : adjacency_list VP EP) (v : Nat) : VP :=
  g.m_vertices.getD v default

/-- Whether `boost::edge(u, v, g).second` holds. -/
def has_edge (g : adjacency_list VP EP) (u v : Nat) : Bool :=
  g.m_edges.any (fun e => e.m_source == u && e.m_target == v)

/-- The function `boost::add_vertex(p, g)`: the new vertex gets the next index. -/
def add_vertex (p : VP) (g : adjacency_list VP EP) : adjacency_list VP EP :=
  { g with m_vertices := g.m_vertices ++ [p] }

/-- The function `boost::add_edge(u, v, p, g)`: a `vecS` graph is first enlarged
to hold `max u v`; with `setS` an edge that is already there is kept as it
is, a new one goes to the end of the edge list. -/
def add_edge [Inhabited VP] (u v : Nat) (p : EP) (g : adjacency_list VP EP) :
    adjacency_list VP EP :=
  let vs := g.m_vertices ++ List.replicate (max u v + 1 - num_vertices g) default
  if has_edge g u v then { g with m_vertices := vs }
  else { m_vertices := vs, m_edges := g.m_edges ++ [⟨u, v, p⟩] }

/-- Targets of the out-edges of `v`, in the order of the `setS` out-edge set. -/
def adjacent_vertices (v : Nat) (g : adjacency_list VP EP) : List Nat :=
  ((g.m_edges.filter (fun e => e.m_source == v)).map (fun e => e.m_target)).insertionSort (· ≤ ·)

/-- Sources of the in-edges of `v`, in the order of the `setS` in-edge set. -/
def inv_adjacent_vertices (v : Nat) (g : adjacency_list VP EP) : List Nat :=
  ((g.m_edges.filter (fun e => e.m_target == v)).map (fun e => e.m_source)).insertionSort (· ≤ ·)

def out_degree (v : Nat) (g : adjacency_list VP EP) : Nat :=
  (g.m_edges.filter (fun e => e.m_source == v)).length

def in_degree (v : Nat) (g : adjacency_list VP EP) : Nat :=
  (g.m_edges.filter (fun e => e.m_target == v)).length

/-- The function `boost::clear_vertex(v, g)`: drops every edge to or from `v`. -/
def clear_vertex (v : Nat) (g : adjacency_list VP EP) : adjacency_list VP EP :=
  { g with m_edges := g.m_edges.filter (fun e => !(e.m_source == v || e.m_target == v)) }

/-- Renumbering of a descriptor when vertex `u` is erased from the vector. -/
def reindex (u x : Nat) : Nat := if x > u then x - 1 else x

/-- The function `boost::remove_vertex(u, g)` of a `vecS` graph: erases the
vertex from the vector and decrements every descriptor above `u`.  Boost
requires that no edge is incident to `u`. -/
def remove_vertex (u : Nat) (g : adjacency_list VP EP) : adjacency_list VP EP :=
  { m_vertices := g.m_vertices.eraseIdx u,
    m_edges := g.m_edges.map
      (fun e => { e with m_source := reindex u e.m_source, m_target := reindex u e.m_target }) }

end boost

/-- Colours of the Boost traversal colour maps. -/
inductive Color where
  | white
  | gray
  | black
  deriving DecidableEq, Repr

/-- Colour map update `put(color, v, c)`. -/
def put (color : Nat → Color) (v : Nat) (c : Color) : Nat → Color :=
  fun x => if x = v then c else color x

/-- The out-edge loop of `breadth_first_visit` for the dequeued vertex `u` with
the visitor of `path_exist`: `examine_edge` throws (`none`) when the source
or the target of the edge is `dst`; a white target is coloured gray and
enqueued. -/
def bfs_examine (dst u : Nat) :
    List Nat → (Nat → Color) × List Nat → Option ((Nat → Color) × List Nat)
  | [], s => some s
  | v :: vs, (color, Q) =>
    if u == dst || v == dst then none
    else if color v = Color.white then bfs_examine dst u vs (put color v Color.gray, Q ++ [v])
    else bfs_examine dst u vs (color, Q)

/-- The queue loop of `breadth_first_visit`; `some true` when the visitor
threw, `some false` when the queue ran empty, `none` when out of fuel. -/
def breadth_first_visit {VP EP : Type} (g : adjacency_list VP EP) (dst : Nat) :
    Nat → (Nat → Color) → List Nat → Option Bool
  | _, _, [] => some false
  | 0, _, _ :: _ => none
  | fuel + 1, color, u :: Q =>
    match bfs_examine dst u (adjacent_vertices u g) (color, Q) with
    | none => some true
    | some (color1, Q1) => breadth_first_visit g dst fuel (put color1 u Color.black) Q1

/-- The function `path_exist(a, b, dag)`: breadth-first search from `a` whose
visitor throws at the first examined edge with source or target `b`. -/
def path_exist {VP EP : Type} (a b : Nat) (dag : adjacency_list VP EP) : Option Bool :=
  breadth_first_visit dag b (num_vertices dag) (put (fun _ => Color.white) a Color.gray) [a]

/-- The class `GraphDW`: the dependency graph and the weight graph. -/
structure GraphDW (I : Type) where
  _bglD : GraphD I
  _bglW : GraphW
  deriving DecidableEq

namespace GraphDW
variable {I : Type}

/-- The empty dual graph. -/
def empty : GraphDW I := ⟨⟨[], []⟩, ⟨[], []⟩⟩

def bglD (g : GraphDW I) : GraphD I := g._bglD
def bglW (g : GraphDW I) : GraphW := g._bglW

def add_edgeD (a b : Nat) (g : GraphDW I) : GraphDW I :=
  { g with _bglD := add_edge a b () g._bglD }

/-- The method `GraphDW::add_edgeW(a, b, weight)`; the C++ default of `weight`
is -1. -/
def add_edgeW (a b : Nat) (weight : Int) (g : GraphDW I) : GraphDW I :=
  { g with _bglW := add_edge a b ⟨weight⟩ g._bglW }

/-- The body of the `BOOST_REVERSE_FOREACH` loop of `GraphDW::add_vertex` for
the vertex `v`, `d` being the new vertex; `none` when `path_exist` is out of
fuel. -/
def add_vertex_step (ops : KernelOps I) (kernel : bh_ir_kernel I) (d v : Nat)
    (g : GraphDW I) : Option (GraphDW I) :=
  if d != v then
    match path_exist v d g._bglD with
    | none => none
    | some true => some g
    | some false =>
      let dependency := ops.dependency kernel (bundle g._bglD v)
      let g1 := if dependency then { g with _bglD := add_edge v d () g._bglD } else g
      let cost := ops.dependency_cost kernel (bundle g1._bglD v)
      if cost > 0 || (cost == 0 && dependency) then some (g1.add_edgeW v d cost)
      else some g1
  else some g

/-- The edge loop of `GraphDW::add_vertex` over the listed vertices. -/
def add_vertex_loop (ops : KernelOps I) (kernel : bh_ir_kernel I) (d : Nat) :
    List Nat → GraphDW I → Option (GraphDW I)
  | [], g => some g
  | v :: vs, g =>
    match add_vertex_step ops kernel d v g with
    | none => none
    | some g1 => add_vertex_loop ops kernel d vs g1

/-- The method `GraphDW::add_vertex`: returns the new vertex and the graph. -/
def add_vertex (ops : KernelOps I) (kernel : bh_ir_kernel I) (g : GraphDW I) :
    Option (Nat × GraphDW I) :=
  let d := num_vertices g._bglD
  let g1 : GraphDW I := ⟨dag.add_vertex kernel g._bglD, dag.add_vertex () g._bglW⟩
  match add_vertex_loop ops kernel d (vertices g1._bglD).reverse g1 with
  | none => none
  | some g2 => some (d, g2)

/-- The method `GraphDW::add_instr`. -/
def add_instr (v : Nat) (i : I) (g : GraphDW I) : GraphDW I :=
  { g with _bglD := { g._bglD with
      m_vertices := g._bglD.m_vertices.set v ((bundle g._bglD v).add_instr i) } }

/-- The method `GraphDW::clear_vertex`. -/
def clear_vertex (v : Nat) (g : GraphDW I) : GraphDW I :=
  { _bglD := { m_vertices := (dag.clear_vertex v g._bglD).m_vertices.set v ⟨[]⟩,
               m_edges := (dag.clear_vertex v g._bglD).m_edges },
    _bglW := dag.clear_vertex v g._bglW }

/-- The method `GraphDW::remove_vertex`. -/
def remove_vertex (v : Nat) (g : GraphDW I) : GraphDW I :=
  { _bglD := dag.remove_vertex v g._bglD, _bglW := dag.remove_vertex v g._bglW }

/-- The cost `_bglD[dst].dependency_cost(_bglD[src])` of a weight edge. -/
def edge_cost (ops : KernelOps I) (g : GraphDW I) (e : EdgeW) : Int :=
  ops.dependency_cost (bundle g._bglD e.m_target) (bundle g._bglD e.m_source)

/-- The method `GraphDW::update_weights`: every out-edge of `v` in the weight
graph gets its recomputed cost when that is at least 0 and is removed
otherwise. -/
def update_weights (ops : KernelOps I) (v : Nat) (g : GraphDW I) : GraphDW I :=
  { g with _bglW := { g._bglW with
      m_edges := (g._bglW.m_edges.map (fun e =>
          if e.m_source == v && edge_cost ops g e ≥ 0
          then { e with m_property := ⟨edge_cost ops g e⟩ } else e)).filter
        (fun e => !(e.m_source == v && edge_cost ops g e < 0)) } }

/-- The method `GraphDW::remove_empty_vertices`. -/
def remove_empty_vertices (g : GraphDW I) : GraphDW I :=
  let removes := (vertices g._bglD).filter (fun v => (bundle g._bglD v).instr_list.length == 0)
  removes.reverse.foldl (fun g v => g.remove_vertex v) g

end GraphDW

variable {I : Type}

/-- The loop of `from_bhir` over the instruction list; the fault (if any) and
the dag as it then is. -/
def from_bhir_loop (ops : KernelOps I) : List I → GraphDW I → Option Fault × GraphDW I
  | [], dag => (none, dag)
  | instr :: rest, dag =>
    match dag.add_vertex ops ((default : bh_ir_kernel I).add_instr instr) with
    | none => (some Fault.out_of_fuel, dag)
    | some (_, dag1) => from_bhir_loop ops rest dag1

/-- The function `from_bhir(bhir, dag)`: the fault it ends with (`none` when it
returns) and the dag afterwards. -/
def from_bhir (ops : KernelOps I) (bhir : bh_ir I) (dag : GraphDW I) :
    Option Fault × GraphDW I :=
  if bhir.kernel_list.length != 0 then (some Fault.logic_error, dag)
  else from_bhir_loop ops bhir.instr_list dag

/-- State of the depth-first search of `topological_sort`: the colour map and
what has been written to the output iterator. -/
structure DfsState where
  color : Nat → Color
  out : List Nat

/-- The out-edge loop of `depth_first_visit`: a white target is visited, a gray
target is a back edge, at which the visitor of `topological_sort` throws
`not_a_dag`. -/
def dfs_out_edges (visit : Nat → DfsState → Except Fault DfsState) :
    List Nat → DfsState → Except Fault DfsState
  | [], s => .ok s
  | v :: vs, s =>
    match s.color v with
    | Color.white =>
      match visit v s with
      | .ok s1 => dfs_out_edges visit vs s1
      | .error e => .error e
    | Color.gray => .error Fault.not_a_dag
    | Color.black => dfs_out_edges visit vs s

/-- The function `depth_first_visit` from `u`; the visitor of `topological_sort`
writes `u` to the output when `u` is finished. -/
def depth_first_visit {VP EP : Type} (g : adjacency_list VP EP) :
    Nat → Nat → DfsState → Except Fault DfsState
  | 0, _, _ => .error Fault.out_of_fuel
  | fuel + 1, u, s =>
    match dfs_out_edges (depth_first_visit g fuel) (adjacent_vertices u g)
        { s with color := put s.color u Color.gray } with
    | .ok s1 => .ok { color := put s1.color u Color.black, out := s1.out ++ [u] }
    | .error e => .error e

/-- The vertex loop of `depth_first_search`. -/
def depth_first_search {VP EP : Type} (g : adjacency_list VP EP) :
    List Nat → DfsState → Except Fault DfsState
  | [], s => .ok s
  | u :: us, s =>
    if s.color u = Color.white then
      match depth_first_visit g (num_vertices g) u s with
      | .ok s1 => depth_first_search g us s1
      | .error e => .error e
    else depth_first_search g us s

/-- The function `boost::topological_sort(g, back_inserter(order))`: the
vertices in reverse topological order, or `not_a_dag`. -/
def topological_sort {VP EP : Type} (g : adjacency_list VP EP) : Except Fault (List Nat) :=
  match depth_first_search g (vertices g) ⟨fun _ => Color.white, []⟩ with
  | .ok s => .ok s.out
  | .error e => .error e

/-- The function `fill_kernels(dag, kernels)`. -/
def fill_kernels (dag : GraphD I) (kernels : List (bh_ir_kernel I)) :
    Except Fault (List (bh_ir_kernel I)) :=
  match topological_sort dag with
  | .ok topological_order =>
    .ok (topological_order.reverse.foldl
      (fun ks v => if (bundle dag v).instr_list.length > 0 then ks ++ [bundle dag v] else ks)
      kernels)
  | .error e => .error e

/-- The function `cycles(g)`. -/
def cycles (g : GraphD I) : Except Fault Bool :=
  match topological_sort g with
  | .ok _ => .ok false
  | .error Fault.not_a_dag => .ok true
  | .error e => .error e

/-- The function `nullify_vertex(dag, v)`. -/
def nullify_vertex (dag : GraphDW I) (v : Nat) : GraphDW I := dag.clear_vertex v

/-- The function `merge_vertices(a, b, dag)`, for `a != b`, and for `a == b` when the kernel of
`b` is empty.  The first loop runs over the instruction list of `b` as it is on entry; for
`a == b` and a non-empty kernel the C++ loop appends to the list it is iterating, which C++
leaves undefined: that case is `none` in `merge_vertices_checked`. -/
def merge_vertices (ops : KernelOps I) (a b : Nat) (dag : GraphDW I) : GraphDW I :=
  let dag1 := (bundle dag._bglD b).instr_list.foldl (fun d i => d.add_instr a i) dag
  let edges2add : List (Nat × Nat) :=
    ((adjacent_vertices b dag1._bglD).filter (fun v => a != v)).map (fun v => (a, v)) ++
    ((inv_adjacent_vertices b dag1._bglD).filter (fun v => a != v)).map (fun v => (v, a))
  let dag2 := edges2add.foldl (fun d e => (d.add_edgeW e.1 e.2 (-1)).add_edgeD e.1 e.2) dag1
  let dag3 := nullify_vertex dag2 b
  dag3.update_weights ops a

/-- The function `merge_vertices(a, b, dag)` with its undefined case made explicit: `none`
for `a == b` and a non-empty kernel, where the first loop appends to the instruction list it
is iterating.  Here `none` stands for a call without a defined result, not for a fault that
the code raises: the function has no `throw`. -/
def merge_vertices_checked (ops : KernelOps I) (a b : Nat) (dag : GraphDW I) :
    Option (GraphDW I) :=
  if a == b && !(bundle dag._bglD b).instr_list.isEmpty then none
  else some (merge_vertices ops a b dag)

/-- What `std::sort` with the comparison of `sort_weights` guarantees of its result `l` on
the input `es`: a rearrangement of `es` in descending order of weight. -/
def IsSortedWeights (es l : List EdgeW) : Prop :=
  l.Perm es ∧ l.Pairwise (fun e1 e2 => e1.m_property.value ≥ e2.m_property.value)

/-- The function `sort_weights`: descending by weight.  `std::sort` guarantees a
rearrangement in descending order and leaves the order of edges of equal weight to the
library; the definition fixes one such order (equal weights keep their order), which need
not be the one a given library produces.  What holds of every admissible order is stated
with `IsSortedWeights`. -/
def sort_weights (edges : List EdgeW) : List EdgeW :=
  edges.insertionSort (fun e1 e2 => e1.m_property.value ≥ e2.m_property.value)

/-- One pass of the `BOOST_FOREACH` loop of `fuse_gentle` over the edges of the
dependency graph: the dag after the first merge (`break`), or `none` when
no edge is merged. -/
def fuse_gentle_pass (ops : KernelOps I) (dag : GraphDW I) : List EdgeD → Option (GraphDW I)
  | [] => none
  | e :: es =>
    let d := dag._bglD
    let src := e.m_source
    let dst := e.m_target
    if ((in_degree dst d == 1 && out_degree dst d == 0) ||
        (in_degree src d == 0 && out_degree src d == 1) ||
        (decide (in_degree dst d ≤ 1) && decide (out_degree src d ≤ 1))) &&
       ops.fusible_gently (bundle d dst) (bundle d src)
    then some (merge_vertices ops src dst dag)
    else fuse_gentle_pass ops dag es

/-- The `while(not_finished)` loop of `fuse_gentle`; `none` when out of fuel. -/
def fuse_gentle_loop (ops : KernelOps I) : Nat → GraphDW I → Option (GraphDW I)
  | 0, _ => none
  | fuel + 1, dag =>
    match fuse_gentle_pass ops dag (edges dag._bglD) with
    | some dag1 => fuse_gentle_loop ops fuel dag1
    | none => some dag

/-- The function `fuse_gentle(dag)`. -/
def fuse_gentle (ops : KernelOps I) (dag : GraphDW I) : Option (GraphDW I) :=
  match fuse_gentle_loop ops (num_vertices dag._bglD + 1) dag with
  | some dag1 => some dag1.remove_empty_vertices
  | none => none

/-- The `BOOST_FOREACH` loop of `fuse_greedy` over the sorted weight edges: the
first merge whose dependency graph has no cycle is adopted (`break`). -/
def fuse_greedy_pass (ops : KernelOps I) (dag : GraphDW I) :
    List EdgeW → Except Fault (GraphDW I)
  | [] => .ok dag
  | e :: es =>
    let new_dag := merge_vertices ops e.m_source e.m_target dag
    match cycles new_dag._bglD with
    | .ok false => .ok new_dag
    | .ok true => fuse_greedy_pass ops dag es
    | .error f => .error f

/-- The function `fuse_greedy(dag)`.  The flag `not_finished` is set to false at
the top of the `while` body and is never set again, so the body runs once. -/
def fuse_greedy (ops : KernelOps I) (dag : GraphDW I) : Except Fault (GraphDW I) :=
  fuse_greedy_pass ops dag (sort_weights (edges dag._bglW))

section spec
variable {VP EP : Type}

/-- The edge relation of a graph: `u -> v` is an edge. -/
def E (g : adjacency_list VP EP) (u v : Nat) : Prop := has_edge g u v = true

/-- Every edge joins two vertices of the graph (what Boost maintains). -/
def WF (g : adjacency_list VP EP) : Prop :=
  ∀ e ∈ g.m_edges, e.m_source < num_vertices g ∧ e.m_target < num_vertices g

instance (g : adjacency_list VP EP) (u v : Nat) : Decidable (E g u v) :=
  inferInstanceAs (Decidable (has_edge g u v = true))

instance (g : adjacency_list VP EP) : Decidable (WF g) :=
  inferInstanceAs (Decidable (∀ e ∈ g.m_edges,
    e.m_source < num_vertices g ∧ e.m_target < num_vertices g))

/-- No vertex lies on a cycle. -/
def Acyclic (g : adjacency_list VP EP) : Prop := ∀ v, ¬ Relation.TransGen (E g) v v

/-- There is a path from `a` to `b` of length at least 2. -/
def LongPath (g : adjacency_list VP EP) (a b : Nat) : Prop :=
  ∃ m, E g a m ∧ Relation.TransGen (E g) m b

/-- Number of white vertices among the first `n`. -/
def whiteCount (n : Nat) (color : Nat → Color) : Nat :=
  ((Finset.range n).filter (fun v => color v = Color.white)).card

/-- Invariant of the depth-first search: the black vertices are exactly the
vertices written to the output, each written once, and every edge out of a
written vertex leads to a vertex written earlier. -/
def TopoInv (g : adjacency_list VP EP) (s : DfsState) : Prop :=
  (∀ x, s.color x = Color.black ↔ x ∈ s.out) ∧ s.out.Nodup ∧
  (∀ x ∈ s.out, x < num_vertices g) ∧
  ∀ x y, x ∈ s.out → E g x y → y ∈ s.out ∧ s.out.indexOf y < s.out.indexOf x

/-- How a completed visit changes the colours: gray vertices stay as they are
and no vertex turns white. -/
def DfsExt (s s1 : DfsState) : Prop :=
  (∀ x, s1.color x = Color.gray ↔ s.color x = Color.gray) ∧
  (∀ x, s1.color x = Color.white → s.color x = Color.white)

/-- Result of a visit: it ends in a state that keeps the invariant, or it
throws `not_a_dag` and the graph has a cycle whenever every gray vertex
reaches the visited one. -/
def VisitPost (g : adjacency_list VP EP) (u : Nat) (s : DfsState)
    (r : Except Fault DfsState) (P : DfsState → Prop) : Prop :=
  (∃ s1, r = .ok s1 ∧ TopoInv g s1 ∧ P s1 ∧ DfsExt s s1) ∨
  (r = .error Fault.not_a_dag ∧
    ((∀ x, s.color x = Color.gray → Relation.ReflTransGen (E g) x u) → ¬ Acyclic g))

/-- A listing of the vertices in which every edge leads to an earlier entry. -/
def IsRevTopo (g : adjacency_list VP EP) (order : List Nat) : Prop :=
  order.Nodup ∧ (∀ v, v ∈ order ↔ v < num_vertices g) ∧
  ∀ x y, E g x y → order.indexOf y < order.indexOf x

end spec

section singleton
variable {I : Type}

/-- The kernel that `from_bhir` builds for one instruction: `bh_ir_kernel k;
k.add_instr(instr);`. -/
def single (i : I) : bh_ir_kernel I := (default : bh_ir_kernel I).add_instr i

/-- What `from_bhir` has built after the instructions `is`, from the empty dag:
one singleton kernel per instruction, a dependency edge `x -> y` exactly for
`x < y` with a dependency and no path of length at least 2, and a weight
edge exactly where, in addition to there being no such path, the cost is
positive, or zero with a dependency. -/
def SingletonInv (ops : KernelOps I) (is : List I) (g : GraphDW I) : Prop :=
  g._bglD.m_vertices = is.map single ∧ num_vertices g._bglW = is.length ∧
  WF g._bglD ∧ WF g._bglW ∧
  (∀ x y, E g._bglD x y ↔ x < y ∧ y < is.length ∧
    ops.dependency ((is.map single).getD y default) ((is.map single).getD x default) = true ∧
    ¬ LongPath g._bglD x y) ∧
  (∀ e, e ∈ g._bglW.m_edges ↔ e.m_source < e.m_target ∧ e.m_target < is.length ∧
    e.m_property.value =
      ops.dependency_cost ((is.map single).getD e.m_target default)
        ((is.map single).getD e.m_source default) ∧
    ¬ LongPath g._bglD e.m_source e.m_target ∧
    (ops.dependency_cost ((is.map single).getD e.m_target default)
        ((is.map single).getD e.m_source default) > 0 ∨
      (ops.dependency_cost ((is.map single).getD e.m_target default)
        ((is.map single).getD e.m_source default) = 0 ∧
       ops.dependency ((is.map single).getD e.m_target default)
        ((is.map single).getD e.m_source default) = true)))

end singleton

section contraction

/-- The edge relation after vertex `b` has been merged into vertex `a`: the
edges not incident to `b`, and the edges of `b` redirected to `a`, self-loops
left out. -/
def CE (R : Nat → Nat → Prop) (a b x y : Nat) : Prop :=
  x ≠ b ∧ y ≠ b ∧ (R x y ∨ (x = a ∧ y ≠ a ∧ R b y) ∨ (y = a ∧ x ≠ a ∧ R x b))

/-- The vertex that stands for `x` after `b` has been merged into `a`. -/
def contract (a b x : Nat) : Nat := if x = b then a else x

end contraction

section fusion
variable {I : Type}

/-- Instruction `j` stays ahead of instruction `k`: both lie in one kernel, `j`
first, or a path of the dependency graph leads from the kernel of `j` to the
kernel of `k`.  `gh v` lists the positions (in the batch) of the instructions
of the kernel of vertex `v`. -/
def Ordered {N : Nat} (g : GraphD I) (gh : Nat → List (Fin N)) (j k : Fin N) : Prop :=
  (∃ v l1 l2, gh v = l1 ++ l2 ∧ j ∈ l1 ∧ k ∈ l2) ∨
  (∃ u v, j ∈ gh u ∧ k ∈ gh v ∧ Relation.TransGen (E g) u v)

/-- Invariant of the fusion passes on the batch `is`: the kernels partition the
instructions of the batch (`gh v` giving the positions held by vertex `v`),
the dependency graph is acyclic and joins only non-empty kernels, and every
dependent pair of instructions is ordered. -/
def FusionInv (ops : KernelOps I) (is : List I) (g : GraphD I)
    (gh : Nat → List (Fin is.length)) : Prop :=
  WF g ∧
  (∀ v, (bundle g v).instr_list = (gh v).map is.get) ∧
  (∀ v, (gh v).Nodup) ∧
  (∀ u v j, j ∈ gh u → j ∈ gh v → u = v) ∧
  (∀ j, ∃ v, j ∈ gh v) ∧
  Acyclic g ∧
  (∀ j k : Fin is.length, j < k →
    ops.dependency (single (is.get k)) (single (is.get j)) = true → Ordered g gh j k) ∧
  (∀ x y, E g x y → gh x ≠ [] ∧ gh y ≠ [])

/-- Number of vertices that have an incident edge. -/
def active_count {VP EP : Type} (g : adjacency_list VP EP) : Nat :=
  ((Finset.range (num_vertices g)).filter
    (fun v => 0 < in_degree v g + out_degree v g)).card

/-- The descriptor that vertex `x` had before vertex `u` was erased. -/
def unindex (u x : Nat) : Nat := if x < u then x else x + 1

/-- Every weight edge lies along a dependency edge. -/
def GwSub (g : GraphDW I) : Prop := ∀ x y, E g._bglW x y → E g._bglD x y

/-- A sequence of `merge_vertices(a, b, dag)` calls, one per listed pair. -/
def merge_all (ops : KernelOps I) (l : List (Nat × Nat)) (g : GraphDW I) : GraphDW I :=
  l.foldl (fun d e => merge_vertices ops e.1 e.2 d) g

/-- Every call of the sequence merges a vertex of the dag with one that no path
of length at least 2 joins it to, in either direction. -/
def MergeSafe (ops : KernelOps I) : List (Nat × Nat) → GraphDW I → Prop
  | [], _ => True
  | e :: l, g =>
    e.1 < num_vertices g._bglD ∧ ¬ LongPath g._bglD e.1 e.2 ∧ ¬ LongPath g._bglD e.2 e.1 ∧
      MergeSafe ops l (merge_vertices ops e.1 e.2 g)

end fusion

section examples

/-- Kernel predicates for examples: every kernel depends on every other, every
cost is 4, nothing is gently fusible. -/
def ops_chain : KernelOps Nat where
  dependency := fun _ _ => true
  dependency_cost := fun _ _ => 4
  fusible := fun _ _ => true
  fusible_gently := fun _ _ => false

/-- Kernel predicates for examples: every kernel depends on every other and the
cost of two kernels is the sum of their instructions (which are numbers). -/
def ops_sum : KernelOps Nat where
  dependency := fun _ _ => true
  dependency_cost := fun k o => ((k.instr_list.sum + o.instr_list.sum : Nat) : Int)
  fusible := fun _ _ => true
  fusible_gently := fun _ _ => false

/-- Kernel predicates for examples, on the instructions 0, 1, 2: instruction 2
depends on both others, instructions 0 and 1 are independent but share data
(cost 7), and only the kernels of 2 and 0 are gently fusible. -/
def ops_share : KernelOps Nat where
  dependency := fun k _ => k.instr_list == [2]
  dependency_cost := fun k _ =>
    if k.instr_list == [1] then 7 else if k.instr_list == [2] then -1 else 3
  fusible := fun _ _ => true
  fusible_gently := fun k o => k.instr_list == [2] && o.instr_list == [0]

/-- The singleton DAG of three instructions that form a chain `0 -> 1 -> 2`. -/
def chain3 (i0 i1 i2 : Nat) (w01 w12 : Int) : GraphDW Nat :=
  { _bglD := { m_vertices := [⟨[i0]⟩, ⟨[i1]⟩, ⟨[i2]⟩], m_edges := [⟨0, 1, ()⟩, ⟨1, 2, ()⟩] },
    _bglW := { m_vertices := [(), (), ()], m_edges := [⟨0, 1, ⟨w01⟩⟩, ⟨1, 2, ⟨w12⟩⟩] } }

end examples

section batch
variable {I : Type}

/-- The locals of `merge_vertices(dag, edges2merge)` together with the dag. -/
structure MergeState (I : Type) where
  fusibility : Bool
  loc_map : Nat → Nat
  dag : GraphDW I

/-- The state before the first edge: `fusibility = true` and `loc_map[v] = v` for every vertex
of the dag. -/
def MergeState.init (dag : GraphDW I) : MergeState I :=
  { fusibility := true
    loc_map := fun v => if v < num_vertices dag._bglD then v else 0
    dag := dag }

end batch

section gentle
variable {I : Type}

/-- The test that `fuse_gentle` makes on an edge `u -> v` of the dependency graph: one of the
three shapes of degrees, and `fusible_gently` of the kernel of `v` and the kernel of `u`. -/
def GentleMergeable (ops : KernelOps I) (g : GraphDW I) (u v : Nat) : Prop :=
  ((in_degree v g._bglD = 1 ∧ out_degree v g._bglD = 0) ∨
    (in_degree u g._bglD = 0 ∧ out_degree u g._bglD = 1) ∨
    (in_degree v g._bglD ≤ 1 ∧ out_degree u g._bglD ≤ 1)) ∧
  ops.fusible_gently (bundle g._bglD v) (bundle g._bglD u) = true

/-- The dags after each merge made by the `while` loop of `fuse_gentle`, in the order of the
merges: every pass that merges adds the merged dag, the first pass that does not ends the
list. -/
def fuse_gentle_merges (ops : KernelOps I) : Nat → GraphDW I → List (GraphDW I)
  | 0, _ => []
  | fuel + 1, dag =>
    match fuse_gentle_pass ops dag (edges dag._bglD) with
    | some dag1 => dag1 :: fuse_gentle_merges ops fuel dag1
    | none => []

/-- No edge is incident to a vertex whose kernel is empty: what `boost::remove_vertex`
requires of the vertices that `remove_empty_vertices` erases. -/
def NoEdgeAtEmpty (g : GraphD I) : Prop :=
  ∀ x y, E g x y → (bundle g x).instr_list ≠ [] ∧ (bundle g y).instr_list ≠ []

end gentle

section examples2

/-- A dependency graph of two vertices and the single edge `0 -> 1`. -/
def single_edge : GraphD Nat :=
  { m_vertices := [⟨[0]⟩, ⟨[1]⟩], m_edges := [⟨0, 1, ()⟩] }

/-- The singleton DAG of the instructions 0, 1, 2 under `ops_share`: the dependency edges
`1 -> 2` and `0 -> 2` and the weight edge `0 -> 1`. -/
def dag_share : GraphDW Nat :=
  { _bglD := { m_vertices := [⟨[0]⟩, ⟨[1]⟩, ⟨[2]⟩], m_edges := [⟨1, 2, ()⟩, ⟨0, 2, ()⟩] },
    _bglW := { m_vertices := [(), (), ()], m_edges := [⟨0, 1, ⟨7⟩⟩] } }

/-- A dag of two vertices, the first with an empty kernel, joined by the edge `0 -> 1` in both
graphs. -/
def dag_hollow : GraphDW Nat :=
  { _bglD := { m_vertices := [⟨[]⟩, ⟨[1]⟩], m_edges := [⟨0, 1, ()⟩] },
    _bglW := { m_vertices := [(), ()], m_edges := [⟨0, 1, ⟨4⟩⟩] } }

/-- Kernel predicates for examples, on the instructions 0, 1, 2, symmetric in their two
arguments: instruction 2 and each of the others depend on each other, instructions 0 and 1
do not; every cost is 5; only the kernels of 0 and 2 are gently fusible. -/
def ops_sym : KernelOps Nat where
  dependency := fun k o =>
    (k.instr_list == [2] && (o.instr_list == [0] || o.instr_list == [1])) ||
    (o.instr_list == [2] && (k.instr_list == [0] || k.instr_list == [1]))
  dependency_cost := fun _ _ => 5
  fusible := fun _ _ => true
  fusible_gently := fun k o =>
    (k.instr_list == [2] && o.instr_list == [0]) || (k.instr_list == [0] && o.instr_list == [2])

/-- A dag of three vertices, the middle one with an empty kernel, whose dependency graph has
the edges `2 -> 0` and `0 -> 1`; the weight graph has no edge. -/
def dag_dangling : GraphDW Nat :=
  { _bglD := { m_vertices := [⟨[7]⟩, ⟨[]⟩, ⟨[8]⟩], m_edges := [⟨2, 0, ()⟩, ⟨0, 1, ()⟩] },
    _bglW := { m_vertices := [(), (), ()], m_edges := [] } }

end examples2

end dag
end bohrium

/-!
# The instruction queue of the C++ bridge (`src/bridge/cpp/bh/state.hpp`)

The bridge keeps three globals: the array `queue` of `BH_CPP_QUEUE_MAX` instruction slots, the
counter `queue_size`, and the backend entry `vem_execute`.  They become the fields of `State`;
every call `vem_execute(queue_size, queue)` is recorded, with the batch it was handed, in the
field `executed`, and every error message printed by `flush` in `messages`.  A store outside the
array is undefined behaviour in C++; the model makes it a failure (`none`).  The line
`Runtime::instance()->enqueue(k)` only prints and is left out.
-/

namespace bh

/-- Modelled from the spec: the opcodes of `bh.h`; `state.hpp` names `BH_FREE` and `BH_DISCARD`,
every other opcode is passed through unchanged. -/
inductive bh_opcode
  | BH_FREE
  | BH_DISCARD
  | BH_SYNC
  | BH_ADD
  | BH_USER (code : Nat)
  deriving DecidableEq, Repr

/-- Modelled from the spec: the error codes of `bh.h`, with `BH_SUCCESS` the code 0. -/
abbrev bh_error := Nat

/-- Modelled from the spec: the code of a successful backend call. -/
def BH_SUCCESS : bh_error := 0

/-- Modelled from the spec: the instruction record of `bh.h`.  An operand is the address
`&storage[key]`, identified by its key, or `NULL` (`none`); `constant` is the inline constant
slot. -/
structure bh_instruction where
  opcode : bh_opcode
  operand0 : Option Int
  operand1 : Option Int
  operand2 : Option Int
  constant : Option Int
  deriving DecidableEq, Repr

/-- Modelled from the spec: the host-side array handle `Vector<T>`, of which the queue reads
`getKey()` and `isTemp()`. -/
structure Vector where
  key : Int
  temp : Bool
  deriving DecidableEq, Repr

/-- Key of the handle in `storage`: `getKey()`. -/
def Vector.getKey (v : Vector) : Int := v.key

/-- Whether the handle is scheduled for destruction after this use: `isTemp()`. -/
def Vector.isTemp (v : Vector) : Bool := v.temp

/-- Number of slots of the queue: `#define BH_CPP_QUEUE_MAX 1024`. -/
def BH_CPP_QUEUE_MAX : Nat := 1024

/-- The globals of `state.hpp`, with the log of the backend calls and of the printed errors. -/
structure State where
  queue : Nat → bh_instruction
  queue_size : Nat
  executed : List (List bh_instruction)
  messages : List bh_error

/-- The batch that `vem_execute(queue_size, queue)` receives: the first `queue_size` slots. -/
def State.batch (s : State) : List bh_instruction :=
  (List.range s.queue_size).map s.queue

/-- The statement `vem_execute(queue_size, queue); queue_size = 0;`, the result being dropped. -/
def State.execute (s : State) : State :=
  { s with executed := s.executed ++ [s.batch], queue_size := 0 }

/-- The guard that opens every `enqueue`:
`if (queue_size >= BH_CPP_QUEUE_MAX) { vem_execute(queue_size, queue); queue_size = 0; }`. -/
def State.flush_if_full (s : State) : State :=
  if s.queue_size ≥ BH_CPP_QUEUE_MAX then s.execute else s

/-- The statements `instr = &queue[queue_size++]; instr->... = ...;`: the fields assigned are
given by `f`, the other fields of the slot keep what they held.  A slot outside the array makes
the store fail. -/
def State.store (f : bh_instruction → bh_instruction) (s : State) : Option State :=
  if s.queue_size < BH_CPP_QUEUE_MAX then
    some { s with queue := Function.update s.queue s.queue_size (f (s.queue s.queue_size)),
                  queue_size := s.queue_size + 1 }
  else none

/-- The assignments `instr->opcode = BH_FREE; instr->operand[0] = &storage[op.getKey()];`. -/
def assign_free (op : Vector) (i : bh_instruction) : bh_instruction :=
  { i with opcode := .BH_FREE, operand0 := some op.getKey }

/-- The assignments `instr->opcode = BH_DISCARD; instr->operand[0] = &storage[op.getKey()];`. -/
def assign_discard (op : Vector) (i : bh_instruction) : bh_instruction :=
  { i with opcode := .BH_DISCARD, operand0 := some op.getKey }

/-- The block `if (op.isTemp()) { ... BH_FREE ...; ... BH_DISCARD ...; }`. -/
def State.free_discard (op : Vector) (s : State) : Option State :=
  if op.isTemp then
    (s.store (assign_free op)).bind (State.store (assign_discard op))
  else some s

/-- The assignments to the slot of the instruction in the overload with three arrays. -/
def assign_vvv (opcode : bh_opcode) (op0 op1 op2 : Vector) (i : bh_instruction) :
    bh_instruction :=
  { i with opcode := opcode, operand0 := some op0.getKey, operand1 := some op1.getKey,
           operand2 := some op2.getKey }

/-- The assignments to the slot of the instruction in the overload whose last operand is a
constant. -/
def assign_vvc (opcode : bh_opcode) (op0 op1 : Vector) (op2 : Int) (i : bh_instruction) :
    bh_instruction :=
  { i with opcode := opcode, operand0 := some op0.getKey, operand1 := some op1.getKey,
           operand2 := none, constant := some op2 }

/-- The assignments to the slot of the instruction in the overload whose middle operand is a
constant. -/
def assign_vcv (opcode : bh_opcode) (op0 : Vector) (op1 : Int) (op2 : Vector)
    (i : bh_instruction) : bh_instruction :=
  { i with opcode := opcode, operand0 := some op0.getKey, operand1 := none,
           operand2 := some op2.getKey, constant := some op1 }

/-- The assignments to the slot of the instruction in the overload with two arrays. -/
def assign_vv (opcode : bh_opcode) (op0 op1 : Vector) (i : bh_instruction) : bh_instruction :=
  { i with opcode := opcode, operand0 := some op0.getKey, operand1 := some op1.getKey,
           operand2 := none }

/-- The assignments to the slot of the instruction in the overload with one array and a
constant. -/
def assign_vc (opcode : bh_opcode) (op0 : Vector) (op1 : Int) (i : bh_instruction) :
    bh_instruction :=
  { i with opcode := opcode, operand0 := some op0.getKey, operand1 := none,
           operand2 := none, constant := some op1 }

/-- The overload `enqueue(bh_opcode, Vector<T>&, Vector<T>&, Vector<T>&)`. -/
def enqueue_vvv (opcode : bh_opcode) (op0 op1 op2 : Vector) (s : State) : Option State :=
  ((s.flush_if_full.store (assign_vvv opcode op0 op1 op2)).bind
    (State.free_discard op1)).bind (State.free_discard op2)

/-- The overload `enqueue(bh_opcode, Vector<T>&, Vector<T>&, T const&)`. -/
def enqueue_vvc (opcode : bh_opcode) (op0 op1 : Vector) (op2 : Int) (s : State) : Option State :=
  (s.flush_if_full.store (assign_vvc opcode op0 op1 op2)).bind (State.free_discard op1)

/-- The overload `enqueue(bh_opcode, Vector<T>&, T const&, Vector<T>&)`. -/
def enqueue_vcv (opcode : bh_opcode) (op0 : Vector) (op1 : Int) (op2 : Vector) (s : State) :
    Option State :=
  (s.flush_if_full.store (assign_vcv opcode op0 op1 op2)).bind (State.free_discard op2)

/-- The overload `enqueue(bh_opcode, Vector<T>&, Vector<T>&)`. -/
def enqueue_vv (opcode : bh_opcode) (op0 op1 : Vector) (s : State) : Option State :=
  (s.flush_if_full.store (assign_vv opcode op0 op1)).bind (State.free_discard op1)

/-- The overload `enqueue(bh_opcode, Vector<T>&, T const&)`. -/
def enqueue_vc (opcode : bh_opcode) (op0 : Vector) (op1 : Int) (s : State) : Option State :=
  s.flush_if_full.store (assign_vc opcode op0 op1)

/-- The function `flush()`: the backend is called only on a non-empty queue, an error is printed,
the queue is emptied, and the value returned is `cur_size`.  The backend `vem_execute` is given
as a function of the number of calls made so far and of the batch. -/
def flush (vem_execute : Nat → List bh_instruction → bh_error) (s : State) : Nat × State :=
  let cur_size := s.queue_size
  if s.queue_size > 0 then
    let res := vem_execute s.executed.length s.batch
    let s1 : State := { s with executed := s.executed ++ [s.batch] }
    let s2 : State := if res ≠ BH_SUCCESS then { s1 with messages := s1.messages ++ [res] } else s1
    (cur_size, { s2 with queue_size := 0 })
  else (cur_size, s)

/-- The function `shutdown()`: `flush()`, then the teardown of the backend, which does not touch
the queue. -/
def shutdown (vem_execute : Nat → List bh_instruction → bh_error) (s : State) : State :=
  (flush vem_execute s).2

/-- One call of the front end to one of the five overloads of `enqueue`. -/
inductive Call
  | vvv (opcode : bh_opcode) (op0 op1 op2 : Vector)
  | vvc (opcode : bh_opcode) (op0 op1 : Vector) (op2 : Int)
  | vcv (opcode : bh_opcode) (op0 : Vector) (op1 : Int) (op2 : Vector)
  | vv (opcode : bh_opcode) (op0 op1 : Vector)
  | vc (opcode : bh_opcode) (op0 : Vector) (op1 : Int)
  deriving DecidableEq, Repr

/-- The overload a call selects, applied to the state. -/
def Call.run : Call → State → Option State
  | .vvv o a b c, s => enqueue_vvv o a b c s
  | .vvc o a b c, s => enqueue_vvc o a b c s
  | .vcv o a b c, s => enqueue_vcv o a b c s
  | .vv o a b, s => enqueue_vv o a b s
  | .vc o a b, s => enqueue_vc o a b s

/-- A sequence of calls, made one after the other. -/
def run_calls : List Call → State → Option State
  | [], s => some s
  | c :: cs, s => (c.run s).bind (run_calls cs)

/-- Whether no array operand read by the call is temporary. -/
def Call.no_temp : Call → Bool
  | .vvv _ _ b c => !b.isTemp && !c.isTemp
  | .vvc _ _ b _ => !b.isTemp
  | .vcv _ _ _ c => !c.isTemp
  | .vv _ _ b => !b.isTemp
  | .vc _ _ _ => true

/-- The instruction `i` carries the fields that the call `c` assigns to its slot. -/
def Call.wrote : Call → bh_instruction → Prop
  | .vvv o a b c, i =>
      i.opcode = o ∧ i.operand0 = some a.getKey ∧ i.operand1 = some b.getKey ∧
        i.operand2 = some c.getKey
  | .vvc o a b c, i =>
      i.opcode = o ∧ i.operand0 = some a.getKey ∧ i.operand1 = some b.getKey ∧
        i.operand2 = none ∧ i.constant = some c
  | .vcv o a b c, i =>
      i.opcode = o ∧ i.operand0 = some a.getKey ∧ i.operand1 = none ∧
        i.operand2 = some c.getKey ∧ i.constant = some b
  | .vv o a b, i =>
      i.opcode = o ∧ i.operand0 = some a.getKey ∧ i.operand1 = some b.getKey ∧
        i.operand2 = none
  | .vc o a b, i =>
      i.opcode = o ∧ i.operand0 = some a.getKey ∧ i.operand1 = none ∧
        i.operand2 = none ∧ i.constant = some b

/-- The state at start-up: the static array zero-initialised, nothing queued, no call made. -/
def State.init : State :=
  { queue := fun _ => ⟨.BH_USER 0, none, none, none, none⟩
    queue_size := 0
    executed := []
    messages := [] }

end bh

namespace bohrium
namespace dag

section basic
variable {VP EP : Type}

theorem E_iff (g : adjacency_list VP EP) (u v : Nat) :
    E g u v ↔ ∃ e ∈ g.m_edges, e.m_source = u ∧ e.m_target = v := by
  simp [E, has_edge, List.any_eq_true]

theorem mem_adjacent_vertices (g : adjacency_list VP EP) (v x : Nat) :
    x ∈ adjacent_vertices v g ↔ E g v x := by
  simp only [adjacent_vertices, List.mem_insertionSort, List.mem_map, List.mem_filter, E_iff,
    beq_iff_eq]
  constructor
  · rintro ⟨e, ⟨he, hs⟩, ht⟩
    exact ⟨e, he, hs, ht⟩
  · rintro ⟨e, he, hs, ht⟩
    exact ⟨e, ⟨he, hs⟩, ht⟩

theorem mem_inv_adjacent_vertices (g : adjacency_list VP EP) (v x : Nat) :
    x ∈ inv_adjacent_vertices v g ↔ E g x v := by
  simp only [inv_adjacent_vertices, List.mem_insertionSort, List.mem_map, List.mem_filter, E_iff,
    beq_iff_eq]
  constructor
  · rintro ⟨e, ⟨he, ht⟩, hs⟩
    exact ⟨e, he, hs, ht⟩
  · rintro ⟨e, he, hs, ht⟩
    exact ⟨e, ⟨he, ht⟩, hs⟩

theorem WF.lt_of_E {g : adjacency_list VP EP} (h : WF g) {u v : Nat} (huv : E g u v) :
    u < num_vertices g ∧ v < num_vertices g := by
  obtain ⟨e, he, rfl, rfl⟩ := (E_iff g u v).1 huv
  exact h e he

end basic

section colours

theorem put_eq_white {color : Nat → Color} {v x : Nat} {c : Color} (hc : c ≠ Color.white) :
    put color v c x = Color.white ↔ x ≠ v ∧ color x = Color.white := by
  unfold put
  by_cases hx : x = v
  · simp [hx, hc]
  · simp [hx]

theorem whiteCount_put_white {n : Nat} {color : Nat → Color} {v : Nat} {c : Color}
    (hc : c ≠ Color.white) (hv : color v = Color.white) (hn : v < n) :
    whiteCount n (put color v c) + 1 = whiteCount n color := by
  unfold whiteCount
  have h1 : (Finset.range n).filter (fun x => put color v c x = Color.white)
      = ((Finset.range n).filter (fun x => color x = Color.white)).erase v := by
    ext x
    simp only [Finset.mem_filter, Finset.mem_range, Finset.mem_erase, put_eq_white hc]
    tauto
  rw [h1, Finset.card_erase_of_mem (by simp [hn, hv])]
  have : 0 < ((Finset.range n).filter (fun x => color x = Color.white)).card :=
    Finset.card_pos.2 ⟨v, by simp [hn, hv]⟩
  omega

theorem whiteCount_put_nonwhite {n : Nat} {color : Nat → Color} {v : Nat} {c : Color}
    (hc : c ≠ Color.white) (hv : color v ≠ Color.white) :
    whiteCount n (put color v c) = whiteCount n color := by
  unfold whiteCount
  congr 1
  ext x
  simp only [Finset.mem_filter, Finset.mem_range, put_eq_white hc]
  constructor
  · rintro ⟨h1, _, h3⟩; exact ⟨h1, h3⟩
  · rintro ⟨h1, h3⟩
    refine ⟨h1, ?_, h3⟩
    rintro rfl
    exact hv h3

theorem whiteCount_le (n : Nat) (color : Nat → Color) : whiteCount n color ≤ n := by
  unfold whiteCount
  calc _ ≤ (Finset.range n).card := Finset.card_filter_le _ _
    _ = n := Finset.card_range n

theorem whiteCount_mono {n : Nat} {c1 c2 : Nat → Color}
    (h : ∀ x, c1 x = Color.white → c2 x = Color.white) : whiteCount n c1 ≤ whiteCount n c2 := by
  unfold whiteCount
  apply Finset.card_le_card
  intro x
  simp only [Finset.mem_filter, Finset.mem_range]
  exact fun ⟨h1, h2⟩ => ⟨h1, h x h2⟩

end colours

section bfs
variable {VP EP : Type}

theorem bfs_examine_none {dst u : Nat} :
    ∀ (vs : List Nat) (color : Nat → Color) (Q : List Nat),
      bfs_examine dst u vs (color, Q) = none → u = dst ∨ dst ∈ vs := by
  intro vs
  induction vs with
  | nil => intro color Q h; simp [bfs_examine] at h
  | cons v vs ih =>
    intro color Q h
    unfold bfs_examine at h
    by_cases h1 : (u == dst || v == dst) = true
    · simp only [Bool.or_eq_true, beq_iff_eq] at h1
      rcases h1 with h1 | h1
      · exact Or.inl h1
      · exact Or.inr (by simp [h1])
    · simp only [h1] at h
      by_cases h2 : color v = Color.white
      · simp only [h2, if_true] at h
        rcases ih _ _ h with h3 | h3
        · exact Or.inl h3
        · exact Or.inr (List.mem_cons_of_mem _ h3)
      · simp only [h2, if_false] at h
        rcases ih _ _ h with h3 | h3
        · exact Or.inl h3
        · exact Or.inr (List.mem_cons_of_mem _ h3)

theorem bfs_examine_some {dst u : Nat} {n : Nat} :
    ∀ (vs : List Nat) (color : Nat → Color) (Q : List Nat)
      (color1 : Nat → Color) (Q1 : List Nat),
      (∀ v ∈ vs, v < n) →
      bfs_examine dst u vs (color, Q) = some (color1, Q1) →
      dst ∉ vs ∧
      (∀ x, color1 x = Color.white ↔ (color x = Color.white ∧ x ∉ vs)) ∧
      (∀ x, x ∈ Q1 ↔ x ∈ Q ∨ (x ∈ vs ∧ color x = Color.white)) ∧
      Q1.length + whiteCount n color1 = Q.length + whiteCount n color := by
  intro vs
  induction vs with
  | nil =>
    intro color Q color1 Q1 _ h
    simp only [bfs_examine, Option.some.injEq, Prod.mk.injEq] at h
    obtain ⟨rfl, rfl⟩ := h
    simp
  | cons v vs ih =>
    intro color Q color1 Q1 hn h
    unfold bfs_examine at h
    by_cases h1 : (u == dst || v == dst) = true
    · simp [h1] at h
    · simp only [h1] at h
      have hvd : v ≠ dst := by
        intro hv
        apply h1
        simp [hv]
      have hn' : ∀ x ∈ vs, x < n := fun x hx => hn x (List.mem_cons_of_mem _ hx)
      by_cases h2 : color v = Color.white
      · simp only [h2, if_true] at h
        obtain ⟨i1, i2, i3, i4⟩ := ih _ _ _ _ hn' h
        refine ⟨?_, ?_, ?_, ?_⟩
        · simp only [List.mem_cons, not_or]
          exact ⟨fun hh => hvd hh.symm, i1⟩
        · intro x
          rw [i2, put_eq_white (by decide)]
          simp only [List.mem_cons, not_or]
          tauto
        · intro x
          rw [i3, put_eq_white (by decide)]
          simp only [List.mem_append, List.mem_cons, List.not_mem_nil, or_false]
          constructor
          · rintro (⟨h3 | h3⟩ | ⟨h3, h4, h5⟩)
            · exact Or.inl h3
            · exact Or.inr ⟨Or.inl h3, h3 ▸ h2⟩
            · exact Or.inr ⟨Or.inr h3, h5⟩
          · rintro (h3 | ⟨h3 | h3, h4⟩)
            · exact Or.inl (Or.inl h3)
            · exact Or.inl (Or.inr h3)
            · by_cases hx : x = v
              · exact Or.inl (Or.inr hx)
              · exact Or.inr ⟨h3, hx, h4⟩
        · have := whiteCount_put_white (n := n) (c := Color.gray) (by decide) h2
            (hn v (List.mem_cons_self _ _))
          simp only [List.length_append, List.length_singleton] at i4
          omega
      · simp only [h2, if_false] at h
        obtain ⟨i1, i2, i3, i4⟩ := ih _ _ _ _ hn' h
        refine ⟨?_, ?_, ?_, i4⟩
        · simp only [List.mem_cons, not_or]
          exact ⟨fun hh => hvd hh.symm, i1⟩
        · intro x
          rw [i2]
          simp only [List.mem_cons, not_or]
          constructor
          · rintro ⟨h3, h4⟩
            refine ⟨h3, ?_, h4⟩
            rintro rfl
            exact h2 h3
          · rintro ⟨h3, _, h4⟩
            exact ⟨h3, h4⟩
        · intro x
          rw [i3]
          simp only [List.mem_cons]
          constructor
          · rintro (h3 | ⟨h3, h4⟩)
            · exact Or.inl h3
            · exact Or.inr ⟨Or.inr h3, h4⟩
          · rintro (h3 | ⟨h3 | h3, h4⟩)
            · exact Or.inl h3
            · exact absurd (h3 ▸ h4) h2
            · exact Or.inr ⟨h3, h4⟩

/-- The queue loop of the breadth-first search returns, and returns true exactly
when the target is reachable from the start by at least one edge. -/
theorem breadth_first_visit_spec (g : adjacency_list VP EP) (hwf : WF g) (a dst : Nat)
    (hne : a ≠ dst) :
    ∀ (fuel : Nat) (color : Nat → Color) (Q : List Nat),
      (∀ v ∈ Q, color v ≠ Color.white) →
      (∀ v, color v ≠ Color.white → Relation.ReflTransGen (E g) a v) →
      (∀ v, color v ≠ Color.white → v ∉ Q → ∀ w, E g v w → w ≠ dst ∧ color w ≠ Color.white) →
      color dst = Color.white →
      color a ≠ Color.white →
      Q.length + whiteCount (num_vertices g) color ≤ fuel →
      ∃ r, breadth_first_visit g dst fuel color Q = some r ∧
        (r = true ↔ Relation.TransGen (E g) a dst) := by
  intro fuel
  induction fuel with
  | zero =>
    intro color Q i1 i2 i3 i4 i5 i6
    cases Q with
    | nil =>
      refine ⟨false, by simp [breadth_first_visit], ?_⟩
      simp only [Bool.false_eq_true, false_iff]
      intro ht
      obtain ⟨w, hw1, hw2⟩ := Relation.TransGen.tail'_iff.1 ht
      have hcl : ∀ x, Relation.ReflTransGen (E g) a x → color x ≠ Color.white := by
        intro x hx
        induction hx with
        | refl => exact i5
        | tail _ hyz ih => exact (i3 _ ih (by simp) _ hyz).2
      exact (i3 w (hcl w hw1) (by simp) dst hw2).1 rfl
    | cons u Q0 => simp at i6
  | succ fuel ih =>
    intro color Q i1 i2 i3 i4 i5 i6
    cases Q with
    | nil =>
      refine ⟨false, by simp [breadth_first_visit], ?_⟩
      simp only [Bool.false_eq_true, false_iff]
      intro ht
      obtain ⟨w, hw1, hw2⟩ := Relation.TransGen.tail'_iff.1 ht
      have hcl : ∀ x, Relation.ReflTransGen (E g) a x → color x ≠ Color.white := by
        intro x hx
        induction hx with
        | refl => exact i5
        | tail _ hyz ih => exact (i3 _ ih (by simp) _ hyz).2
      exact (i3 w (hcl w hw1) (by simp) dst hw2).1 rfl
    | cons u Q0 =>
      have hu : color u ≠ Color.white := i1 u (List.mem_cons_self _ _)
      have hud : u ≠ dst := by
        rintro rfl
        exact hu i4
      unfold breadth_first_visit
      cases hex : bfs_examine dst u (adjacent_vertices u g) (color, Q0) with
      | none =>
        refine ⟨true, rfl, ?_⟩
        simp only [true_iff]
        rcases bfs_examine_none _ _ _ hex with h | h
        · exact absurd h hud
        · exact Relation.TransGen.tail' (i2 u hu) ((mem_adjacent_vertices g u dst).1 h)
      | some res =>
        obtain ⟨color1, Q1⟩ := res
        have hadj : ∀ v ∈ adjacent_vertices u g, v < num_vertices g := fun v hv =>
          (hwf.lt_of_E ((mem_adjacent_vertices g u v).1 hv)).2
        obtain ⟨j1, j2, j3, j4⟩ := bfs_examine_some _ _ _ _ _ hadj hex
        have hcu : color1 u ≠ Color.white := fun h => hu ((j2 u).1 h).1
        have hput : ∀ x, put color1 u Color.black x = Color.white ↔ color1 x = Color.white := by
          intro x
          rw [put_eq_white (by decide)]
          constructor
          · exact fun h => h.2
          · intro h
            refine ⟨?_, h⟩
            rintro rfl
            exact hcu h
        apply ih
        · intro v hv
          rw [Ne, hput, j2]
          rcases (j3 v).1 hv with h | ⟨h, _⟩
          · exact fun hh => i1 v (List.mem_cons_of_mem _ h) hh.1
          · exact fun hh => hh.2 h
        · intro v hv
          rw [Ne, hput, j2] at hv
          by_cases hc : color v = Color.white
          · have hmem : v ∈ adjacent_vertices u g := by
              by_contra hh
              exact hv ⟨hc, hh⟩
            exact (i2 u hu).tail ((mem_adjacent_vertices g u v).1 hmem)
          · exact i2 v hc
        · intro v hv hvQ w hvw
          rw [Ne, hput, j2] at hv
          simp only [ne_eq, hput, j2]
          by_cases hvu : v = u
          · subst hvu
            have hw : w ∈ adjacent_vertices v g := (mem_adjacent_vertices g v w).2 hvw
            refine ⟨?_, fun hh => hh.2 hw⟩
            rintro rfl
            exact j1 hw
          · by_cases hc : color v = Color.white
            · have hmem : v ∈ adjacent_vertices u g := by
                by_contra hh
                exact hv ⟨hc, hh⟩
              exact absurd ((j3 v).2 (Or.inr ⟨hmem, hc⟩)) hvQ
            · have hvQ0 : v ∉ u :: Q0 := by
                simp only [List.mem_cons, not_or]
                exact ⟨hvu, fun hh => hvQ ((j3 v).2 (Or.inl hh))⟩
              obtain ⟨k1, k2⟩ := i3 v hc hvQ0 w hvw
              exact ⟨k1, fun hh => k2 hh.1⟩
        · rw [hput, j2]
          refine ⟨i4, fun hh => ?_⟩
          exact j1 hh
        · rw [Ne, hput, j2]
          exact fun hh => i5 hh.1
        · rw [whiteCount_put_nonwhite (by decide) hcu]
          simp only [List.length_cons] at i6
          omega

/-- On a well-formed graph `path_exist(a, b, dag)` returns, and returns true
exactly when `b` can be reached from `a` by at least one edge. -/
theorem path_exist_spec (g : adjacency_list VP EP) (hwf : WF g) (a b : Nat)
    (ha : a < num_vertices g) (hne : a ≠ b) :
    ∃ r, path_exist a b g = some r ∧ (r = true ↔ Relation.TransGen (E g) a b) := by
  unfold path_exist
  apply breadth_first_visit_spec g hwf a b hne
  · intro v hv
    simp only [List.mem_singleton] at hv
    subst hv
    simp [put]
  · intro v hv
    by_cases h : v = a
    · subst h; exact Relation.ReflTransGen.refl
    · simp [put, h] at hv
  · intro v hv hvQ
    by_cases h : v = a
    · subst h; simp at hvQ
    · simp [put, h] at hv
  · simp [put, hne.symm]
  · simp [put]
  · have := @whiteCount_put_white (num_vertices g) (fun _ => Color.white) a Color.gray
      (by decide) rfl ha
    have h2 := whiteCount_le (num_vertices g) (fun _ => Color.white)
    simp only [List.length_singleton]
    omega

end bfs

section dfs
variable {VP EP : Type}

theorem Color.eq_black_of {c : Color} (h1 : c ≠ Color.white) (h2 : c ≠ Color.gray) :
    c = Color.black := by
  cases c <;> simp_all

theorem DfsExt.refl (s : DfsState) : DfsExt s s := ⟨fun _ => Iff.rfl, fun _ h => h⟩

theorem DfsExt.trans {s s1 s2 : DfsState} (h1 : DfsExt s s1) (h2 : DfsExt s1 s2) :
    DfsExt s s2 :=
  ⟨fun x => (h2.1 x).trans (h1.1 x), fun x h => h1.2 x (h2.2 x h)⟩

theorem DfsExt.black {s s1 : DfsState} (h : DfsExt s s1) {x : Nat}
    (hx : s.color x = Color.black) : s1.color x = Color.black := by
  apply Color.eq_black_of
  · intro hw
    have := h.2 x hw
    rw [hx] at this
    cases this
  · intro hg
    have := (h.1 x).1 hg
    rw [hx] at this
    cases this

theorem DfsExt.white_le {s s1 : DfsState} (h : DfsExt s s1) (n : Nat) :
    whiteCount n s1.color ≤ whiteCount n s.color :=
  whiteCount_mono h.2

theorem dfs_out_edges_spec (g : adjacency_list VP EP) (fuel : Nat) (u : Nat)
    (visit : Nat → DfsState → Except Fault DfsState)
    (hvisit : ∀ v s, TopoInv g s → s.color v = Color.white → v < num_vertices g →
      whiteCount (num_vertices g) s.color ≤ fuel →
      VisitPost g v s (visit v s) (fun s1 => s1.color v = Color.black)) :
    ∀ (vs : List Nat) (s : DfsState), (∀ v ∈ vs, E g u v ∧ v < num_vertices g) →
      TopoInv g s → whiteCount (num_vertices g) s.color ≤ fuel →
      VisitPost g u s (dfs_out_edges visit vs s) (fun s1 => ∀ v ∈ vs, s1.color v = Color.black) := by
  intro vs
  induction vs with
  | nil =>
    intro s _ hinv _
    exact Or.inl ⟨s, rfl, hinv, by simp, DfsExt.refl s⟩
  | cons v vs ih =>
    intro s hvs hinv hfuel
    have hvs' : ∀ x ∈ vs, E g u x ∧ x < num_vertices g :=
      fun x hx => hvs x (List.mem_cons_of_mem _ hx)
    obtain ⟨huv, hvn⟩ := hvs v (List.mem_cons_self _ _)
    unfold dfs_out_edges
    cases hc : s.color v with
    | white =>
      simp only
      rcases hvisit v s hinv hc hvn hfuel with ⟨s1, hr, hinv1, hb1, hext1⟩ | ⟨hr, hcyc⟩
      · rw [hr]
        simp only
        rcases ih s1 hvs' hinv1 (le_trans (hext1.white_le _) hfuel) with
          ⟨s2, hr2, hinv2, hb2, hext2⟩ | ⟨hr2, hcyc2⟩
        · refine Or.inl ⟨s2, hr2, hinv2, ?_, hext1.trans hext2⟩
          intro x hx
          rcases List.mem_cons.1 hx with rfl | hx
          · exact hext2.black hb1
          · exact hb2 x hx
        · refine Or.inr ⟨hr2, fun hg => hcyc2 ?_⟩
          intro x hx
          exact hg x ((hext1.1 x).1 hx)
      · rw [hr]
        refine Or.inr ⟨rfl, fun hg => hcyc ?_⟩
        intro x hx
        exact (hg x hx).tail huv
    | gray =>
      simp only
      refine Or.inr ⟨rfl, fun hg hac => ?_⟩
      exact hac v (Relation.TransGen.tail' (hg v hc) huv)
    | black =>
      simp only
      rcases ih s hvs' hinv hfuel with ⟨s2, hr2, hinv2, hb2, hext2⟩ | ⟨hr2, hcyc2⟩
      · refine Or.inl ⟨s2, hr2, hinv2, ?_, hext2⟩
        intro x hx
        rcases List.mem_cons.1 hx with rfl | hx
        · exact hext2.black hc
        · exact hb2 x hx
      · exact Or.inr ⟨hr2, hcyc2⟩

theorem depth_first_visit_spec (g : adjacency_list VP EP) (hwf : WF g) :
    ∀ (fuel : Nat) (u : Nat) (s : DfsState), TopoInv g s → s.color u = Color.white →
      u < num_vertices g → whiteCount (num_vertices g) s.color ≤ fuel →
      VisitPost g u s (depth_first_visit g fuel u s) (fun s1 => s1.color u = Color.black) := by
  intro fuel
  induction fuel with
  | zero =>
    intro u s _ hu hn hfuel
    have := whiteCount_put_white (n := num_vertices g) (c := Color.gray) (by decide) hu hn
    omega
  | succ fuel ih =>
    intro u s hinv hu hn hfuel
    have hwc := whiteCount_put_white (n := num_vertices g) (c := Color.gray) (by decide) hu hn
    obtain ⟨t1, t2, t3, t4⟩ := hinv
    have hinvg : TopoInv g { s with color := put s.color u Color.gray } := by
      refine ⟨?_, t2, t3, t4⟩
      intro x
      rw [← t1 x]
      unfold put
      by_cases hx : x = u
      · subst hx; simp [hu]
      · simp [hx]
    have hadj : ∀ v ∈ adjacent_vertices u g, E g u v ∧ v < num_vertices g := by
      intro v hv
      have := (mem_adjacent_vertices g u v).1 hv
      exact ⟨this, (hwf.lt_of_E this).2⟩
    unfold depth_first_visit
    rcases dfs_out_edges_spec g fuel u (depth_first_visit g fuel) ih (adjacent_vertices u g)
        { s with color := put s.color u Color.gray } hadj hinvg (by simp only; omega) with
      ⟨s1, hr, ⟨q1, q2, q3, q4⟩, hb, hext⟩ | ⟨hr, hcyc⟩
    · rw [hr]
      simp only
      have hug : s1.color u = Color.gray := (hext.1 u).2 (by simp [put])
      have hnot : u ∉ s1.out := by
        intro hmem
        have := (q1 u).2 hmem
        rw [hug] at this
        cases this
      refine Or.inl ⟨_, rfl, ⟨?_, ?_, ?_, ?_⟩, by simp [put], ?_, ?_⟩
      · intro x
        simp only [List.mem_append, List.mem_singleton, ← q1 x]
        unfold put
        by_cases hx : x = u
        · simp [hx]
        · simp [hx]
      · simp only
        rw [List.nodup_append]
        refine ⟨q2, List.nodup_singleton u, ?_⟩
        intro x hx1 hx2
        rw [List.mem_singleton] at hx2
        subst hx2
        exact hnot hx1
      · intro x hx
        simp only [List.mem_append, List.mem_singleton] at hx
        rcases hx with hx | rfl
        · exact q3 x hx
        · exact hn
      · intro x y hx hxy
        simp only [List.mem_append, List.mem_singleton] at hx
        simp only [List.mem_append, List.mem_singleton]
        rcases hx with hx | rfl
        · obtain ⟨k1, k2⟩ := q4 x y hx hxy
          refine ⟨Or.inl k1, ?_⟩
          rw [List.indexOf_append_of_mem k1, List.indexOf_append_of_mem hx]
          exact k2
        · have hy : y ∈ s1.out := (q1 y).1 (hb y ((mem_adjacent_vertices g x y).2 hxy))
          refine ⟨Or.inl hy, ?_⟩
          rw [List.indexOf_append_of_mem hy, List.indexOf_append_of_not_mem hnot]
          have := List.indexOf_lt_length.2 hy
          omega
      · intro x
        simp only
        unfold put
        by_cases hx : x = u
        · subst hx; simp [hu]
        · simp only [hx, if_false]
          rw [hext.1 x]
          simp [put, hx]
      · intro x hx
        simp only at hx
        unfold put at hx
        by_cases hxu : x = u
        · simp [hxu] at hx
        · simp only [hxu, if_false] at hx
          have := hext.2 x hx
          simpa [put, hxu] using this
    · rw [hr]
      refine Or.inr ⟨rfl, fun hg => hcyc ?_⟩
      intro x hx
      simp only at hx
      unfold put at hx
      by_cases hxu : x = u
      · subst hxu; exact Relation.ReflTransGen.refl
      · simp only [hxu, if_false] at hx
        exact hg x hx

theorem depth_first_search_spec (g : adjacency_list VP EP) (hwf : WF g) :
    ∀ (us : List Nat) (s : DfsState), (∀ u ∈ us, u < num_vertices g) → TopoInv g s →
      (∀ x, s.color x ≠ Color.gray) →
      (∃ s1, depth_first_search g us s = .ok s1 ∧ TopoInv g s1 ∧
        (∀ u ∈ us, s1.color u = Color.black) ∧ DfsExt s s1) ∨
      (depth_first_search g us s = .error Fault.not_a_dag ∧ ¬ Acyclic g) := by
  intro us
  induction us with
  | nil =>
    intro s _ hinv _
    exact Or.inl ⟨s, rfl, hinv, by simp, DfsExt.refl s⟩
  | cons u us ih =>
    intro s hus hinv hng
    have hus' : ∀ x ∈ us, x < num_vertices g := fun x hx => hus x (List.mem_cons_of_mem _ hx)
    unfold depth_first_search
    by_cases hc : s.color u = Color.white
    · simp only [hc, if_true]
      rcases depth_first_visit_spec g hwf (num_vertices g) u s hinv hc
          (hus u (List.mem_cons_self _ _)) (whiteCount_le _ _) with
        ⟨s1, hr, hinv1, hb1, hext1⟩ | ⟨hr, hcyc⟩
      · rw [hr]
        simp only
        have hng1 : ∀ x, s1.color x ≠ Color.gray := fun x hx => hng x ((hext1.1 x).1 hx)
        rcases ih s1 hus' hinv1 hng1 with ⟨s2, hr2, hinv2, hb2, hext2⟩ | ⟨hr2, hcyc2⟩
        · refine Or.inl ⟨s2, hr2, hinv2, ?_, hext1.trans hext2⟩
          intro x hx
          rcases List.mem_cons.1 hx with rfl | hx
          · exact hext2.black hb1
          · exact hb2 x hx
        · exact Or.inr ⟨hr2, hcyc2⟩
      · rw [hr]
        exact Or.inr ⟨rfl, hcyc (fun x hx => absurd hx (hng x))⟩
    · simp only [hc, if_false]
      rcases ih s hus' hinv hng with ⟨s2, hr2, hinv2, hb2, hext2⟩ | ⟨hr2, hcyc2⟩
      · refine Or.inl ⟨s2, hr2, hinv2, ?_, hext2⟩
        intro x hx
        rcases List.mem_cons.1 hx with rfl | hx
        · exact hext2.black (Color.eq_black_of hc (hng x))
        · exact hb2 x hx
      · exact Or.inr ⟨hr2, hcyc2⟩

theorem IsRevTopo.index_lt {g : adjacency_list VP EP} {order : List Nat}
    (h : IsRevTopo g order) {x y : Nat} (hxy : Relation.TransGen (E g) x y) :
    order.indexOf y < order.indexOf x := by
  induction hxy with
  | single hxy => exact h.2.2 _ _ hxy
  | tail _ hyz ih => exact lt_trans (h.2.2 _ _ hyz) ih

theorem IsRevTopo.acyclic {g : adjacency_list VP EP} {order : List Nat}
    (h : IsRevTopo g order) : Acyclic g :=
  fun _ hv => lt_irrefl _ (h.index_lt hv)

/-- On a well-formed graph `topological_sort` returns a reverse topological
listing of all vertices when the graph is acyclic and throws `not_a_dag`
when it is not; it does not run out of fuel. -/
theorem topological_sort_spec (g : adjacency_list VP EP) (hwf : WF g) :
    (∃ order, topological_sort g = .ok order ∧ IsRevTopo g order) ∨
    (topological_sort g = .error Fault.not_a_dag ∧ ¬ Acyclic g) := by
  have hinv0 : TopoInv g ⟨fun _ => Color.white, []⟩ := by
    refine ⟨by simp, by simp, by simp, by simp⟩
  unfold topological_sort
  rcases depth_first_search_spec g hwf (vertices g) ⟨fun _ => Color.white, []⟩
      (fun u hu => by simpa [vertices] using hu) hinv0 (by simp) with
    ⟨s1, hr, ⟨q1, q2, q3, q4⟩, hb, _⟩ | ⟨hr, hcyc⟩
  · rw [hr]
    refine Or.inl ⟨s1.out, rfl, q2, ?_, ?_⟩
    · intro v
      constructor
      · exact q3 v
      · intro hv
        exact (q1 v).1 (hb v (by simpa [vertices] using hv))
    · intro x y hxy
      have hx : x ∈ s1.out := (q1 x).1 (hb x (by simpa [vertices] using (hwf.lt_of_E hxy).1))
      exact (q4 x y hx hxy).2
  · rw [hr]
    exact Or.inr ⟨rfl, hcyc⟩

theorem topological_sort_of_acyclic (g : adjacency_list VP EP) (hwf : WF g) (hac : Acyclic g) :
    ∃ order, topological_sort g = .ok order ∧ IsRevTopo g order := by
  rcases topological_sort_spec g hwf with h | ⟨_, h⟩
  · exact h
  · exact absurd hac h

end dfs

section cycles_sec
variable {I : Type}

/-- On a well-formed graph `cycles` returns, and returns true exactly when the
graph has a cycle. -/
theorem cycles_spec (g : GraphD I) (hwf : WF g) :
    (cycles g = .ok false ∧ Acyclic g) ∨ (cycles g = .ok true ∧ ¬ Acyclic g) := by
  unfold cycles
  rcases topological_sort_spec g hwf with ⟨order, hr, ho⟩ | ⟨hr, hc⟩
  · rw [hr]; exact Or.inl ⟨rfl, ho.acyclic⟩
  · rw [hr]; exact Or.inr ⟨rfl, hc⟩

end cycles_sec

section ops
variable {VP EP : Type}

theorem mem_edges_add_edge [Inhabited VP] (g : adjacency_list VP EP) (u v : Nat) (p : EP)
    (e : list_edge EP) :
    e ∈ (add_edge u v p g).m_edges ↔ e ∈ g.m_edges ∨ (¬ E g u v ∧ e = ⟨u, v, p⟩) := by
  unfold add_edge E
  by_cases h : has_edge g u v = true
  · simp [h]
  · simp [h]

theorem E_add_edge [Inhabited VP] (g : adjacency_list VP EP) (u v : Nat) (p : EP)
    (x y : Nat) :
    E (add_edge u v p g) x y ↔ E g x y ∨ (x = u ∧ y = v) := by
  rw [E_iff, E_iff]
  constructor
  · rintro ⟨e, he, rfl, rfl⟩
    rcases (mem_edges_add_edge g u v p e).1 he with h | ⟨_, rfl⟩
    · exact Or.inl ⟨e, h, rfl, rfl⟩
    · exact Or.inr ⟨rfl, rfl⟩
  · rintro (⟨e, he, rfl, rfl⟩ | ⟨rfl, rfl⟩)
    · exact ⟨e, (mem_edges_add_edge g u v p e).2 (Or.inl he), rfl, rfl⟩
    · by_cases h : E g x y
      · obtain ⟨e, he, h1, h2⟩ := (E_iff g x y).1 h
        exact ⟨e, (mem_edges_add_edge g x y p e).2 (Or.inl he), h1, h2⟩
      · exact ⟨⟨x, y, p⟩, (mem_edges_add_edge g x y p _).2 (Or.inr ⟨h, rfl⟩), rfl, rfl⟩

theorem m_vertices_add_edge [Inhabited VP] (g : adjacency_list VP EP) (u v : Nat) (p : EP)
    (hu : u < num_vertices g) (hv : v < num_vertices g) :
    (add_edge u v p g).m_vertices = g.m_vertices := by
  have h : max u v + 1 - num_vertices g = 0 := by
    have := max_lt hu hv
    omega
  unfold add_edge
  by_cases h1 : has_edge g u v = true
  · simp [h1, h]
  · simp [h1, h]

theorem WF_add_edge [Inhabited VP] (g : adjacency_list VP EP) (u v : Nat) (p : EP)
    (hwf : WF g) (hu : u < num_vertices g) (hv : v < num_vertices g) :
    WF (add_edge u v p g) := by
  intro e he
  have hn : num_vertices (add_edge u v p g) = num_vertices g := by
    unfold num_vertices
    rw [m_vertices_add_edge g u v p hu hv]
  rw [hn]
  rcases (mem_edges_add_edge g u v p e).1 he with h | ⟨_, rfl⟩
  · exact hwf e h
  · exact ⟨hu, hv⟩

theorem E_add_vertex (g : adjacency_list VP EP) (p : VP) (x y : Nat) :
    E (add_vertex p g) x y ↔ E g x y := by
  simp [E, has_edge, add_vertex]

theorem WF_add_vertex (g : adjacency_list VP EP) (p : VP) (hwf : WF g) :
    WF (add_vertex p g) := by
  intro e he
  have := hwf e he
  simp only [num_vertices, add_vertex, List.length_append, List.length_singleton] at *
  omega

theorem E_clear_vertex (g : adjacency_list VP EP) (v x y : Nat) :
    E (clear_vertex v g) x y ↔ E g x y ∧ x ≠ v ∧ y ≠ v := by
  rw [E_iff, E_iff]
  simp only [clear_vertex, List.mem_filter, Bool.not_eq_true', Bool.or_eq_false_iff,
    beq_eq_false_iff_ne, ne_eq]
  constructor
  · rintro ⟨e, ⟨he, h1, h2⟩, rfl, rfl⟩
    exact ⟨⟨e, he, rfl, rfl⟩, h1, h2⟩
  · rintro ⟨⟨e, he, rfl, rfl⟩, h1, h2⟩
    exact ⟨e, ⟨he, h1, h2⟩, rfl, rfl⟩

end ops

section relational

/-- Along edges that all lead to a higher index, paths lead to a higher index. -/
theorem transGen_lt {R : Nat → Nat → Prop} (hmono : ∀ x y, R x y → x < y) {x y : Nat}
    (h : Relation.TransGen R x y) : x < y := by
  induction h with
  | single h => exact hmono _ _ h
  | tail _ h ih => exact lt_trans ih (hmono _ _ h)

theorem transGen_restrict {R R1 : Nat → Nat → Prop} {v d : Nat}
    (hnew : ∀ x y, R1 x y → R x y ∨ (y = d ∧ x ≤ v))
    (hmono : ∀ x y, R1 x y → x < y) {x y : Nat}
    (h : Relation.TransGen R1 x y) (hvx : v < x) : Relation.TransGen R x y := by
  induction h with
  | single h =>
    rcases hnew _ _ h with h1 | ⟨_, h1⟩
    · exact Relation.TransGen.single h1
    · omega
  | tail hxw hwy ih =>
    have := transGen_lt hmono hxw
    rcases hnew _ _ hwy with h1 | ⟨_, h1⟩
    · exact Relation.TransGen.tail ih h1
    · omega

/-- When the edges added after the test at `v` all lead from vertices up to `v` to
the new vertex `d`, a path from `v` to `d` at the time of the test is a path
of length at least 2 in the final graph, and conversely. -/
theorem transGen_iff_long {R R1 : Nat → Nat → Prop} {v d : Nat}
    (hsub : ∀ x y, R x y → R1 x y)
    (hnew : ∀ x y, R1 x y → R x y ∨ (y = d ∧ x ≤ v))
    (hmono : ∀ x y, R1 x y → x < y)
    (hd : ∀ x, R x d → v < x) :
    Relation.TransGen R v d ↔ ∃ m, R1 v m ∧ Relation.TransGen R1 m d := by
  constructor
  · intro h
    obtain ⟨m, hvm, hmd⟩ := Relation.TransGen.head'_iff.1 h
    refine ⟨m, hsub _ _ hvm, ?_⟩
    rcases Relation.reflTransGen_iff_eq_or_transGen.1 hmd with h1 | h1
    · subst h1
      exact absurd (hd _ hvm) (lt_irrefl _)
    · exact Relation.TransGen.mono hsub h1
  · rintro ⟨m, hvm, hmd⟩
    have hlt := hmono _ _ hvm
    have hmd' : m < d := transGen_lt hmono hmd
    rcases hnew _ _ hvm with h1 | ⟨h1, _⟩
    · exact Relation.TransGen.head h1 (transGen_restrict hnew hmono hmd hlt)
    · omega

end relational

section addvertex
variable {I : Type}

theorem add_vertex_step_spec (ops : KernelOps I) (kernel : bh_ir_kernel I) (d v : Nat)
    (g : GraphDW I) (hwf : WF g._bglD) (hv : v < num_vertices g._bglD)
    (hd : d < num_vertices g._bglD) (hvd : v ≠ d) :
    ∃ g1, GraphDW.add_vertex_step ops kernel d v g = some g1 ∧
      g1._bglD.m_vertices = g._bglD.m_vertices ∧ WF g1._bglD ∧
      (∀ x y, E g1._bglD x y ↔ E g._bglD x y ∨
        (x = v ∧ y = d ∧ ops.dependency kernel (bundle g._bglD v) = true ∧
          ¬ Relation.TransGen (E g._bglD) v d)) ∧
      (∀ e, e ∈ g1._bglW.m_edges ↔ e ∈ g._bglW.m_edges ∨
        (¬ E g._bglW v d ∧ e = ⟨v, d, ⟨ops.dependency_cost kernel (bundle g._bglD v)⟩⟩ ∧
          ¬ Relation.TransGen (E g._bglD) v d ∧
          (ops.dependency_cost kernel (bundle g._bglD v) > 0 ∨
            (ops.dependency_cost kernel (bundle g._bglD v) = 0 ∧
              ops.dependency kernel (bundle g._bglD v) = true)))) ∧
      (v < num_vertices g._bglW → d < num_vertices g._bglW →
        g1._bglW.m_vertices = g._bglW.m_vertices) := by
  obtain ⟨r, hr, hiff⟩ := path_exist_spec g._bglD hwf v d hv hvd
  have hdv : (d != v) = true := by
    simp only [bne_iff_ne, ne_eq]
    exact fun h => hvd h.symm
  unfold GraphDW.add_vertex_step
  simp only [hdv, if_true, hr]
  cases r with
  | true =>
    have hp : Relation.TransGen (E g._bglD) v d := hiff.1 rfl
    refine ⟨g, rfl, rfl, hwf, ?_, ?_, fun _ _ => rfl⟩
    · intro x y
      simp [hp]
    · intro e
      simp [hp]
  | false =>
    have hp : ¬ Relation.TransGen (E g._bglD) v d := fun h => by
      have := hiff.2 h
      cases this
    simp only
    have hb : ∀ (gd : GraphD I), gd.m_vertices = g._bglD.m_vertices →
        bundle gd v = bundle g._bglD v := by
      intro gd h
      simp only [bundle, h]
    cases hdep : ops.dependency kernel (bundle g._bglD v) with
    | true =>
      simp only [if_true]
      have hmv := m_vertices_add_edge g._bglD v d () hv hd
      rw [hb _ hmv]
      by_cases hcost : ops.dependency_cost kernel (bundle g._bglD v) > 0
      · simp only [hcost, decide_True, Bool.true_or, if_true]
        refine ⟨_, rfl, hmv, WF_add_edge _ _ _ _ hwf hv hd, ?_, ?_, ?_⟩
        · intro x y
          simp only [GraphDW.add_edgeW]
          rw [E_add_edge]
          simp [hp]
        · intro e
          simp only [GraphDW.add_edgeW]
          rw [mem_edges_add_edge]
          simp [hp, hcost]
        · intro h1 h2
          simp only [GraphDW.add_edgeW]
          exact m_vertices_add_edge _ _ _ _ h1 h2
      · by_cases hcost0 : ops.dependency_cost kernel (bundle g._bglD v) = 0
        · simp only [hcost0, gt_iff_lt, lt_self_iff_false, decide_False, beq_self_eq_true,
            Bool.and_self, Bool.or_true, if_true]
          refine ⟨_, rfl, hmv, WF_add_edge _ _ _ _ hwf hv hd, ?_, ?_, ?_⟩
          · intro x y
            simp only [GraphDW.add_edgeW]
            rw [E_add_edge]
            simp [hp]
          · intro e
            simp only [GraphDW.add_edgeW]
            rw [mem_edges_add_edge]
            simp [hp]
          · intro h1 h2
            simp only [GraphDW.add_edgeW]
            exact m_vertices_add_edge _ _ _ _ h1 h2
        · have hc : (decide (ops.dependency_cost kernel (bundle g._bglD v) > 0) ||
              (ops.dependency_cost kernel (bundle g._bglD v) == 0 && true)) = false := by
            simp [hcost, hcost0]
          simp only [hc]
          refine ⟨_, rfl, hmv, WF_add_edge _ _ _ _ hwf hv hd, ?_, ?_, fun _ _ => rfl⟩
          · intro x y
            rw [E_add_edge]
            simp [hp]
          · intro e
            simp [hcost, hcost0]
    | false =>
      simp only [Bool.false_eq_true, if_false, Bool.and_false, Bool.or_false]
      by_cases hcost : ops.dependency_cost kernel (bundle g._bglD v) > 0
      · simp only [hcost, decide_True, if_true]
        refine ⟨_, rfl, rfl, hwf, ?_, ?_, ?_⟩
        · intro x y
          simp [GraphDW.add_edgeW]
        · intro e
          simp only [GraphDW.add_edgeW]
          rw [mem_edges_add_edge]
          simp [hp, hcost]
        · intro h1 h2
          simp only [GraphDW.add_edgeW]
          exact m_vertices_add_edge _ _ _ _ h1 h2
      · simp only [hcost, decide_False, Bool.false_eq_true, if_false]
        refine ⟨_, rfl, rfl, hwf, ?_, ?_, fun _ _ => rfl⟩
        · intro x y
          simp
        · intro e
          simp [hcost]

end addvertex

section addvertex
variable {I : Type}

theorem add_vertex_loop_total (ops : KernelOps I) (kernel : bh_ir_kernel I) (d : Nat) :
    ∀ (vs : List Nat) (g : GraphDW I), WF g._bglD → d < num_vertices g._bglD →
      (∀ v ∈ vs, v < num_vertices g._bglD) →
      ∃ g1, GraphDW.add_vertex_loop ops kernel d vs g = some g1 ∧
        g1._bglD.m_vertices = g._bglD.m_vertices ∧ WF g1._bglD := by
  intro vs
  induction vs with
  | nil => intro g hwf _ _; exact ⟨g, rfl, rfl, hwf⟩
  | cons v vs ih =>
    intro g hwf hd hvs
    have hstep : ∃ g1, GraphDW.add_vertex_step ops kernel d v g = some g1 ∧
        g1._bglD.m_vertices = g._bglD.m_vertices ∧ WF g1._bglD := by
      by_cases hvd : v = d
      · refine ⟨g, ?_, rfl, hwf⟩
        simp [GraphDW.add_vertex_step, hvd]
      · obtain ⟨g1, h1, h2, h3, _⟩ :=
          add_vertex_step_spec ops kernel d v g hwf (hvs v (List.mem_cons_self _ _)) hd hvd
        exact ⟨g1, h1, h2, h3⟩
    obtain ⟨g1, h1, h2, h3⟩ := hstep
    have hn : num_vertices g1._bglD = num_vertices g._bglD := by
      simp only [num_vertices, h2]
    obtain ⟨g2, k1, k2, k3⟩ := ih g1 h3 (hn ▸ hd)
      (fun x hx => hn ▸ hvs x (List.mem_cons_of_mem _ hx))
    refine ⟨g2, ?_, k2.trans h2, k3⟩
    simp only [GraphDW.add_vertex_loop, h1, k1]

theorem add_vertex_loop_spec (ops : KernelOps I) (kernel : bh_ir_kernel I) (d : Nat)
    (ks : List (bh_ir_kernel I)) :
    ∀ (vs : List Nat) (g : GraphDW I), g._bglD.m_vertices = ks → WF g._bglD →
      d < num_vertices g._bglD → d < num_vertices g._bglW →
      (∀ v ∈ vs, v < d) → vs.Pairwise (· > ·) →
      (∀ x y, E g._bglD x y → x < y) →
      (∀ x, E g._bglD x d → ∀ v ∈ vs, v < x) →
      (∀ x, E g._bglW x d → ∀ v ∈ vs, v < x) →
      ∃ g1, GraphDW.add_vertex_loop ops kernel d vs g = some g1 ∧
        g1._bglD.m_vertices = ks ∧ g1._bglW.m_vertices = g._bglW.m_vertices ∧
        WF g1._bglD ∧
        (∀ x y, E g1._bglD x y ↔ E g._bglD x y ∨
          (x ∈ vs ∧ y = d ∧ ops.dependency kernel (ks.getD x default) = true ∧
            ¬ LongPath g1._bglD x d)) ∧
        (∀ e, e ∈ g1._bglW.m_edges ↔ e ∈ g._bglW.m_edges ∨
          (e.m_source ∈ vs ∧
            e = ⟨e.m_source, d, ⟨ops.dependency_cost kernel (ks.getD e.m_source default)⟩⟩ ∧
            ¬ LongPath g1._bglD e.m_source d ∧
            (ops.dependency_cost kernel (ks.getD e.m_source default) > 0 ∨
              (ops.dependency_cost kernel (ks.getD e.m_source default) = 0 ∧
                ops.dependency kernel (ks.getD e.m_source default) = true)))) := by
  intro vs
  induction vs with
  | nil =>
    intro g hks hwf _ _ _ _ _ _ _
    refine ⟨g, rfl, hks, rfl, hwf, ?_, ?_⟩
    · intro x y; simp
    · intro e; simp
  | cons v vs ih =>
    intro g hks hwf hd hdW hvs hpw hmono hDd hWd
    have hvlt : v < d := hvs v (List.mem_cons_self _ _)
    have hvn : v < num_vertices g._bglD := lt_trans hvlt hd
    have hvs' : ∀ x ∈ vs, x < d := fun x hx => hvs x (List.mem_cons_of_mem _ hx)
    have hlt : ∀ x ∈ vs, x < v := fun x hx => List.rel_of_pairwise_cons hpw hx
    obtain ⟨g1, s1, s2, s3, s4, s5, s6⟩ :=
      add_vertex_step_spec ops kernel d v g hwf hvn hd (ne_of_lt hvlt)
    have s6' := s6 (lt_trans hvlt hdW) hdW
    have hb : bundle g._bglD v = ks.getD v default := by simp only [bundle, hks]
    rw [hb] at s4 s5
    have hn : num_vertices g1._bglD = num_vertices g._bglD := by
      simp only [num_vertices, s2]
    have hnW : num_vertices g1._bglW = num_vertices g._bglW := by
      simp only [num_vertices, s6']
    have hmono1 : ∀ x y, E g1._bglD x y → x < y := by
      intro x y h
      rcases (s4 x y).1 h with h | ⟨rfl, rfl, _⟩
      · exact hmono x y h
      · exact hvlt
    have hDd1 : ∀ x, E g1._bglD x d → ∀ w ∈ vs, w < x := by
      intro x h w hw
      rcases (s4 x d).1 h with h | ⟨rfl, _⟩
      · exact hDd x h w (List.mem_cons_of_mem _ hw)
      · exact hlt w hw
    have hWd1 : ∀ x, E g1._bglW x d → ∀ w ∈ vs, w < x := by
      intro x h w hw
      obtain ⟨e, he, rfl, he2⟩ := (E_iff _ _ _).1 h
      rcases (s5 e).1 he with h | ⟨_, rfl, _⟩
      · exact hWd _ ((E_iff _ _ _).2 ⟨e, h, rfl, he2⟩) w (List.mem_cons_of_mem _ hw)
      · exact hlt w hw
    obtain ⟨g2, k1, k2, k3, k4, k5, k6⟩ := ih g1 (s2.trans hks) s3 (hn ▸ hd) (hnW ▸ hdW) hvs'
      (List.Pairwise.of_cons hpw) hmono1 hDd1 hWd1
    have hsub : ∀ x y, E g._bglD x y → E g2._bglD x y :=
      fun x y h => (k5 x y).2 (Or.inl ((s4 x y).2 (Or.inl h)))
    have hnew : ∀ x y, E g2._bglD x y → E g._bglD x y ∨ (y = d ∧ x ≤ v) := by
      intro x y h
      rcases (k5 x y).1 h with h | ⟨h1, h2, _⟩
      · rcases (s4 x y).1 h with h | ⟨h1, h2, _⟩
        · exact Or.inl h
        · exact Or.inr ⟨h2, le_of_eq h1⟩
      · exact Or.inr ⟨h2, le_of_lt (hlt x h1)⟩
    have hmono2 : ∀ x y, E g2._bglD x y → x < y := by
      intro x y h
      rcases (k5 x y).1 h with h | ⟨h1, h2, _⟩
      · exact hmono1 x y h
      · rw [h2]; exact hvs' x h1
    have hkey : Relation.TransGen (E g._bglD) v d ↔ LongPath g2._bglD v d :=
      transGen_iff_long hsub hnew hmono2
        (fun x h => hDd x h v (List.mem_cons_self _ _))
    have hnotW : ¬ E g._bglW v d := fun h =>
      lt_irrefl v (hWd v h v (List.mem_cons_self _ _))
    refine ⟨g2, ?_, k2, k3.trans s6', k4, ?_, ?_⟩
    · simp only [GraphDW.add_vertex_loop, s1, k1]
    · intro x y
      rw [k5, s4, hkey]
      simp only [List.mem_cons]
      constructor
      · rintro ((h | ⟨rfl, rfl, h1, h2⟩) | ⟨h1, h2, h3, h4⟩)
        · exact Or.inl h
        · exact Or.inr ⟨Or.inl rfl, rfl, h1, h2⟩
        · exact Or.inr ⟨Or.inr h1, h2, h3, h4⟩
      · rintro (h | ⟨rfl | h1, h2, h3, h4⟩)
        · exact Or.inl (Or.inl h)
        · exact Or.inl (Or.inr ⟨rfl, h2, h3, h4⟩)
        · exact Or.inr ⟨h1, h2, h3, h4⟩
    · intro e
      rw [k6, s5, hkey]
      simp only [List.mem_cons]
      constructor
      · rintro ((h | ⟨_, rfl, h1, h2⟩) | ⟨h1, h2, h3, h4⟩)
        · exact Or.inl h
        · exact Or.inr ⟨Or.inl rfl, rfl, h1, h2⟩
        · exact Or.inr ⟨Or.inr h1, h2, h3, h4⟩
      · rintro (h | ⟨h0 | h1, h2, h3, h4⟩)
        · exact Or.inl (Or.inl h)
        · rw [h0] at h2 h3 h4
          exact Or.inl (Or.inr ⟨hnotW, h2, h3, h4⟩)
        · exact Or.inr ⟨h1, h2, h3, h4⟩

end addvertex

section addvertex
variable {I : Type}

theorem range_succ_reverse (n : Nat) :
    (List.range (n + 1)).reverse = n :: (List.range n).reverse := by
  rw [List.range_succ, List.reverse_append]
  rfl

theorem add_vertex_step_self (ops : KernelOps I) (kernel : bh_ir_kernel I) (d : Nat)
    (g : GraphDW I) : GraphDW.add_vertex_step ops kernel d d g = some g := by
  simp [GraphDW.add_vertex_step]

/-- On a well-formed dependency graph `GraphDW::add_vertex` returns. -/
theorem add_vertex_total (ops : KernelOps I) (kernel : bh_ir_kernel I) (g : GraphDW I)
    (hwf : WF g._bglD) :
    ∃ g2, g.add_vertex ops kernel = some (num_vertices g._bglD, g2) ∧
      g2._bglD.m_vertices = g._bglD.m_vertices ++ [kernel] ∧ WF g2._bglD := by
  have hwf1 : WF (dag.add_vertex kernel g._bglD) := WF_add_vertex _ _ hwf
  have hn1 : num_vertices (dag.add_vertex kernel g._bglD) = num_vertices g._bglD + 1 := by
    simp [num_vertices, dag.add_vertex]
  obtain ⟨g2, h1, h2, h3⟩ := add_vertex_loop_total ops kernel (num_vertices g._bglD)
    (vertices (dag.add_vertex kernel g._bglD)).reverse
    ⟨dag.add_vertex kernel g._bglD, dag.add_vertex () g._bglW⟩ hwf1
    (by simp only [hn1]; omega)
    (by
      intro v hv
      simp only [vertices, List.mem_reverse, List.mem_range] at hv
      exact hv)
  refine ⟨g2, ?_, h2, h3⟩
  simp only [GraphDW.add_vertex, h1]

theorem add_vertex_spec (ops : KernelOps I) (kernel : bh_ir_kernel I)
    (ks : List (bh_ir_kernel I)) (g : GraphDW I) (hks : g._bglD.m_vertices = ks)
    (hnW : num_vertices g._bglW = ks.length) (hwf : WF g._bglD) (hwfW : WF g._bglW)
    (hmono : ∀ x y, E g._bglD x y → x < y) :
    ∃ g2, g.add_vertex ops kernel = some (ks.length, g2) ∧
      g2._bglD.m_vertices = ks ++ [kernel] ∧ num_vertices g2._bglW = ks.length + 1 ∧
      WF g2._bglD ∧
      (∀ x y, E g2._bglD x y ↔ E g._bglD x y ∨
        (x < ks.length ∧ y = ks.length ∧ ops.dependency kernel (ks.getD x default) = true ∧
          ¬ LongPath g2._bglD x ks.length)) ∧
      (∀ e, e ∈ g2._bglW.m_edges ↔ e ∈ g._bglW.m_edges ∨
        (e.m_source < ks.length ∧
          e = ⟨e.m_source, ks.length,
            ⟨ops.dependency_cost kernel (ks.getD e.m_source default)⟩⟩ ∧
          ¬ LongPath g2._bglD e.m_source ks.length ∧
          (ops.dependency_cost kernel (ks.getD e.m_source default) > 0 ∨
            (ops.dependency_cost kernel (ks.getD e.m_source default) = 0 ∧
              ops.dependency kernel (ks.getD e.m_source default) = true)))) := by
  have hn : num_vertices g._bglD = ks.length := by simp only [num_vertices, hks]
  have hwf1 : WF (dag.add_vertex kernel g._bglD) := WF_add_vertex _ _ hwf
  have hn1 : num_vertices (dag.add_vertex kernel g._bglD) = ks.length + 1 := by
    simp [num_vertices, dag.add_vertex, hks]
  have hnW1 : num_vertices (dag.add_vertex () g._bglW) = ks.length + 1 := by
    simp only [num_vertices] at hnW
    simp [num_vertices, dag.add_vertex, hnW]
  have hks1 : (dag.add_vertex kernel g._bglD).m_vertices = ks ++ [kernel] := by
    simp [dag.add_vertex, hks]
  obtain ⟨g2, h1, h2, h3, h4, h5, h6⟩ := add_vertex_loop_spec ops kernel ks.length
    (ks ++ [kernel]) (List.range ks.length).reverse
    ⟨dag.add_vertex kernel g._bglD, dag.add_vertex () g._bglW⟩ hks1 hwf1
    (by simp only [hn1]; omega) (by simp only [hnW1]; omega)
    (by
      intro v hv
      simpa using hv)
    (by
      rw [List.pairwise_reverse]
      exact List.pairwise_lt_range _)
    (by
      intro x y h
      exact hmono x y ((E_add_vertex _ _ _ _).1 h))
    (by
      intro x h
      have := (hwf.lt_of_E ((E_add_vertex _ _ _ _).1 h)).2
      omega)
    (by
      intro x h
      have := (hwfW.lt_of_E ((E_add_vertex _ _ _ _).1 h)).2
      omega)
  have hget : ∀ x, x < ks.length → (ks ++ [kernel]).getD x default = ks.getD x default :=
    fun x hx => List.getD_append _ _ _ _ hx
  refine ⟨g2, ?_, h2, ?_, h4, ?_, ?_⟩
  · simp only [GraphDW.add_vertex, hn, vertices, hn1, range_succ_reverse,
      GraphDW.add_vertex_loop, add_vertex_step_self, h1]
  · simp only [num_vertices, h3, dag.add_vertex, List.length_append, List.length_singleton]
    simp only [num_vertices] at hnW
    rw [hnW]
  · intro x y
    rw [h5, E_add_vertex]
    simp only [List.mem_reverse, List.mem_range]
    constructor
    · rintro (h | ⟨a1, a2, a3, a4⟩)
      · exact Or.inl h
      · exact Or.inr ⟨a1, a2, (hget x a1) ▸ a3, a4⟩
    · rintro (h | ⟨a1, a2, a3, a4⟩)
      · exact Or.inl h
      · exact Or.inr ⟨a1, a2, (hget x a1).symm ▸ a3, a4⟩
  · intro e
    rw [h6]
    simp only [List.mem_reverse, List.mem_range, dag.add_vertex]
    constructor
    · rintro (h | ⟨a1, a2, a3, a4⟩)
      · exact Or.inl h
      · rw [hget _ a1] at a2 a4
        exact Or.inr ⟨a1, a2, a3, a4⟩
    · rintro (h | ⟨a1, a2, a3, a4⟩)
      · exact Or.inl h
      · rw [← hget _ a1] at a2 a4
        exact Or.inr ⟨a1, a2, a3, a4⟩

end addvertex

section relational2

theorem transGen_below {R R1 : Nat → Nat → Prop} {d : Nat}
    (hnew : ∀ x y, R1 x y → R x y ∨ y = d)
    (hmono : ∀ x y, R1 x y → x < y) {x y : Nat}
    (h : Relation.TransGen R1 x y) (hy : y < d) : Relation.TransGen R x y := by
  induction h with
  | single h =>
    rcases hnew _ _ h with h1 | h1
    · exact Relation.TransGen.single h1
    · omega
  | tail hxw hwy ih =>
    have := hmono _ _ hwy
    rcases hnew _ _ hwy with h1 | h1
    · exact Relation.TransGen.tail (ih (by omega)) h1
    · omega

end relational2

section frombhir
variable {I : Type}

theorem SingletonInv.edges_lt {ops : KernelOps I} {is : List I} {g : GraphDW I}
    (h : SingletonInv ops is g) : ∀ x y, E g._bglD x y → x < y :=
  fun x y hxy => ((h.2.2.2.2.1 x y).1 hxy).1

theorem LongPath.of_subgraph {VP EP : Type} {g g1 : adjacency_list VP EP}
    (hsub : ∀ x y, E g x y → E g1 x y) {a b : Nat} (h : LongPath g a b) : LongPath g1 a b := by
  obtain ⟨m, h1, h2⟩ := h
  exact ⟨m, hsub _ _ h1, Relation.TransGen.mono hsub h2⟩

theorem LongPath.to_transGen {VP EP : Type} {g : adjacency_list VP EP} {a b : Nat}
    (h : LongPath g a b) : Relation.TransGen (E g) a b := by
  obtain ⟨m, h1, h2⟩ := h
  exact Relation.TransGen.head h1 h2

theorem LongPath.below {VP EP : Type} {g g1 : adjacency_list VP EP} {d : Nat}
    (hnew : ∀ x y, E g1 x y → E g x y ∨ y = d) (hmono : ∀ x y, E g1 x y → x < y)
    {a b : Nat} (h : LongPath g1 a b) (hb : b < d) : LongPath g a b := by
  obtain ⟨m, h1, h2⟩ := h
  have hm : m < b := transGen_lt hmono h2
  refine ⟨m, ?_, transGen_below hnew hmono h2 hb⟩
  rcases hnew _ _ h1 with h3 | h3
  · exact h3
  · omega

theorem SingletonInv_empty (ops : KernelOps I) : SingletonInv ops [] (GraphDW.empty : GraphDW I) := by
  refine ⟨rfl, rfl, ?_, ?_, ?_, ?_⟩
  · intro e he; simp [GraphDW.empty] at he
  · intro e he; simp [GraphDW.empty] at he
  · intro x y
    simp [E, has_edge, GraphDW.empty]
  · intro e
    simp [GraphDW.empty]

theorem SingletonInv_add_vertex (ops : KernelOps I) (is : List I) (i : I) (g : GraphDW I)
    (h : SingletonInv ops is g) :
    ∃ g2, g.add_vertex ops (single i) = some (is.length, g2) ∧
      SingletonInv ops (is ++ [i]) g2 := by
  obtain ⟨c1, c2, c3, c4, c5, c6⟩ := h
  have hmono : ∀ x y, E g._bglD x y → x < y := fun x y hxy => ((c5 x y).1 hxy).1
  have hlen : (is.map single).length = is.length := List.length_map _ _
  obtain ⟨g2, a1, a2, a3, a4, a5, a6⟩ := add_vertex_spec ops (single i) (is.map single) g c1
    (by rw [hlen]; exact c2) c3 c4 hmono
  rw [hlen] at a1 a3 a5 a6
  have hks : (is ++ [i]).map single = is.map single ++ [single i] := by simp
  have hgetlt : ∀ x, x < is.length →
      ((is ++ [i]).map single).getD x default = (is.map single).getD x default := by
    intro x hx
    rw [hks]
    exact List.getD_append _ _ _ _ (by rw [hlen]; exact hx)
  have hgetN : ((is ++ [i]).map single).getD is.length default = single i := by
    rw [hks, List.getD_append_right _ _ _ _ (by rw [hlen])]
    simp [hlen]
  have hnew : ∀ x y, E g2._bglD x y → E g._bglD x y ∨ y = is.length := by
    intro x y hxy
    rcases (a5 x y).1 hxy with h1 | ⟨_, h1, _⟩
    · exact Or.inl h1
    · exact Or.inr h1
  have hsub : ∀ x y, E g._bglD x y → E g2._bglD x y := fun x y hxy => (a5 x y).2 (Or.inl hxy)
  have hmono2 : ∀ x y, E g2._bglD x y → x < y := by
    intro x y hxy
    rcases (a5 x y).1 hxy with h1 | ⟨h1, h2, _⟩
    · exact hmono x y h1
    · omega
  have hlong : ∀ x y, y < is.length → (LongPath g2._bglD x y ↔ LongPath g._bglD x y) :=
    fun x y hy => ⟨fun hl => hl.below hnew hmono2 hy, fun hl => hl.of_subgraph hsub⟩
  have hwfW : WF g2._bglW := by
    intro e he
    rw [a3]
    rcases (a6 e).1 he with h1 | ⟨h1, h2, _⟩
    · have := c4 e h1
      rw [c2] at this
      omega
    · rw [h2]
      simp only
      omega
  refine ⟨g2, a1, ?_, ?_, a4, hwfW, ?_, ?_⟩
  · rw [a2, hks]
  · rw [a3]; simp
  · intro x y
    rw [a5, c5]
    simp only [List.length_append, List.length_singleton]
    constructor
    · rintro (⟨b1, b2, b3, b4⟩ | ⟨b1, b2, b3, b4⟩)
      · refine ⟨b1, by omega, ?_, fun hl => b4 ((hlong x y b2).1 hl)⟩
        rw [hgetlt y b2, hgetlt x (by omega)]
        exact b3
      · subst b2
        refine ⟨b1, by omega, ?_, b4⟩
        rw [hgetN, hgetlt x b1]
        exact b3
    · rintro ⟨b1, b2, b3, b4⟩
      by_cases hy : y < is.length
      · rw [hgetlt y hy, hgetlt x (by omega)] at b3
        exact Or.inl ⟨b1, hy, b3, fun hl => b4 ((hlong x y hy).2 hl)⟩
      · have hyN : y = is.length := by omega
        subst hyN
        rw [hgetN, hgetlt x b1] at b3
        exact Or.inr ⟨b1, rfl, b3, b4⟩
  · intro e
    rw [a6, c6]
    simp only [List.length_append, List.length_singleton]
    constructor
    · rintro (⟨b1, b2, b3, b4, b5⟩ | ⟨b1, b2, b4, b5⟩)
      · rw [hgetlt _ b2, hgetlt _ (lt_trans b1 b2)]
        exact ⟨b1, by omega, b3, fun hl => b4 ((hlong _ _ b2).1 hl), b5⟩
      · have ht : e.m_target = is.length := by rw [b2]
        have hv : e.m_property.value =
            ops.dependency_cost (single i) ((is.map single).getD e.m_source default) := by
          rw [b2]
        rw [ht, hgetN, hgetlt _ b1]
        exact ⟨b1, by omega, hv, b4, b5⟩
    · rintro ⟨b1, b2, b3, b4, b5⟩
      by_cases hy : e.m_target < is.length
      · rw [hgetlt _ hy, hgetlt _ (lt_trans b1 hy)] at b3 b5
        exact Or.inl ⟨b1, hy, b3, fun hl => b4 ((hlong _ _ hy).2 hl), b5⟩
      · have hyN : e.m_target = is.length := by omega
        rw [hyN] at b1 b3 b4 b5
        rw [hgetN, hgetlt _ b1] at b3 b5
        refine Or.inr ⟨b1, ?_, b4, b5⟩
        cases e with
        | mk s t p =>
          cases p with
          | mk val =>
            simp only at hyN b3
            simp only [hyN, b3]

theorem from_bhir_loop_spec (ops : KernelOps I) :
    ∀ (rest pre : List I) (g : GraphDW I), SingletonInv ops pre g →
      ∃ g1, from_bhir_loop ops rest g = (none, g1) ∧ SingletonInv ops (pre ++ rest) g1 := by
  intro rest
  induction rest with
  | nil =>
    intro pre g h
    exact ⟨g, rfl, by simpa using h⟩
  | cons i rest ih =>
    intro pre g h
    obtain ⟨g2, h1, h2⟩ := SingletonInv_add_vertex ops pre i g h
    obtain ⟨g3, k1, k2⟩ := ih (pre ++ [i]) g2 h2
    refine ⟨g3, ?_, by simpa using k2⟩
    have h1' : g.add_vertex ops ((default : bh_ir_kernel I).add_instr i) =
        some (pre.length, g2) := h1
    simp only [from_bhir_loop, h1', k1]

/-- From the empty dag and an empty kernel list `from_bhir` returns the
singleton DAG of the instruction list. -/
theorem from_bhir_spec (ops : KernelOps I) (is : List I) :
    ∃ g, from_bhir ops ⟨is, []⟩ GraphDW.empty = (none, g) ∧ SingletonInv ops is g := by
  obtain ⟨g, h1, h2⟩ := from_bhir_loop_spec ops is [] GraphDW.empty (SingletonInv_empty ops)
  refine ⟨g, ?_, by simpa using h2⟩
  simp [from_bhir, h1]

/-- On a dag with a well-formed dependency graph the loop of `from_bhir` returns
without a fault. -/
theorem from_bhir_loop_total (ops : KernelOps I) :
    ∀ (rest : List I) (g : GraphDW I), WF g._bglD →
      ∃ g1, from_bhir_loop ops rest g = (none, g1) ∧ WF g1._bglD ∧
        num_vertices g1._bglD = num_vertices g._bglD + rest.length := by
  intro rest
  induction rest with
  | nil => intro g h; exact ⟨g, rfl, h, rfl⟩
  | cons i rest ih =>
    intro g h
    obtain ⟨g2, h1, h2, h3⟩ := add_vertex_total ops ((default : bh_ir_kernel I).add_instr i) g h
    obtain ⟨g3, k1, k2, k3⟩ := ih g2 h3
    refine ⟨g3, ?_, k2, ?_⟩
    · simp only [from_bhir_loop, h1, k1]
    · rw [k3]
      have : num_vertices g2._bglD = num_vertices g._bglD + 1 := by
        simp only [num_vertices, h2, List.length_append, List.length_singleton]
      rw [this, List.length_cons]
      omega

end frombhir

section merge
variable {I : Type}

theorem getD_set {α : Type} (l : List α) (v x : Nat) (k d : α) :
    (l.set v k).getD x d = if x = v ∧ v < l.length then k else l.getD x d := by
  simp only [List.getD_eq_getElem?_getD, List.getElem?_set]
  by_cases h : v = x
  · subst h
    by_cases h2 : v < l.length
    · simp [h2]
    · simp only [h2, and_false, if_false, if_true]
      rw [List.getElem?_eq_none (by omega)]
  · have : ¬ x = v := fun hh => h hh.symm
    simp [h, this]

theorem set_getD_self {α : Type} (l : List α) (a : Nat) (d : α) (ha : a < l.length) :
    l.set a (l.getD a d) = l := by
  apply List.ext_getElem?
  intro i
  rw [List.getElem?_set]
  by_cases h : a = i
  · subst h
    simp [ha, List.getD_eq_getElem _ _ ha]
  · simp [h]

/-- The instruction loop of `merge_vertices`: the kernel of `a` gets the listed
instructions appended; nothing else changes. -/
theorem add_instr_foldl (a : Nat) :
    ∀ (l : List I) (g : GraphDW I), a < num_vertices g._bglD →
      (l.foldl (fun d i => d.add_instr a i) g)._bglD.m_vertices =
        g._bglD.m_vertices.set a ⟨(bundle g._bglD a).instr_list ++ l⟩ ∧
      (l.foldl (fun d i => d.add_instr a i) g)._bglD.m_edges = g._bglD.m_edges ∧
      (l.foldl (fun d i => d.add_instr a i) g)._bglW = g._bglW := by
  intro l
  induction l with
  | nil =>
    intro g ha
    refine ⟨?_, rfl, rfl⟩
    simp only [List.foldl_nil, List.append_nil]
    have : (⟨(bundle g._bglD a).instr_list⟩ : bh_ir_kernel I) = bundle g._bglD a := rfl
    rw [this]
    simp only [bundle, num_vertices] at *
    exact (set_getD_self _ _ _ ha).symm
  | cons i l ih =>
    intro g ha
    simp only [List.foldl_cons]
    have ha1 : a < num_vertices (g.add_instr a i)._bglD := by
      simp only [GraphDW.add_instr, num_vertices, List.length_set] at *
      exact ha
    obtain ⟨h1, h2, h3⟩ := ih (g.add_instr a i) ha1
    refine ⟨?_, ?_, ?_⟩
    · rw [h1]
      have hb : bundle (g.add_instr a i)._bglD a = (bundle g._bglD a).add_instr i := by
        simp only [bundle, GraphDW.add_instr]
        rw [getD_set]
        simp only [num_vertices] at ha
        simp [ha]
      rw [hb]
      simp only [GraphDW.add_instr, bh_ir_kernel.add_instr, List.set_set, List.append_assoc,
        List.singleton_append]
    · rw [h2]; rfl
    · rw [h3]; rfl

theorem add_edges_foldl_E (x y : Nat) :
    ∀ (l : List (Nat × Nat)) (g : GraphDW I),
      (E (l.foldl (fun d e => (d.add_edgeW e.1 e.2 (-1)).add_edgeD e.1 e.2) g)._bglD x y ↔
        E g._bglD x y ∨ (x, y) ∈ l) ∧
      (E (l.foldl (fun d e => (d.add_edgeW e.1 e.2 (-1)).add_edgeD e.1 e.2) g)._bglW x y ↔
        E g._bglW x y ∨ (x, y) ∈ l) := by
  intro l
  induction l with
  | nil => intro g; simp
  | cons e l ih =>
    intro g
    simp only [List.foldl_cons, List.mem_cons]
    obtain ⟨h1, h2⟩ := ih ((g.add_edgeW e.1 e.2 (-1)).add_edgeD e.1 e.2)
    rw [h1, h2]
    simp only [GraphDW.add_edgeD, GraphDW.add_edgeW, E_add_edge]
    constructor
    · constructor
      · rintro ((h | ⟨rfl, rfl⟩) | h)
        · exact Or.inl h
        · exact Or.inr (Or.inl rfl)
        · exact Or.inr (Or.inr h)
      · rintro (h | h | h)
        · exact Or.inl (Or.inl h)
        · exact Or.inl (Or.inr ⟨by rw [← h], by rw [← h]⟩)
        · exact Or.inr h
    · constructor
      · rintro ((h | ⟨rfl, rfl⟩) | h)
        · exact Or.inl h
        · exact Or.inr (Or.inl rfl)
        · exact Or.inr (Or.inr h)
      · rintro (h | h | h)
        · exact Or.inl (Or.inl h)
        · exact Or.inl (Or.inr ⟨by rw [← h], by rw [← h]⟩)
        · exact Or.inr h

theorem add_edges_foldl_vertices :
    ∀ (l : List (Nat × Nat)) (g : GraphDW I),
      (∀ e ∈ l, e.1 < num_vertices g._bglD ∧ e.2 < num_vertices g._bglD) →
      (l.foldl (fun d e => (d.add_edgeW e.1 e.2 (-1)).add_edgeD e.1 e.2) g)._bglD.m_vertices =
        g._bglD.m_vertices := by
  intro l
  induction l with
  | nil => intro g _; rfl
  | cons e l ih =>
    intro g hl
    simp only [List.foldl_cons]
    obtain ⟨h1, h2⟩ := hl e (List.mem_cons_self _ _)
    have hmv : ((g.add_edgeW e.1 e.2 (-1)).add_edgeD e.1 e.2)._bglD.m_vertices =
        g._bglD.m_vertices := by
      simp only [GraphDW.add_edgeD, GraphDW.add_edgeW]
      exact m_vertices_add_edge _ _ _ _ h1 h2
    rw [ih _ (by
      intro e' he'
      simp only [num_vertices, hmv]
      exact hl e' (List.mem_cons_of_mem _ he')), hmv]

theorem add_edges_foldl_verticesW :
    ∀ (l : List (Nat × Nat)) (g : GraphDW I),
      (∀ e ∈ l, e.1 < num_vertices g._bglW ∧ e.2 < num_vertices g._bglW) →
      (l.foldl (fun d e => (d.add_edgeW e.1 e.2 (-1)).add_edgeD e.1 e.2) g)._bglW.m_vertices =
        g._bglW.m_vertices := by
  intro l
  induction l with
  | nil => intro g _; rfl
  | cons e l ih =>
    intro g hl
    simp only [List.foldl_cons]
    obtain ⟨h1, h2⟩ := hl e (List.mem_cons_self _ _)
    have hmv : ((g.add_edgeW e.1 e.2 (-1)).add_edgeD e.1 e.2)._bglW.m_vertices =
        g._bglW.m_vertices := by
      simp only [GraphDW.add_edgeD, GraphDW.add_edgeW]
      exact m_vertices_add_edge _ _ _ _ h1 h2
    rw [ih _ (by
      intro e' he'
      simp only [num_vertices, hmv]
      exact hl e' (List.mem_cons_of_mem _ he')), hmv]

end merge

section merge
variable {I : Type}

theorem E_congr {VP EP VP1 : Type} {g : adjacency_list VP EP} {g1 : adjacency_list VP1 EP}
    (h : g1.m_edges = g.m_edges) (x y : Nat) : E g1 x y ↔ E g x y := by
  simp only [E, has_edge, h]

theorem add_instr_foldl_edges (a : Nat) :
    ∀ (l : List I) (g : GraphDW I),
      (l.foldl (fun d i => d.add_instr a i) g)._bglD.m_edges = g._bglD.m_edges ∧
      (l.foldl (fun d i => d.add_instr a i) g)._bglW = g._bglW := by
  intro l
  induction l with
  | nil => intro g; exact ⟨rfl, rfl⟩
  | cons i l ih =>
    intro g
    simp only [List.foldl_cons]
    obtain ⟨h1, h2⟩ := ih (g.add_instr a i)
    exact ⟨h1.trans rfl, h2.trans rfl⟩

/-- The pairs collected in `edges2add` by `merge_vertices(a, b, dag)`. -/
theorem mem_edges2add {VP EP : Type} (g : adjacency_list VP EP) (a b x y : Nat) :
    (x, y) ∈ ((adjacent_vertices b g).filter (fun v => a != v)).map (fun v => (a, v)) ++
        ((inv_adjacent_vertices b g).filter (fun v => a != v)).map (fun v => (v, a)) ↔
      (x = a ∧ y ≠ a ∧ E g b y) ∨ (y = a ∧ x ≠ a ∧ E g x b) := by
  simp only [List.mem_append, List.mem_map, List.mem_filter, mem_adjacent_vertices,
    mem_inv_adjacent_vertices, bne_iff_ne, ne_eq, Prod.mk.injEq]
  constructor
  · rintro (⟨v, ⟨h1, h2⟩, rfl, rfl⟩ | ⟨v, ⟨h1, h2⟩, rfl, rfl⟩)
    · exact Or.inl ⟨rfl, fun h => h2 h.symm, h1⟩
    · exact Or.inr ⟨rfl, fun h => h2 h.symm, h1⟩
  · rintro (⟨rfl, h1, h2⟩ | ⟨rfl, h1, h2⟩)
    · exact Or.inl ⟨y, ⟨h2, fun h => h1 h.symm⟩, rfl, rfl⟩
    · exact Or.inr ⟨x, ⟨h2, fun h => h1 h.symm⟩, rfl, rfl⟩

theorem update_weights_D (ops : KernelOps I) (v : Nat) (g : GraphDW I) :
    (g.update_weights ops v)._bglD = g._bglD := rfl

theorem update_weights_EW (ops : KernelOps I) (v : Nat) (g : GraphDW I) (x y : Nat)
    (h : E (g.update_weights ops v)._bglW x y) : E g._bglW x y := by
  obtain ⟨e, he, rfl, rfl⟩ := (E_iff _ _ _).1 h
  simp only [GraphDW.update_weights, List.mem_filter, List.mem_map] at he
  obtain ⟨⟨e0, he0, rfl⟩, _⟩ := he
  refine (E_iff _ _ _).2 ⟨e0, he0, ?_, ?_⟩
  · split <;> rfl
  · split <;> rfl

theorem update_weights_verticesW (ops : KernelOps I) (v : Nat) (g : GraphDW I) :
    (g.update_weights ops v)._bglW.m_vertices = g._bglW.m_vertices := rfl

theorem clear_vertex_ED (b : Nat) (g : GraphDW I) (x y : Nat) :
    E (g.clear_vertex b)._bglD x y ↔ E g._bglD x y ∧ x ≠ b ∧ y ≠ b := by
  rw [← E_clear_vertex]
  exact E_congr rfl x y

theorem clear_vertex_EW (b : Nat) (g : GraphDW I) (x y : Nat) :
    E (g.clear_vertex b)._bglW x y ↔ E g._bglW x y ∧ x ≠ b ∧ y ≠ b :=
  E_clear_vertex _ _ _ _

theorem clear_vertex_vertices (b : Nat) (g : GraphDW I) :
    (g.clear_vertex b)._bglD.m_vertices = g._bglD.m_vertices.set b ⟨[]⟩ := rfl

theorem clear_vertex_verticesW (b : Nat) (g : GraphDW I) :
    (g.clear_vertex b)._bglW.m_vertices = g._bglW.m_vertices := rfl

/-- The function `merge_vertices(a, b, dag)` as the sequence of its steps. -/
theorem merge_vertices_eq (ops : KernelOps I) (a b : Nat) (g : GraphDW I) :
    ∃ g1 : GraphDW I,
      g1 = (bundle g._bglD b).instr_list.foldl (fun d i => d.add_instr a i) g ∧
      merge_vertices ops a b g =
        ((((adjacent_vertices b g1._bglD).filter (fun v => a != v)).map (fun v => (a, v)) ++
          ((inv_adjacent_vertices b g1._bglD).filter (fun v => a != v)).map
            (fun v => (v, a))).foldl
          (fun d e => (d.add_edgeW e.1 e.2 (-1)).add_edgeD e.1 e.2) g1
          |>.clear_vertex b |>.update_weights ops a) := by
  refine ⟨(bundle g._bglD b).instr_list.foldl (fun d i => d.add_instr a i) g, rfl, ?_⟩
  rfl

/-- The dependency edges after `merge_vertices(a, b, dag)`: the old edges not
incident to `b`, `a -> y` for every old successor `y` of `b` and `x -> a` for
every old predecessor `x` of `b`, `x` and `y` other than `a` and `b`. -/
theorem merge_vertices_E (ops : KernelOps I) (a b : Nat) (g : GraphDW I) (x y : Nat) :
    E (merge_vertices ops a b g)._bglD x y ↔
      x ≠ b ∧ y ≠ b ∧
        (E g._bglD x y ∨ (x = a ∧ y ≠ a ∧ E g._bglD b y) ∨
          (y = a ∧ x ≠ a ∧ E g._bglD x b)) := by
  obtain ⟨g1, hg1, heq⟩ := merge_vertices_eq ops a b g
  obtain ⟨h1, _⟩ := add_instr_foldl_edges a (bundle g._bglD b).instr_list g
  rw [← hg1] at h1
  rw [heq, update_weights_D, clear_vertex_ED, (add_edges_foldl_E x y _ _).1,
    mem_edges2add, E_congr h1 x y, E_congr h1 b y, E_congr h1 x b]
  tauto

/-- The weight edges after `merge_vertices(a, b, dag)` join vertices that were
joined by a weight edge, or by one of the added pairs. -/
theorem merge_vertices_EW (ops : KernelOps I) (a b : Nat) (g : GraphDW I) (x y : Nat)
    (h : E (merge_vertices ops a b g)._bglW x y) :
    x ≠ b ∧ y ≠ b ∧
      (E g._bglW x y ∨ (x = a ∧ y ≠ a ∧ E g._bglD b y) ∨
        (y = a ∧ x ≠ a ∧ E g._bglD x b)) := by
  obtain ⟨g1, hg1, heq⟩ := merge_vertices_eq ops a b g
  obtain ⟨h1, h2⟩ := add_instr_foldl_edges a (bundle g._bglD b).instr_list g
  rw [← hg1] at h1 h2
  rw [heq] at h
  have h3 := (clear_vertex_EW b _ x y).1 (update_weights_EW ops a _ x y h)
  obtain ⟨h4, h5, h6⟩ := h3
  have h7 := (add_edges_foldl_E x y _ g1).2.1 h4
  rw [mem_edges2add, h2, E_congr h1 b y, E_congr h1 x b] at h7
  exact ⟨h5, h6, h7⟩

theorem merge_vertices_vertices (ops : KernelOps I) (a b : Nat) (g : GraphDW I)
    (hwf : WF g._bglD) (ha : a < num_vertices g._bglD) :
    (merge_vertices ops a b g)._bglD.m_vertices =
      (g._bglD.m_vertices.set a
        ⟨(bundle g._bglD a).instr_list ++ (bundle g._bglD b).instr_list⟩).set b ⟨[]⟩ := by
  obtain ⟨g1, hg1, heq⟩ := merge_vertices_eq ops a b g
  obtain ⟨h1, h2, _⟩ := add_instr_foldl a (bundle g._bglD b).instr_list g ha
  rw [← hg1] at h1 h2
  have hn : num_vertices g1._bglD = num_vertices g._bglD := by
    simp only [num_vertices, h1, List.length_set]
  rw [heq, update_weights_D, clear_vertex_vertices, add_edges_foldl_vertices, h1]
  intro e he
  cases e with
  | mk x y =>
    rw [mem_edges2add, E_congr h2, E_congr h2] at he
    rw [hn]
    rcases he with ⟨rfl, _, h⟩ | ⟨rfl, _, h⟩
    · exact ⟨ha, (hwf.lt_of_E h).2⟩
    · exact ⟨(hwf.lt_of_E h).1, ha⟩

theorem merge_vertices_verticesW (ops : KernelOps I) (a b : Nat) (g : GraphDW I)
    (hwf : WF g._bglD) (ha : a < num_vertices g._bglD)
    (hn : num_vertices g._bglW = num_vertices g._bglD) :
    (merge_vertices ops a b g)._bglW.m_vertices = g._bglW.m_vertices := by
  obtain ⟨g1, hg1, heq⟩ := merge_vertices_eq ops a b g
  obtain ⟨h2, h3⟩ := add_instr_foldl_edges a (bundle g._bglD b).instr_list g
  rw [← hg1] at h2 h3
  rw [heq, update_weights_verticesW, clear_vertex_verticesW, add_edges_foldl_verticesW, h3]
  intro e he
  cases e with
  | mk x y =>
    rw [mem_edges2add, E_congr h2, E_congr h2] at he
    rw [h3, hn]
    rcases he with ⟨rfl, _, h⟩ | ⟨rfl, _, h⟩
    · exact ⟨ha, (hwf.lt_of_E h).2⟩
    · exact ⟨(hwf.lt_of_E h).1, ha⟩

theorem merge_vertices_WF (ops : KernelOps I) (a b : Nat) (g : GraphDW I)
    (hwf : WF g._bglD) (ha : a < num_vertices g._bglD) :
    WF (merge_vertices ops a b g)._bglD ∧
      num_vertices (merge_vertices ops a b g)._bglD = num_vertices g._bglD := by
  have hn : num_vertices (merge_vertices ops a b g)._bglD = num_vertices g._bglD := by
    simp only [num_vertices, merge_vertices_vertices ops a b g hwf ha, List.length_set]
  refine ⟨?_, hn⟩
  intro e he
  rw [hn]
  have hE : E (merge_vertices ops a b g)._bglD e.m_source e.m_target :=
    (E_iff _ _ _).2 ⟨e, he, rfl, rfl⟩
  rw [merge_vertices_E] at hE
  obtain ⟨_, _, h | ⟨h1, _, h2⟩ | ⟨h1, _, h2⟩⟩ := hE
  · exact hwf.lt_of_E h
  · exact ⟨h1 ▸ ha, (hwf.lt_of_E h2).2⟩
  · exact ⟨(hwf.lt_of_E h2).1, h1 ▸ ha⟩

/-- The kernels after `merge_vertices(a, b, dag)`. -/
theorem merge_vertices_bundle (ops : KernelOps I) (a b : Nat) (g : GraphDW I)
    (hwf : WF g._bglD) (ha : a < num_vertices g._bglD) (hb : b < num_vertices g._bglD)
    (v : Nat) :
    bundle (merge_vertices ops a b g)._bglD v =
      if v = b then ⟨[]⟩
      else if v = a then ⟨(bundle g._bglD a).instr_list ++ (bundle g._bglD b).instr_list⟩
      else bundle g._bglD v := by
  have h0 : bundle (merge_vertices ops a b g)._bglD v =
      (merge_vertices ops a b g)._bglD.m_vertices.getD v default := rfl
  rw [h0, merge_vertices_vertices ops a b g hwf ha, getD_set, getD_set]
  simp only [num_vertices] at ha hb
  simp only [List.length_set, hb, ha, and_true, bundle]

end merge

section rank

theorem transGen_rank {α : Type} [Preorder α] {R : Nat → Nat → Prop} (f : Nat → α)
    (hrank : ∀ x y, R x y → f x < f y) {x y : Nat} (h : Relation.TransGen R x y) :
    f x < f y := by
  induction h with
  | single h => exact hrank _ _ h
  | tail _ h ih => exact lt_trans ih (hrank _ _ h)

theorem acyclic_of_rank {α : Type} [Preorder α] {R : Nat → Nat → Prop} (f : Nat → α)
    (hrank : ∀ x y, R x y → f x < f y) (v : Nat) : ¬ Relation.TransGen R v v :=
  fun h => lt_irrefl _ (transGen_rank f hrank h)

/-- An acyclic well-formed graph has a numbering that increases along every edge. -/
theorem rank_of_acyclic {VP EP : Type} (g : adjacency_list VP EP) (hwf : WF g)
    (hac : Acyclic g) : ∃ f : Nat → Nat, ∀ x y, E g x y → f x < f y := by
  classical
  refine ⟨fun v => ((Finset.range (num_vertices g)).filter
    (fun u => Relation.TransGen (E g) u v)).card, ?_⟩
  intro x y hxy
  apply Finset.card_lt_card
  rw [Finset.ssubset_iff_of_subset]
  · refine ⟨x, ?_, ?_⟩
    · simp only [Finset.mem_filter, Finset.mem_range]
      exact ⟨(hwf.lt_of_E hxy).1, Relation.TransGen.single hxy⟩
    · simp only [Finset.mem_filter, Finset.mem_range, not_and]
      exact fun _ => hac x
  · intro u hu
    simp only [Finset.mem_filter, Finset.mem_range] at hu ⊢
    exact ⟨hu.1, Relation.TransGen.tail hu.2 hxy⟩

/-- Merging `b` into `a` keeps a graph acyclic when no path of length at least 2
leads from `a` to `b` or from `b` to `a`. -/
theorem contract_rank {R : Nat → Nat → Prop} (f : Nat → Nat)
    (hrank : ∀ x y, R x y → f x < f y) (a b : Nat)
    (h1 : ¬ ∃ m, R a m ∧ Relation.TransGen R m b)
    (h2 : ¬ ∃ m, R b m ∧ Relation.TransGen R m a) :
    ∃ f1 : Nat → Lex (Nat × Nat), ∀ x y, CE R a b x y → f1 x < f1 y := by
  classical
  have hirr : ∀ v, ¬ Relation.TransGen R v v := acyclic_of_rank f hrank
  refine ⟨fun v => toLex (if v = a then 1
    else if Relation.TransGen R a v ∨ Relation.TransGen R b v then 2 else 0, f v), ?_⟩
  intro x y hxy
  obtain ⟨hxb, hyb, hc⟩ := hxy
  rw [Prod.Lex.lt_iff]
  simp only
  by_cases hxa : x = a
  · subst hxa
    have hya : y ≠ x := by
      rcases hc with h | ⟨_, h, _⟩ | ⟨_, h, _⟩
      · rintro rfl
        exact hirr _ (Relation.TransGen.single h)
      · exact h
      · exact absurd rfl h
    have hD : Relation.TransGen R x y ∨ Relation.TransGen R b y := by
      rcases hc with h | ⟨_, _, h⟩ | ⟨h, _, _⟩
      · exact Or.inl (Relation.TransGen.single h)
      · exact Or.inr (Relation.TransGen.single h)
      · exact absurd h hya
    left
    simp [hya, hD]
  · by_cases hya : y = a
    · subst hya
      have hnD : ¬ (Relation.TransGen R y x ∨ Relation.TransGen R b x) := by
        rcases hc with h | ⟨h, _, _⟩ | ⟨_, _, h⟩
        · rintro (h3 | h3)
          · exact hirr _ (Relation.TransGen.tail h3 h)
          · obtain ⟨m, hm1, hm2⟩ := Relation.TransGen.head'_iff.1 h3
            exact h2 ⟨m, hm1, Relation.TransGen.tail' hm2 h⟩
        · exact absurd h hxa
        · rintro (h3 | h3)
          · obtain ⟨m, hm1, hm2⟩ := Relation.TransGen.head'_iff.1 h3
            exact h1 ⟨m, hm1, Relation.TransGen.tail' hm2 h⟩
          · exact hirr _ (Relation.TransGen.tail h3 h)
      left
      simp [hxa, hnD]
    · have hR : R x y := by
        rcases hc with h | ⟨h, _, _⟩ | ⟨h, _, _⟩
        · exact h
        · exact absurd h hxa
        · exact absurd h hya
      have hf := hrank _ _ hR
      by_cases hDx : Relation.TransGen R a x ∨ Relation.TransGen R b x
      · have hDy : Relation.TransGen R a y ∨ Relation.TransGen R b y := by
          rcases hDx with h | h
          · exact Or.inl (Relation.TransGen.tail h hR)
          · exact Or.inr (Relation.TransGen.tail h hR)
        right
        simp [hxa, hya, hDx, hDy, hf]
      · by_cases hDy : Relation.TransGen R a y ∨ Relation.TransGen R b y
        · left
          simp [hxa, hya, hDx, hDy]
        · right
          simp [hxa, hya, hDx, hDy, hf]

/-- A path of the old graph is, after `b` is merged into `a`, a path between the
vertices standing for its ends, unless these coincide. -/
theorem contract_path {R : Nat → Nat → Prop} {a b : Nat} (hab : a ≠ b) {u v : Nat}
    (h : Relation.TransGen R u v) :
    contract a b u = contract a b v ∨
      Relation.TransGen (CE R a b) (contract a b u) (contract a b v) := by
  have hedge : ∀ x y, R x y → contract a b x = contract a b y ∨
      CE R a b (contract a b x) (contract a b y) := by
    intro x y hxy
    by_cases hc : contract a b x = contract a b y
    · exact Or.inl hc
    · right
      unfold contract at hc ⊢
      by_cases hx : x = b
      · by_cases hy : y = b
        · simp [hx, hy] at hc
        · simp only [hx, hy, if_true, if_false] at hc ⊢
          subst hx
          exact ⟨hab, hy, Or.inr (Or.inl ⟨rfl, fun h => hc h.symm, hxy⟩)⟩
      · by_cases hy : y = b
        · simp only [hx, hy, if_true, if_false] at hc ⊢
          subst hy
          exact ⟨hx, hab, Or.inr (Or.inr ⟨rfl, hc, hxy⟩)⟩
        · simp only [hx, hy, if_false] at hc ⊢
          exact ⟨hx, hy, Or.inl hxy⟩
  induction h with
  | single h =>
    rcases hedge _ _ h with h1 | h1
    · exact Or.inl h1
    · exact Or.inr (Relation.TransGen.single h1)
  | tail _ hyz ih =>
    rcases ih with h1 | h1
    · rcases hedge _ _ hyz with h2 | h2
      · exact Or.inl (h1.trans h2)
      · rw [h1]
        exact Or.inr (Relation.TransGen.single h2)
    · rcases hedge _ _ hyz with h2 | h2
      · rw [← h2]
        exact Or.inr h1
      · exact Or.inr (Relation.TransGen.tail h1 h2)

end rank

section mergeacyclic
variable {I : Type}

theorem merge_vertices_CE (ops : KernelOps I) (a b : Nat) (g : GraphDW I) (x y : Nat) :
    E (merge_vertices ops a b g)._bglD x y ↔ CE (E g._bglD) a b x y :=
  merge_vertices_E ops a b g x y

theorem acyclic_congr {VP EP : Type} {g : adjacency_list VP EP} {R : Nat → Nat → Prop}
    (h : ∀ x y, E g x y ↔ R x y) : Acyclic g ↔ ∀ v, ¬ Relation.TransGen R v v := by
  have : E g = R := by
    funext x y
    exact propext (h x y)
  unfold Acyclic
  rw [this]

/-- Merging keeps the dependency graph acyclic when no path of length at least 2
joins the two vertices in either direction. -/
theorem merge_vertices_acyclic (ops : KernelOps I) (a b : Nat) (g : GraphDW I)
    (hwf : WF g._bglD) (hac : Acyclic g._bglD)
    (h1 : ¬ LongPath g._bglD a b) (h2 : ¬ LongPath g._bglD b a) :
    Acyclic (merge_vertices ops a b g)._bglD := by
  obtain ⟨f, hf⟩ := rank_of_acyclic g._bglD hwf hac
  obtain ⟨f1, hf1⟩ := contract_rank f hf a b h1 h2
  rw [acyclic_congr (merge_vertices_CE ops a b g)]
  exact acyclic_of_rank f1 hf1

end mergeacyclic

section fusion
variable {I : Type}

theorem single_instr_list (i : I) : (single i).instr_list = [i] := rfl

theorem singleton_getD (is : List I) (v : Nat) (hv : v < is.length) :
    (is.map single).getD v default = single (is.get ⟨v, hv⟩) := by
  rw [List.getD_eq_getElem _ _ (by simpa using hv), List.getElem_map]
  rfl

theorem SingletonInv.dep_path {ops : KernelOps I} {is : List I} {g : GraphDW I}
    (h : SingletonInv ops is g) (j k : Fin is.length) (hjk : j < k)
    (hdep : ops.dependency (single (is.get k)) (single (is.get j)) = true) :
    Relation.TransGen (E g._bglD) j k := by
  by_cases hl : LongPath g._bglD j k
  · exact hl.to_transGen
  · apply Relation.TransGen.single
    rw [h.2.2.2.2.1]
    refine ⟨hjk, k.2, ?_, hl⟩
    rw [singleton_getD is k k.2, singleton_getD is j j.2]
    exact hdep

/-- The singleton DAG satisfies the invariant of the fusion passes. -/
theorem FusionInv_of_singleton (ops : KernelOps I) (is : List I) (g : GraphDW I)
    (h : SingletonInv ops is g) :
    FusionInv ops is g._bglD (fun v => if hv : v < is.length then [⟨v, hv⟩] else []) := by
  have hmono := h.edges_lt
  obtain ⟨c1, _, c3, _, c5, _⟩ := h
  refine ⟨c3, ?_, ?_, ?_, ?_, ?_, ?_, ?_⟩
  · intro v
    simp only [bundle, c1]
    by_cases hv : v < is.length
    · simp only [hv, dite_true, List.map_cons, List.map_nil]
      rw [singleton_getD is v hv]
      rfl
    · simp only [hv, dite_false, List.map_nil]
      rw [List.getD_eq_default _ _ (by simpa using hv)]
      rfl
  · intro v
    by_cases hv : v < is.length
    · simp [hv]
    · simp [hv]
  · intro u v j hu hv
    by_cases h1 : u < is.length
    · by_cases h2 : v < is.length
      · simp only [h1, h2, dite_true, List.mem_singleton] at hu hv
        have := congrArg Fin.val (hu.symm.trans hv)
        simpa using this
      · simp [h2] at hv
    · simp [h1] at hu
  · intro j
    exact ⟨j, by simp⟩
  · intro v hv
    exact lt_irrefl _ (transGen_lt hmono hv)
  · intro j k hjk hdep
    right
    refine ⟨j, k, by simp, by simp, ?_⟩
    exact SingletonInv.dep_path ⟨c1, ‹_›, c3, ‹_›, c5, ‹_›⟩ j k hjk hdep
  · intro x y hxy
    obtain ⟨h1, h2, _⟩ := (c5 x y).1 hxy
    have h3 : x < is.length := lt_trans h1 h2
    simp [h2, h3]

/-- A merge of `b` into `a` keeps the invariant of the fusion passes when the
dependency graph stays acyclic and no path leads from `b` to `a`. -/
theorem FusionInv_merge (ops : KernelOps I) (is : List I) (g : GraphDW I)
    (gh : Nat → List (Fin is.length)) (a b : Nat)
    (h : FusionInv ops is g._bglD gh)
    (ha : a < num_vertices g._bglD) (hb : b < num_vertices g._bglD) (hab : a ≠ b)
    (hac : Acyclic (merge_vertices ops a b g)._bglD)
    (hba : ¬ Relation.TransGen (E g._bglD) b a) :
    FusionInv ops is (merge_vertices ops a b g)._bglD
      (fun v => if v = b then [] else if v = a then gh a ++ gh b else gh v) := by
  obtain ⟨g0, g1, g2, g3, g4, g6, g7, g8⟩ := h
  have hgh : ∀ v, v ≠ a → v ≠ b →
      (fun v => if v = b then [] else if v = a then gh a ++ gh b else gh v) v = gh v := by
    intro v h1 h2
    simp [h1, h2]
  have hgha : (fun v => if v = b then [] else if v = a then gh a ++ gh b else gh v) a
      = gh a ++ gh b := by
    simp [hab]
  have hmemc : ∀ (v : Nat) (j : Fin is.length), j ∈ gh v →
      j ∈ (fun v => if v = b then [] else if v = a then gh a ++ gh b else gh v)
        (contract a b v) := by
    intro v j hj
    unfold contract
    by_cases hvb : v = b
    · subst hvb
      simp only [if_true, hab, if_false, List.mem_append]
      exact Or.inr hj
    · by_cases hva : v = a
      · subst hva
        simp only [hvb, if_false, if_true, List.mem_append]
        exact Or.inl hj
      · simp only [hvb, hva, if_false]
        exact hj
  refine ⟨(merge_vertices_WF ops a b g g0 ha).1, ?_, ?_, ?_, ?_, hac, ?_, ?_⟩
  · intro v
    rw [merge_vertices_bundle ops a b g g0 ha hb v]
    by_cases hvb : v = b
    · simp [hvb]
    · simp only [hvb, if_false]
      by_cases hva : v = a
      · simp only [hva, if_true, List.map_append, g1]
      · simp only [hva, if_false, g1]
  · intro v
    simp only
    by_cases hvb : v = b
    · simp [hvb]
    · simp only [hvb, if_false]
      by_cases hva : v = a
      · simp only [hva, if_true]
        rw [List.nodup_append]
        refine ⟨g2 a, g2 b, ?_⟩
        intro j hj1 hj2
        exact hab (g3 a b j hj1 hj2)
      · simp only [hva, if_false]
        exact g2 v
  · intro u v j hu hv
    simp only at hu hv
    by_cases hub : u = b
    · simp [hub] at hu
    · by_cases hvb : v = b
      · simp [hvb] at hv
      · simp only [hub, hvb, if_false] at hu hv
        by_cases hua : u = a
        · by_cases hva : v = a
          · rw [hua, hva]
          · simp only [hua, hva, if_true, if_false, List.mem_append] at hu hv
            rcases hu with hu | hu
            · exact absurd (g3 _ _ j hu hv).symm hva
            · exact absurd (g3 _ _ j hu hv).symm hvb
        · by_cases hva : v = a
          · simp only [hua, hva, if_true, if_false, List.mem_append] at hu hv
            rcases hv with hv | hv
            · exact absurd (g3 _ _ j hu hv) hua
            · exact absurd (g3 _ _ j hu hv) hub
          · simp only [hua, hva, if_false] at hu hv
            exact g3 _ _ j hu hv
  · intro j
    obtain ⟨v, hv⟩ := g4 j
    exact ⟨contract a b v, hmemc v j hv⟩
  · intro j k hjk hdep
    rcases g7 j k hjk hdep with ⟨v, l1, l2, hv, hj, hk⟩ | ⟨u, v, hj, hk, hp⟩
    · left
      by_cases hvb : v = b
      · refine ⟨a, gh a ++ l1, l2, ?_, List.mem_append_right _ hj, hk⟩
        rw [hgha, ← hvb, hv, List.append_assoc]
      · by_cases hva : v = a
        · refine ⟨a, l1, l2 ++ gh b, ?_, hj, List.mem_append_left _ hk⟩
          rw [hgha, ← hva, hv, List.append_assoc]
        · exact ⟨v, l1, l2, by rw [hgh v hva hvb, hv], hj, hk⟩
    · rcases contract_path hab hp with hc | hc
      · left
        have huv : u ≠ v := by
          rintro rfl
          exact g6 u hp
        unfold contract at hc
        by_cases hub : u = b
        · by_cases hvb : v = b
          · exact absurd (hub.trans hvb.symm) huv
          · simp only [hub, hvb, if_true, if_false] at hc
            rw [hub, ← hc] at hp
            exact absurd hp hba
        · by_cases hvb : v = b
          · simp only [hub, hvb, if_true, if_false] at hc
            refine ⟨a, gh a, gh b, hgha, ?_, ?_⟩
            · rw [← hc]; exact hj
            · rw [← hvb]; exact hk
          · simp only [hub, hvb, if_false] at hc
            exact absurd hc huv
      · right
        refine ⟨contract a b u, contract a b v, hmemc u j hj, hmemc v k hk, ?_⟩
        have : E (merge_vertices ops a b g)._bglD = CE (E g._bglD) a b := by
          funext x y
          exact propext (merge_vertices_CE ops a b g x y)
        rw [this]
        exact hc
  · intro x y hxy
    obtain ⟨hxb, hyb, hc⟩ := (merge_vertices_E ops a b g x y).1 hxy
    simp only [hxb, hyb, if_false]
    have happ : ∀ l1 l2 : List (Fin is.length), (l1 ≠ [] ∨ l2 ≠ []) → l1 ++ l2 ≠ [] := by
      intro l1 l2 h
      simp only [ne_eq, List.append_eq_nil, not_and_or]
      exact h
    rcases hc with h | ⟨h1, h2, h3⟩ | ⟨h1, h2, h3⟩
    · obtain ⟨k1, k2⟩ := g8 x y h
      constructor
      · by_cases hxa : x = a
        · simp only [hxa, if_true]
          exact happ _ _ (Or.inl (hxa ▸ k1))
        · simp only [hxa, if_false]
          exact k1
      · by_cases hya : y = a
        · simp only [hya, if_true]
          exact happ _ _ (Or.inl (hya ▸ k2))
        · simp only [hya, if_false]
          exact k2
    · obtain ⟨k1, k2⟩ := g8 b y h3
      simp only [h1, h2, if_true, if_false]
      exact ⟨happ _ _ (Or.inr k1), k2⟩
    · obtain ⟨k1, k2⟩ := g8 x b h3
      simp only [h1, h2, if_true, if_false]
      exact ⟨k1, happ _ _ (Or.inr k2)⟩

end fusion

section degrees
variable {VP EP : Type}

theorem in_degree_pos_iff (g : adjacency_list VP EP) (v : Nat) :
    0 < in_degree v g ↔ ∃ x, E g x v := by
  unfold in_degree
  rw [List.length_pos_iff_exists_mem]
  simp only [List.mem_filter, beq_iff_eq, E_iff]
  constructor
  · rintro ⟨e, he, h⟩
    exact ⟨e.m_source, e, he, rfl, h⟩
  · rintro ⟨x, e, he, _, h⟩
    exact ⟨e, he, h⟩

theorem out_degree_pos_iff (g : adjacency_list VP EP) (v : Nat) :
    0 < out_degree v g ↔ ∃ y, E g v y := by
  unfold out_degree
  rw [List.length_pos_iff_exists_mem]
  simp only [List.mem_filter, beq_iff_eq, E_iff]
  constructor
  · rintro ⟨e, he, h⟩
    exact ⟨e.m_target, e, he, h, rfl⟩
  · rintro ⟨x, e, he, h, _⟩
    exact ⟨e, he, h⟩

theorem in_degree_eq_one (g : adjacency_list VP EP) {src dst : Nat}
    (h1 : in_degree dst g = 1) (h : E g src dst) : ∀ x, E g x dst → x = src := by
  unfold in_degree at h1
  obtain ⟨e0, he0⟩ := List.length_eq_one.1 h1
  have hmem : ∀ x, E g x dst → x = e0.m_source := by
    intro x hx
    obtain ⟨e, he, rfl, h2⟩ := (E_iff _ _ _).1 hx
    have : e ∈ g.m_edges.filter (fun e => e.m_target == dst) := by
      simp [List.mem_filter, he, h2]
    rw [he0, List.mem_singleton] at this
    rw [this]
  intro x hx
  rw [hmem x hx, hmem src h]

theorem out_degree_eq_one (g : adjacency_list VP EP) {src dst : Nat}
    (h1 : out_degree src g = 1) (h : E g src dst) : ∀ y, E g src y → y = dst := by
  unfold out_degree at h1
  obtain ⟨e0, he0⟩ := List.length_eq_one.1 h1
  have hmem : ∀ y, E g src y → y = e0.m_target := by
    intro y hy
    obtain ⟨e, he, h2, rfl⟩ := (E_iff _ _ _).1 hy
    have : e ∈ g.m_edges.filter (fun e => e.m_source == src) := by
      simp [List.mem_filter, he, h2]
    rw [he0, List.mem_singleton] at this
    rw [this]
  intro y hy
  rw [hmem y hy, hmem dst h]

/-- An edge whose target has no other predecessor, or whose source has no other
successor, is the only path from its source to its target. -/
theorem no_long_path_of_shape (g : adjacency_list VP EP) (hac : Acyclic g) {src dst : Nat}
    (h : E g src dst) (hs : in_degree dst g = 1 ∨ out_degree src g = 1) :
    ¬ LongPath g src dst ∧ ¬ LongPath g dst src := by
  constructor
  · rintro ⟨m, hm1, hm2⟩
    rcases hs with hs | hs
    · obtain ⟨w, hw1, hw2⟩ := Relation.TransGen.tail'_iff.1 hm2
      have := in_degree_eq_one g hs h w hw2
      subst this
      exact hac w (Relation.TransGen.head' hm1 hw1)
    · have := out_degree_eq_one g hs h m hm1
      subst this
      exact hac m hm2
  · intro hl
    exact hac src (Relation.TransGen.head h hl.to_transGen)

theorem active_iff (g : adjacency_list VP EP) (v : Nat) :
    0 < in_degree v g + out_degree v g ↔ (∃ x, E g x v) ∨ (∃ y, E g v y) := by
  rw [← in_degree_pos_iff, ← out_degree_pos_iff]
  omega

theorem active_count_le (g : adjacency_list VP EP) : active_count g ≤ num_vertices g := by
  unfold active_count
  calc _ ≤ (Finset.range (num_vertices g)).card := Finset.card_filter_le _ _
    _ = num_vertices g := Finset.card_range _

end degrees

section gentle
variable {I : Type}

/-- A merge along an edge isolates the target and gives no other vertex its
first edge. -/
theorem active_count_merge (ops : KernelOps I) (g : GraphDW I) (hwf : WF g._bglD) {a b : Nat}
    (h : E g._bglD a b) :
    active_count (merge_vertices ops a b g)._bglD < active_count g._bglD := by
  have ha := (hwf.lt_of_E h).1
  have hb := (hwf.lt_of_E h).2
  unfold active_count
  rw [(merge_vertices_WF ops a b g hwf ha).2]
  apply Finset.card_lt_card
  rw [Finset.ssubset_iff_of_subset]
  · refine ⟨b, ?_, ?_⟩
    · simp only [Finset.mem_filter, Finset.mem_range, active_iff]
      exact ⟨hb, Or.inl ⟨a, h⟩⟩
    · simp only [Finset.mem_filter, Finset.mem_range, active_iff, not_and]
      rintro _ (⟨x, hx⟩ | ⟨y, hy⟩)
      · exact ((merge_vertices_E _ _ _ _ _ _).1 hx).2.1 rfl
      · exact ((merge_vertices_E _ _ _ _ _ _).1 hy).1 rfl
  · intro v hv
    simp only [Finset.mem_filter, Finset.mem_range, active_iff] at hv ⊢
    refine ⟨hv.1, ?_⟩
    rcases hv.2 with ⟨x, hx⟩ | ⟨y, hy⟩
    · obtain ⟨_, _, h1 | ⟨_, _, h1⟩ | ⟨h1, _, h2⟩⟩ := (merge_vertices_E _ _ _ _ _ _).1 hx
      · exact Or.inl ⟨x, h1⟩
      · exact Or.inl ⟨b, h1⟩
      · exact Or.inr ⟨b, h1 ▸ h⟩
    · obtain ⟨_, _, h1 | ⟨h1, _, h2⟩ | ⟨_, _, h1⟩⟩ := (merge_vertices_E _ _ _ _ _ _).1 hy
      · exact Or.inr ⟨y, h1⟩
      · exact Or.inr ⟨b, h1 ▸ h⟩
      · exact Or.inr ⟨b, h1⟩

/-- A pass of `fuse_gentle` that merges does so along an edge whose target has a
single predecessor or whose source has a single successor. -/
theorem fuse_gentle_pass_some (ops : KernelOps I) (g : GraphDW I) :
    ∀ (es : List EdgeD) (g1 : GraphDW I), (∀ e ∈ es, e ∈ g._bglD.m_edges) →
      fuse_gentle_pass ops g es = some g1 →
      ∃ e ∈ es, (in_degree e.m_target g._bglD = 1 ∨ out_degree e.m_source g._bglD = 1) ∧
        ops.fusible_gently (bundle g._bglD e.m_target) (bundle g._bglD e.m_source) = true ∧
        g1 = merge_vertices ops e.m_source e.m_target g := by
  intro es
  induction es with
  | nil => intro g1 _ h; simp [fuse_gentle_pass] at h
  | cons e es ih =>
    intro g1 hes h
    unfold fuse_gentle_pass at h
    simp only at h
    split at h
    · rename_i hc
      simp only [Bool.and_eq_true, Bool.or_eq_true, beq_iff_eq, decide_eq_true_eq] at hc
      obtain ⟨hshape, hfus⟩ := hc
      refine ⟨e, List.mem_cons_self _ _, ?_, hfus, by simpa using h.symm⟩
      have hE : E g._bglD e.m_source e.m_target :=
        (E_iff _ _ _).2 ⟨e, hes e (List.mem_cons_self _ _), rfl, rfl⟩
      have hpos : 0 < in_degree e.m_target g._bglD :=
        (in_degree_pos_iff _ _).2 ⟨_, hE⟩
      rcases hshape with (h1 | h1) | h1
      · exact Or.inl h1.1
      · exact Or.inr h1.2
      · left; omega
    · obtain ⟨e1, he1, h1⟩ := ih g1 (fun e he => hes e (List.mem_cons_of_mem _ he)) h
      exact ⟨e1, List.mem_cons_of_mem _ he1, h1⟩

/-- The loop of `fuse_gentle` returns: every merge lowers the number of vertices
that have an edge.  Whatever its merges preserve holds of the result. -/
theorem fuse_gentle_loop_spec (ops : KernelOps I) (P : GraphDW I → Prop)
    (hP : ∀ (g : GraphDW I) (a b : Nat), P g → WF g._bglD → E g._bglD a b →
      (in_degree b g._bglD = 1 ∨ out_degree a g._bglD = 1) →
      P (merge_vertices ops a b g)) :
    ∀ (fuel : Nat) (g : GraphDW I), WF g._bglD → P g → active_count g._bglD < fuel →
      ∃ g1, fuse_gentle_loop ops fuel g = some g1 ∧ P g1 ∧ WF g1._bglD ∧
        num_vertices g1._bglD = num_vertices g._bglD ∧
        fuse_gentle_pass ops g1 (edges g1._bglD) = none := by
  intro fuel
  induction fuel with
  | zero => intro g _ _ h; omega
  | succ fuel ih =>
    intro g hwf hp hfuel
    unfold fuse_gentle_loop
    cases hpass : fuse_gentle_pass ops g (edges g._bglD) with
    | none => exact ⟨g, rfl, hp, hwf, rfl, hpass⟩
    | some g1 =>
      simp only
      obtain ⟨e, he, hshape, _, rfl⟩ := fuse_gentle_pass_some ops g (edges g._bglD) g1
        (fun e he => he) hpass
      have hE : E g._bglD e.m_source e.m_target := (E_iff _ _ _).2 ⟨e, he, rfl, rfl⟩
      obtain ⟨hwf1, hn1⟩ := merge_vertices_WF ops e.m_source e.m_target g hwf
        (hwf.lt_of_E hE).1
      have hlt := active_count_merge ops g hwf hE
      obtain ⟨g2, k1, k2, k3, k4, k5⟩ := ih _ hwf1
        (hP g _ _ hp hwf hE hshape) (by omega)
      exact ⟨g2, k1, k2, k3, k4.trans hn1, k5⟩

end gentle

section removal
variable {VP EP : Type}

theorem reindex_unindex (u x : Nat) : reindex u (unindex u x) = x := by
  unfold reindex unindex
  by_cases h : x < u
  · simp only [h, if_true]
    have : ¬ x > u := by omega
    simp [this]
  · simp only [h, if_false]
    have : x + 1 > u := by omega
    simp [this]

theorem unindex_reindex (u x : Nat) (h : x ≠ u) : unindex u (reindex u x) = x := by
  unfold reindex unindex
  by_cases h1 : x > u
  · simp only [h1, if_true]
    have : ¬ x - 1 < u := by omega
    simp only [this, if_false]
    omega
  · simp only [h1, if_false]
    have : x < u := by omega
    simp [this]

theorem E_remove_vertex (g : adjacency_list VP EP) (u x y : Nat) :
    E (remove_vertex u g) x y ↔ ∃ x0 y0, E g x0 y0 ∧ reindex u x0 = x ∧ reindex u y0 = y := by
  rw [E_iff]
  simp only [remove_vertex, List.mem_map]
  constructor
  · rintro ⟨e, ⟨e0, he0, rfl⟩, rfl, rfl⟩
    exact ⟨e0.m_source, e0.m_target, (E_iff _ _ _).2 ⟨e0, he0, rfl, rfl⟩, rfl, rfl⟩
  · rintro ⟨x0, y0, h, rfl, rfl⟩
    obtain ⟨e0, he0, rfl, rfl⟩ := (E_iff _ _ _).1 h
    exact ⟨_, ⟨e0, he0, rfl⟩, rfl, rfl⟩

theorem E_remove_vertex_of_isolated (g : adjacency_list VP EP) (u x y : Nat)
    (hiso : ∀ z, ¬ E g z u ∧ ¬ E g u z) :
    E (remove_vertex u g) x y ↔ E g (unindex u x) (unindex u y) := by
  rw [E_remove_vertex]
  constructor
  · rintro ⟨x0, y0, h, rfl, rfl⟩
    have hx : x0 ≠ u := by
      rintro rfl
      exact (hiso y0).2 h
    have hy : y0 ≠ u := by
      rintro rfl
      exact (hiso x0).1 h
    rw [unindex_reindex u x0 hx, unindex_reindex u y0 hy]
    exact h
  · intro h
    exact ⟨_, _, h, reindex_unindex u x, reindex_unindex u y⟩

theorem bundle_remove_vertex [Inhabited VP] (g : adjacency_list VP EP) (u v : Nat) :
    bundle (remove_vertex u g) v = bundle g (unindex u v) := by
  simp only [bundle, remove_vertex, List.getD_eq_getElem?_getD, List.getElem?_eraseIdx, unindex]
  by_cases h : v < u
  · simp [h]
  · simp [h]

theorem num_vertices_remove_vertex (g : adjacency_list VP EP) (u : Nat)
    (hu : u < num_vertices g) : num_vertices (remove_vertex u g) + 1 = num_vertices g := by
  simp only [num_vertices, remove_vertex] at *
  rw [List.length_eraseIdx_of_lt hu]
  omega

theorem WF_remove_vertex (g : adjacency_list VP EP) (u : Nat) (hwf : WF g)
    (hu : u < num_vertices g) (hiso : ∀ z, ¬ E g z u ∧ ¬ E g u z) :
    WF (remove_vertex u g) := by
  intro e he
  have hn := num_vertices_remove_vertex g u hu
  simp only [remove_vertex, List.mem_map] at he
  obtain ⟨e0, he0, rfl⟩ := he
  have hE : E g e0.m_source e0.m_target := (E_iff _ _ _).2 ⟨e0, he0, rfl, rfl⟩
  have hx : e0.m_source ≠ u := by
    intro h
    exact (hiso e0.m_target).2 (h ▸ hE)
  have hy : e0.m_target ≠ u := by
    intro h
    exact (hiso e0.m_source).1 (h ▸ hE)
  obtain ⟨h1, h2⟩ := hwf e0 he0
  simp only [reindex]
  constructor
  · split <;> omega
  · split <;> omega

end removal

section removal2
variable {I : Type}

/-- Erasing an empty vertex keeps the invariant of the fusion passes. -/
theorem FusionInv_remove_vertex (ops : KernelOps I) (is : List I) (g : GraphD I)
    (gh : Nat → List (Fin is.length)) (u : Nat) (h : FusionInv ops is g gh)
    (hu : u < num_vertices g) (hempty : gh u = []) :
    FusionInv ops is (remove_vertex u g) (fun v => gh (unindex u v)) := by
  obtain ⟨g0, g1, g2, g3, g4, g6, g7, g8⟩ := h
  have hiso : ∀ z, ¬ E g z u ∧ ¬ E g u z :=
    fun z => ⟨fun hz => (g8 z u hz).2 hempty, fun hz => (g8 u z hz).1 hempty⟩
  have hE := fun x y => E_remove_vertex_of_isolated g u x y hiso
  have hmem : ∀ (v : Nat) (j : Fin is.length), j ∈ gh v → gh (unindex u (reindex u v)) = gh v := by
    intro v j hj
    rw [unindex_reindex]
    rintro rfl
    rw [hempty] at hj
    simp at hj
  have hinj : ∀ x y, unindex u x = unindex u y → x = y := by
    intro x y hxy
    have := congrArg (reindex u) hxy
    rwa [reindex_unindex, reindex_unindex] at this
  refine ⟨WF_remove_vertex g u g0 hu hiso, ?_, ?_, ?_, ?_, ?_, ?_, ?_⟩
  · intro v
    rw [bundle_remove_vertex, g1]
  · intro v
    exact g2 _
  · intro x y j hx hy
    exact hinj x y (g3 _ _ j hx hy)
  · intro j
    obtain ⟨v, hv⟩ := g4 j
    exact ⟨reindex u v, by simp only [hmem v j hv]; exact hv⟩
  · intro v hv
    apply g6 (unindex u v)
    exact Relation.TransGen.lift (unindex u) (fun a b hab => (hE a b).1 hab) hv
  · intro j k hjk hdep
    rcases g7 j k hjk hdep with ⟨v, l1, l2, hv, hj, hk⟩ | ⟨x, y, hj, hk, hp⟩
    · left
      refine ⟨reindex u v, l1, l2, ?_, hj, hk⟩
      simp only
      rw [hmem v j (by rw [hv]; exact List.mem_append_left _ hj), hv]
    · right
      refine ⟨reindex u x, reindex u y, ?_, ?_, ?_⟩
      · simp only [hmem x j hj]; exact hj
      · simp only [hmem y k hk]; exact hk
      · exact Relation.TransGen.lift (reindex u)
          (fun a b hab => (E_remove_vertex g u _ _).2 ⟨a, b, hab, rfl, rfl⟩) hp
  · intro x y hxy
    exact g8 _ _ ((hE x y).1 hxy)

theorem GwSub_remove_vertex (g : GraphDW I) (u : Nat) (h : GwSub g) :
    GwSub (g.remove_vertex u) := by
  intro x y hxy
  obtain ⟨x0, y0, h1, h2, h3⟩ := (E_remove_vertex _ _ _ _).1 hxy
  exact (E_remove_vertex _ _ _ _).2 ⟨x0, y0, h x0 y0 h1, h2, h3⟩

theorem remove_vertices_foldl (ops : KernelOps I) (is : List I) :
    ∀ (l : List Nat) (g : GraphDW I) (gh : Nat → List (Fin is.length)),
      l.Pairwise (· > ·) → (∀ u ∈ l, u < num_vertices g._bglD ∧ gh u = []) →
      FusionInv ops is g._bglD gh →
      ∃ gh1, FusionInv ops is (l.foldl (fun g v => g.remove_vertex v) g)._bglD gh1 ∧
        (GwSub g → GwSub (l.foldl (fun g v => g.remove_vertex v) g)) := by
  intro l
  induction l with
  | nil => intro g gh _ _ h; exact ⟨gh, h, fun h => h⟩
  | cons u l ih =>
    intro g gh hpw hl h
    obtain ⟨hu, hempty⟩ := hl u (List.mem_cons_self _ _)
    have h1 := FusionInv_remove_vertex ops is g._bglD gh u h hu hempty
    have hn := num_vertices_remove_vertex g._bglD u hu
    obtain ⟨gh1, k1, k2⟩ := ih (g.remove_vertex u) (fun v => gh (unindex u v))
      (List.Pairwise.of_cons hpw)
      (by
        intro v hv
        have hvu : v < u := List.rel_of_pairwise_cons hpw hv
        obtain ⟨hv1, hv2⟩ := hl v (List.mem_cons_of_mem _ hv)
        refine ⟨?_, ?_⟩
        · have : num_vertices (g.remove_vertex u)._bglD + 1 = num_vertices g._bglD := hn
          omega
        · simp only [unindex, hvu, if_true]
          exact hv2)
      h1
    exact ⟨gh1, k1, fun hs => k2 (GwSub_remove_vertex g u hs)⟩

/-- The method `remove_empty_vertices` keeps the invariant of the fusion passes. -/
theorem FusionInv_remove_empty_vertices (ops : KernelOps I) (is : List I) (g : GraphDW I)
    (gh : Nat → List (Fin is.length)) (h : FusionInv ops is g._bglD gh) :
    ∃ gh1, FusionInv ops is g.remove_empty_vertices._bglD gh1 ∧
      (GwSub g → GwSub g.remove_empty_vertices) := by
  unfold GraphDW.remove_empty_vertices
  apply remove_vertices_foldl ops is _ g gh _ _ h
  · rw [List.pairwise_reverse]
    exact List.Pairwise.filter _ (List.pairwise_lt_range _)
  · intro u hu
    simp only [List.mem_reverse, List.mem_filter, vertices, List.mem_range, beq_iff_eq,
      List.length_eq_zero] at hu
    refine ⟨hu.1, ?_⟩
    have := h.2.1 u
    rw [hu.2] at this
    exact List.map_eq_nil_iff.1 this.symm

end removal2

section lists

theorem indexOf_lt_of_append {α : Type} [DecidableEq α] {p : List α} (l1 l2 : List α) {j k : α}
    (hp : p = l1 ++ l2) (hnd : p.Nodup) (hj : j ∈ l1) (hk : k ∈ l2) :
    p.indexOf j < p.indexOf k := by
  subst hp
  have hk1 : k ∉ l1 := fun h => (List.nodup_append.1 hnd).2.2 h hk
  rw [List.indexOf_append_of_mem hj, List.indexOf_append_of_not_mem hk1]
  have := List.indexOf_lt_length.2 hj
  omega

theorem split_of_indexOf_lt {α : Type} [DecidableEq α] :
    ∀ (l : List α) (x y : α), y ∈ l → l.indexOf x < l.indexOf y →
      ∃ l1 l2, l = l1 ++ l2 ∧ x ∈ l1 ∧ y ∈ l2 := by
  intro l
  induction l with
  | nil => intro x y hy _; simp at hy
  | cons a t ih =>
    intro x y hy h
    by_cases hay : a = y
    · rw [List.indexOf_cons_eq _ hay] at h
      omega
    · have hyt : y ∈ t := by
        rcases List.mem_cons.1 hy with h1 | h1
        · exact absurd h1.symm hay
        · exact h1
      by_cases hax : a = x
      · exact ⟨[a], t, rfl, by simp [hax], hyt⟩
      · rw [List.indexOf_cons_ne _ hax, List.indexOf_cons_ne _ hay] at h
        obtain ⟨l1, l2, h1, h2, h3⟩ := ih x y hyt (by omega)
        exact ⟨a :: l1, l2, by rw [h1]; rfl, List.mem_cons_of_mem _ h2, h3⟩

end lists

section extraction
variable {I : Type}

theorem fill_kernels_foldl (g : GraphD I) :
    ∀ (l : List Nat) (ks : List (bh_ir_kernel I)),
      l.foldl (fun ks v => if (bundle g v).instr_list.length > 0 then ks ++ [bundle g v] else ks)
          ks =
        ks ++ (l.filter (fun v => decide ((bundle g v).instr_list.length > 0))).map (bundle g) := by
  intro l
  induction l with
  | nil => intro ks; simp
  | cons v l ih =>
    intro ks
    simp only [List.foldl_cons, List.filter_cons]
    rw [ih]
    by_cases h : (bundle g v).instr_list.length > 0
    · simp [h]
    · simp [h]

/-- On a well-formed acyclic graph `fill_kernels` appends the non-empty kernels
in the reverse of a reverse topological listing of the vertices. -/
theorem fill_kernels_spec (g : GraphD I) (hwf : WF g) (hac : Acyclic g)
    (ks : List (bh_ir_kernel I)) :
    ∃ order, IsRevTopo g order ∧
      fill_kernels g ks = .ok (ks ++
        (order.reverse.filter (fun v => decide ((bundle g v).instr_list.length > 0))).map
          (bundle g)) := by
  obtain ⟨order, h1, h2⟩ := topological_sort_of_acyclic g hwf hac
  refine ⟨order, h2, ?_⟩
  unfold fill_kernels
  rw [h1]
  simp only
  rw [fill_kernels_foldl]

theorem flatten_kernels (is : List I) (g : GraphD I) (gh : Nat → List (Fin is.length))
    (h1 : ∀ v, (bundle g v).instr_list = (gh v).map is.get) :
    ∀ l : List Nat,
      (((l.filter (fun v => decide ((bundle g v).instr_list.length > 0))).map (bundle g)).map
        (fun k => k.instr_list)).flatten = (l.flatMap gh).map is.get := by
  intro l
  induction l with
  | nil => simp
  | cons v l ih =>
    rw [List.filter_cons, List.flatMap_cons, List.map_append]
    by_cases h : (bundle g v).instr_list.length > 0
    · rw [if_pos (by simpa using h)]
      simp only [List.map_cons, List.flatten_cons]
      rw [ih, h1]
    · rw [if_neg (by simpa using h), ih]
      have : (bundle g v).instr_list = [] := by
        apply List.eq_nil_of_length_eq_zero
        omega
      rw [← h1, this, List.nil_append]

/-- Under the invariant of the fusion passes `fill_kernels` lists every
instruction of the batch exactly once and lists every instruction after the
earlier instructions it depends on. -/
theorem fill_kernels_order (ops : KernelOps I) (is : List I) (g : GraphD I)
    (gh : Nat → List (Fin is.length)) (h : FusionInv ops is g gh) :
    ∃ (ks : List (bh_ir_kernel I)) (p : List (Fin is.length)),
      fill_kernels g [] = .ok ks ∧
      (ks.map (fun k => k.instr_list)).flatten = p.map is.get ∧
      p.Perm (List.finRange is.length) ∧
      ∀ j k : Fin is.length, j < k →
        ops.dependency (single (is.get k)) (single (is.get j)) = true →
        p.indexOf j < p.indexOf k := by
  obtain ⟨g0, g1, g2, g3, g4, g6, g7, g8⟩ := h
  obtain ⟨order, ho, hfill⟩ := fill_kernels_spec g g0 g6 []
  have hlt : ∀ (v : Nat) (j : Fin is.length), j ∈ gh v → v < num_vertices g := by
    intro v j hj
    by_contra hv
    have hb : bundle g v = default := List.getD_eq_default _ _ (by
      simp only [num_vertices] at hv
      omega)
    have := g1 v
    rw [hb] at this
    have h2 : gh v = [] := List.map_eq_nil_iff.1 this.symm
    rw [h2] at hj
    simp at hj
  have hmemo : ∀ (v : Nat) (j : Fin is.length), j ∈ gh v → v ∈ order.reverse := by
    intro v j hj
    rw [List.mem_reverse, ho.2.1]
    exact hlt v j hj
  have hnd : (order.reverse.flatMap gh).Nodup := by
    rw [List.nodup_flatMap]
    refine ⟨fun v _ => g2 v, ?_⟩
    have : order.reverse.Nodup := List.nodup_reverse.2 ho.1
    refine List.Pairwise.imp ?_ this
    intro a b hab j hja hjb
    exact hab (g3 a b j hja hjb)
  refine ⟨_, order.reverse.flatMap gh, hfill, ?_, ?_, ?_⟩
  · rw [List.nil_append]
    exact flatten_kernels is g gh g1 _
  · rw [List.perm_ext_iff_of_nodup hnd (List.nodup_finRange _)]
    intro j
    simp only [List.mem_finRange, iff_true, List.mem_flatMap]
    obtain ⟨v, hv⟩ := g4 j
    exact ⟨v, hmemo v j hv, hv⟩
  · intro j k hjk hdep
    rcases g7 j k hjk hdep with ⟨v, l1, l2, hv, hj, hk⟩ | ⟨u, v, hj, hk, hp⟩
    · have hvm : v ∈ order.reverse :=
        hmemo v j (by rw [hv]; exact List.mem_append_left _ hj)
      obtain ⟨s, t, hst⟩ := List.append_of_mem hvm
      apply indexOf_lt_of_append (s.flatMap gh ++ l1) (l2 ++ t.flatMap gh) _ hnd
      · exact List.mem_append_right _ hj
      · exact List.mem_append_left _ hk
      · rw [hst, List.flatMap_append, List.flatMap_cons, hv]
        simp only [List.append_assoc]
    · have hidx := ho.index_lt hp
      have hu : u ∈ order := (ho.2.1 u).2 (hlt u j hj)
      obtain ⟨a1, a2, ha, hv1, hu2⟩ := split_of_indexOf_lt order v u hu hidx
      apply indexOf_lt_of_append (a2.reverse.flatMap gh) (a1.reverse.flatMap gh)
        _ hnd
      · exact List.mem_flatMap.2 ⟨u, List.mem_reverse.2 hu2, hj⟩
      · exact List.mem_flatMap.2 ⟨v, List.mem_reverse.2 hv1, hk⟩
      · rw [ha, List.reverse_append, List.flatMap_append]

end extraction

section gentlefusion
variable {I : Type}

theorem GwSub_merge (ops : KernelOps I) (a b : Nat) (g : GraphDW I) (h : GwSub g) :
    GwSub (merge_vertices ops a b g) := by
  intro x y hxy
  obtain ⟨h1, h2, h3⟩ := merge_vertices_EW ops a b g x y hxy
  rw [merge_vertices_E]
  refine ⟨h1, h2, ?_⟩
  rcases h3 with h3 | h3 | h3
  · exact Or.inl (h x y h3)
  · exact Or.inr (Or.inl h3)
  · exact Or.inr (Or.inr h3)

/-- A merge that `fuse_gentle` performs keeps the invariant of the fusion passes. -/
theorem FusionInv_gentle_merge (ops : KernelOps I) (is : List I) (g : GraphDW I)
    (gh : Nat → List (Fin is.length)) (a b : Nat) (h : FusionInv ops is g._bglD gh)
    (hE : E g._bglD a b) (hs : in_degree b g._bglD = 1 ∨ out_degree a g._bglD = 1) :
    ∃ gh1, FusionInv ops is (merge_vertices ops a b g)._bglD gh1 := by
  have hwf := h.1
  have hac := h.2.2.2.2.2.1
  obtain ⟨hl1, hl2⟩ := no_long_path_of_shape g._bglD hac hE hs
  refine ⟨_, FusionInv_merge ops is g gh a b h (hwf.lt_of_E hE).1 (hwf.lt_of_E hE).2 ?_
    (merge_vertices_acyclic ops a b g hwf hac hl1 hl2) ?_⟩
  · rintro rfl
    exact hac a (Relation.TransGen.single hE)
  · intro hba
    exact hac a (Relation.TransGen.head hE hba)

/-- The function `fuse_gentle` returns and keeps the invariant of the fusion
passes. -/
theorem fuse_gentle_spec (ops : KernelOps I) (is : List I) (g : GraphDW I)
    (gh : Nat → List (Fin is.length)) (h : FusionInv ops is g._bglD gh) :
    ∃ g1 gh1, fuse_gentle ops g = some g1 ∧ FusionInv ops is g1._bglD gh1 ∧
      (GwSub g → GwSub g1) := by
  obtain ⟨g1, k1, ⟨⟨gh1, k2⟩, k3⟩, _, _, _⟩ := fuse_gentle_loop_spec ops
    (fun g1 => (∃ gh1, FusionInv ops is g1._bglD gh1) ∧ (GwSub g → GwSub g1))
    (by
      rintro g1 a b ⟨⟨gh1, h1⟩, h2⟩ _ hE hs
      exact ⟨FusionInv_gentle_merge ops is g1 gh1 a b h1 hE hs,
        fun hg => GwSub_merge ops a b g1 (h2 hg)⟩)
    (num_vertices g._bglD + 1) g h.1 ⟨⟨gh, h⟩, fun hg => hg⟩
    (Nat.lt_succ_of_le (active_count_le _))
  obtain ⟨gh2, m1, m2⟩ := FusionInv_remove_empty_vertices ops is g1 gh1 k2
  refine ⟨g1.remove_empty_vertices, gh2, ?_, m1, fun hg => m2 (k3 hg)⟩
  simp only [fuse_gentle, k1]

end gentlefusion

section greedy
variable {I : Type}

theorem mem_sort_weights (es : List EdgeW) (e : EdgeW) : e ∈ sort_weights es ↔ e ∈ es := by
  unfold sort_weights
  exact (List.perm_insertionSort _ es).mem_iff

theorem fuse_greedy_pass_adopt (ops : KernelOps I) (g : GraphDW I) (e : EdgeW)
    (es : List EdgeW)
    (h : cycles (merge_vertices ops e.m_source e.m_target g)._bglD = .ok false) :
    fuse_greedy_pass ops g (e :: es) = .ok (merge_vertices ops e.m_source e.m_target g) := by
  rw [fuse_greedy_pass]
  simp only [h]

theorem fuse_greedy_pass_skip (ops : KernelOps I) (g : GraphDW I) (e : EdgeW)
    (es : List EdgeW)
    (h : cycles (merge_vertices ops e.m_source e.m_target g)._bglD = .ok true) :
    fuse_greedy_pass ops g (e :: es) = fuse_greedy_pass ops g es := by
  rw [fuse_greedy_pass]
  simp only [h]

/-- The edge loop of `fuse_greedy` returns, with the dag as it was or with one
merge along a listed edge whose result has an acyclic dependency graph. -/
theorem fuse_greedy_pass_spec (ops : KernelOps I) (g : GraphDW I) (hwf : WF g._bglD) :
    ∀ es : List EdgeW, (∀ e ∈ es, e.m_source < num_vertices g._bglD) →
      ∃ g1, fuse_greedy_pass ops g es = .ok g1 ∧
        (g1 = g ∨ ∃ e ∈ es, g1 = merge_vertices ops e.m_source e.m_target g ∧
          Acyclic g1._bglD) := by
  intro es
  induction es with
  | nil => intro _; exact ⟨g, rfl, Or.inl rfl⟩
  | cons e es ih =>
    intro hes
    have hwf1 := (merge_vertices_WF ops e.m_source e.m_target g hwf
      (hes e (List.mem_cons_self _ _))).1
    rcases cycles_spec (merge_vertices ops e.m_source e.m_target g)._bglD hwf1 with
      ⟨h1, h2⟩ | ⟨h1, _⟩
    · rw [fuse_greedy_pass_adopt ops g e es h1]
      exact ⟨merge_vertices ops e.m_source e.m_target g, rfl,
        Or.inr ⟨e, List.mem_cons_self _ _, rfl, h2⟩⟩
    · rw [fuse_greedy_pass_skip ops g e es h1]
      obtain ⟨g1, k1, k2⟩ := ih (fun e he => hes e (List.mem_cons_of_mem _ he))
      refine ⟨g1, k1, ?_⟩
      rcases k2 with k2 | ⟨e1, he1, k2⟩
      · exact Or.inl k2
      · exact Or.inr ⟨e1, List.mem_cons_of_mem _ he1, k2⟩

/-- When every weight edge lies along a dependency edge, `fuse_greedy` returns
and keeps the invariant of the fusion passes. -/
theorem fuse_greedy_spec (ops : KernelOps I) (is : List I) (g : GraphDW I)
    (gh : Nat → List (Fin is.length)) (h : FusionInv ops is g._bglD gh) (hsub : GwSub g) :
    ∃ g1 gh1, fuse_greedy ops g = .ok g1 ∧ FusionInv ops is g1._bglD gh1 := by
  have hwf := h.1
  have hac := h.2.2.2.2.2.1
  have hE : ∀ e ∈ sort_weights (edges g._bglW), E g._bglD e.m_source e.m_target := by
    intro e he
    rw [mem_sort_weights] at he
    exact hsub _ _ ((E_iff _ _ _).2 ⟨e, he, rfl, rfl⟩)
  obtain ⟨g1, k1, k2⟩ := fuse_greedy_pass_spec ops g hwf (sort_weights (edges g._bglW))
    (fun e he => (hwf.lt_of_E (hE e he)).1)
  rcases k2 with rfl | ⟨e, he, rfl, hac1⟩
  · exact ⟨g1, gh, k1, h⟩
  · have hEe := hE e he
    refine ⟨_, _, k1, FusionInv_merge ops is g gh e.m_source e.m_target h
      (hwf.lt_of_E hEe).1 (hwf.lt_of_E hEe).2 ?_ hac1 ?_⟩
    · intro hab
      rw [hab] at hEe
      exact hac _ (Relation.TransGen.single hEe)
    · intro hba
      exact hac _ (Relation.TransGen.head hEe hba)

/-- In the singleton DAG every weight edge lies along a dependency edge when a
positive cost between two singleton kernels comes with a dependency. -/
theorem GwSub_of_singleton (ops : KernelOps I) (is : List I) (g : GraphDW I)
    (h : SingletonInv ops is g)
    (hcost : ∀ j k : Fin is.length, j < k →
      ops.dependency_cost (single (is.get k)) (single (is.get j)) > 0 →
      ops.dependency (single (is.get k)) (single (is.get j)) = true) :
    GwSub g := by
  obtain ⟨_, _, _, _, c5, c6⟩ := h
  intro x y hxy
  obtain ⟨e, he, rfl, rfl⟩ := (E_iff _ _ _).1 hxy
  obtain ⟨b1, b2, _, b4, b5⟩ := (c6 e).1 he
  rw [c5]
  refine ⟨b1, b2, ?_, b4⟩
  rcases b5 with b5 | b5
  · rw [singleton_getD is _ b2, singleton_getD is _ (lt_trans b1 b2)] at b5 ⊢
    exact hcost ⟨_, lt_trans b1 b2⟩ ⟨_, b2⟩ b1 b5
  · exact b5.2

end greedy

section properties
variable {I : Type}

theorem acyclic_of_cycles (g : GraphD I) (hwf : WF g) (h : cycles g = .ok false) :
    Acyclic g := by
  rcases cycles_spec g hwf with ⟨_, h2⟩ | ⟨h1, _⟩
  · exact h2
  · rw [h] at h1
    cases h1

theorem not_acyclic_of_cycles (g : GraphD I) (hwf : WF g) (h : cycles g = .ok true) :
    ¬ Acyclic g := by
  rcases cycles_spec g hwf with ⟨h1, _⟩ | ⟨_, h2⟩
  · rw [h] at h1
    cases h1
  · exact h2

theorem from_bhir_loop_no_logic_error (ops : KernelOps I) :
    ∀ (rest : List I) (g : GraphDW I),
      (from_bhir_loop ops rest g).1 ≠ some Fault.logic_error := by
  intro rest
  induction rest with
  | nil => intro g; simp [from_bhir_loop]
  | cons i rest ih =>
    intro g
    unfold from_bhir_loop
    cases h : g.add_vertex ops ((default : bh_ir_kernel I).add_instr i) with
    | none => simp
    | some r => exact ih r.2

/-- C1: for every instruction list, dependency predicate and fusible_gently
predicate, `from_bhir` on the empty dag, then `fuse_gentle`, then `fill_kernels`
all return, and the concatenated instruction lists of the kernels are the
input rearranged by a permutation `p` of the positions in which position `j`
comes before position `k` whenever `j < k` and the singleton kernel of `k`
depends on that of `j`. -/
theorem gentle_pipeline_preserves_dependency_order (ops : KernelOps I) (is : List I) :
    ∃ (dag1 dag2 : GraphDW I) (ks : List (bh_ir_kernel I)) (p : List (Fin is.length)),
      from_bhir ops ⟨is, []⟩ GraphDW.empty = (none, dag1) ∧
      fuse_gentle ops dag1 = some dag2 ∧
      fill_kernels dag2._bglD [] = .ok ks ∧
      (ks.map (fun k => k.instr_list)).flatten = p.map is.get ∧
      p.Perm (List.finRange is.length) ∧
      ((ks.map (fun k => k.instr_list)).flatten).Perm is ∧
      ∀ j k : Fin is.length, j < k →
        ops.dependency (single (is.get k)) (single (is.get j)) = true →
        p.indexOf j < p.indexOf k := by
  obtain ⟨dag1, h1, hs⟩ := from_bhir_spec ops is
  obtain ⟨dag2, gh2, h2, hf2, _⟩ := fuse_gentle_spec ops is dag1 _
    (FusionInv_of_singleton ops is dag1 hs)
  obtain ⟨ks, p, h3, h4, h5, h6⟩ := fill_kernels_order ops is dag2._bglD gh2 hf2
  refine ⟨dag1, dag2, ks, p, h1, h2, h3, h4, h5, ?_, h6⟩
  rw [h4]
  have := List.Perm.map is.get h5
  rwa [List.finRange_map_get] at this

/-- With the predicates `ops_share` the instructions 0, 1, 2 leave the full
pipeline in the order 0, 2, 1 although the singleton kernel of 2 depends on
that of 1. -/
theorem full_pipeline_counterexample :
    from_bhir ops_share ⟨[0, 1, 2], []⟩ GraphDW.empty =
      (none, ⟨⟨[⟨[0]⟩, ⟨[1]⟩, ⟨[2]⟩], [⟨1, 2, ()⟩, ⟨0, 2, ()⟩]⟩,
        ⟨[(), (), ()], [⟨0, 1, ⟨7⟩⟩]⟩⟩) ∧
    fuse_gentle ops_share ⟨⟨[⟨[0]⟩, ⟨[1]⟩, ⟨[2]⟩], [⟨1, 2, ()⟩, ⟨0, 2, ()⟩]⟩,
        ⟨[(), (), ()], [⟨0, 1, ⟨7⟩⟩]⟩⟩ =
      some ⟨⟨[⟨[0, 2]⟩, ⟨[1]⟩], [⟨1, 0, ()⟩]⟩,
        ⟨[(), ()], [⟨0, 1, ⟨7⟩⟩, ⟨1, 0, ⟨-1⟩⟩]⟩⟩ ∧
    fuse_greedy ops_share ⟨⟨[⟨[0, 2]⟩, ⟨[1]⟩], [⟨1, 0, ()⟩]⟩,
        ⟨[(), ()], [⟨0, 1, ⟨7⟩⟩, ⟨1, 0, ⟨-1⟩⟩]⟩⟩ =
      .ok ⟨⟨[⟨[0, 2, 1]⟩, ⟨[]⟩], []⟩, ⟨[(), ()], []⟩⟩ ∧
    fill_kernels (⟨[⟨[0, 2, 1]⟩, ⟨[]⟩], []⟩ : GraphD Nat) [] = .ok [⟨[0, 2, 1]⟩] ∧
    ops_share.dependency (single 2) (single 1) = true := by
  decide

/-- When a positive dependency cost between two singleton kernels comes only
with a dependency between them, so that `from_bhir` builds no weight edge
without a dependency edge along it, `from_bhir` on the empty dag, then
`fuse_gentle`, `fuse_greedy` and `fill_kernels` all return, and the
concatenated instruction lists of the kernels are the input rearranged by a
permutation `p` of the positions in which `j` comes before `k` whenever
`j < k` and the singleton kernel of `k` depends on that of `j`. -/
theorem full_pipeline_preserves_dependency_order (ops : KernelOps I) (is : List I)
    (hcost : ∀ j k : Fin is.length, j < k →
      ops.dependency_cost (single (is.get k)) (single (is.get j)) > 0 →
      ops.dependency (single (is.get k)) (single (is.get j)) = true) :
    ∃ (dag1 dag2 dag3 : GraphDW I) (ks : List (bh_ir_kernel I)) (p : List (Fin is.length)),
      from_bhir ops ⟨is, []⟩ GraphDW.empty = (none, dag1) ∧
      fuse_gentle ops dag1 = some dag2 ∧
      fuse_greedy ops dag2 = .ok dag3 ∧
      fill_kernels dag3._bglD [] = .ok ks ∧
      (ks.map (fun k => k.instr_list)).flatten = p.map is.get ∧
      p.Perm (List.finRange is.length) ∧
      ((ks.map (fun k => k.instr_list)).flatten).Perm is ∧
      ∀ j k : Fin is.length, j < k →
        ops.dependency (single (is.get k)) (single (is.get j)) = true →
        p.indexOf j < p.indexOf k := by
  obtain ⟨dag1, h1, hs⟩ := from_bhir_spec ops is
  obtain ⟨dag2, gh2, h2, hf2, hsub2⟩ := fuse_gentle_spec ops is dag1 _
    (FusionInv_of_singleton ops is dag1 hs)
  obtain ⟨dag3, gh3, h3, hf3⟩ := fuse_greedy_spec ops is dag2 gh2 hf2
    (hsub2 (GwSub_of_singleton ops is dag1 hs hcost))
  obtain ⟨ks, p, h4, h5, h6, h7⟩ := fill_kernels_order ops is dag3._bglD gh3 hf3
  refine ⟨dag1, dag2, dag3, ks, p, h1, h2, h3, h4, h5, h6, ?_, h7⟩
  rw [h5]
  have := List.Perm.map is.get h6
  rwa [List.finRange_map_get] at this

/-- Witness of `full_pipeline_preserves_dependency_order`: the predicates
`ops_chain` on three instructions. -/
theorem full_pipeline_preserves_dependency_order_witness :
    (∀ j k : Fin [10, 20, 30].length, j < k →
      ops_chain.dependency_cost (single ([10, 20, 30].get k)) (single ([10, 20, 30].get j)) > 0 →
      ops_chain.dependency (single ([10, 20, 30].get k)) (single ([10, 20, 30].get j)) = true) ∧
    ∃ (dag1 dag2 dag3 : GraphDW Nat) (ks : List (bh_ir_kernel Nat))
      (p : List (Fin [10, 20, 30].length)),
      from_bhir ops_chain ⟨[10, 20, 30], []⟩ GraphDW.empty = (none, dag1) ∧
      fuse_gentle ops_chain dag1 = some dag2 ∧
      fuse_greedy ops_chain dag2 = .ok dag3 ∧
      fill_kernels dag3._bglD [] = .ok ks ∧
      (ks.map (fun k => k.instr_list)).flatten = p.map [10, 20, 30].get ∧
      p.Perm (List.finRange [10, 20, 30].length) ∧
      ((ks.map (fun k => k.instr_list)).flatten).Perm [10, 20, 30] ∧
      ∀ j k : Fin [10, 20, 30].length, j < k →
        ops_chain.dependency (single ([10, 20, 30].get k)) (single ([10, 20, 30].get j)) = true →
        p.indexOf j < p.indexOf k :=
  ⟨fun _ _ _ _ => rfl,
    full_pipeline_preserves_dependency_order ops_chain [10, 20, 30] (fun _ _ _ _ => rfl)⟩

/-- C3: for a dag (well-formed, both graphs on the same vertices) and two
distinct vertices `a`, `b`, after `merge_vertices(a, b, dag)` the instruction
list of `a` is its old list followed by the old list of `b`, the kernel of
`b` is the empty kernel, every other kernel is unchanged, and both graphs
keep their number of vertices. -/
theorem merge_vertices_kernels (ops : KernelOps I) (a b : Nat) (g : GraphDW I)
    (hwf : WF g._bglD) (hn : num_vertices g._bglW = num_vertices g._bglD)
    (ha : a < num_vertices g._bglD) (hb : b < num_vertices g._bglD) (hab : a ≠ b) :
    (bundle (merge_vertices ops a b g)._bglD a).instr_list =
      (bundle g._bglD a).instr_list ++ (bundle g._bglD b).instr_list ∧
    bundle (merge_vertices ops a b g)._bglD b = ⟨[]⟩ ∧
    (∀ v, v ≠ a → v ≠ b → bundle (merge_vertices ops a b g)._bglD v = bundle g._bglD v) ∧
    num_vertices (merge_vertices ops a b g)._bglD = num_vertices g._bglD ∧
    num_vertices (merge_vertices ops a b g)._bglW = num_vertices g._bglW := by
  refine ⟨?_, ?_, ?_, (merge_vertices_WF ops a b g hwf ha).2, ?_⟩
  · rw [merge_vertices_bundle ops a b g hwf ha hb a]
    simp [hab]
  · rw [merge_vertices_bundle ops a b g hwf ha hb b]
    simp
  · intro v hva hvb
    rw [merge_vertices_bundle ops a b g hwf ha hb v]
    simp [hva, hvb]
  · simp only [num_vertices, merge_vertices_verticesW ops a b g hwf ha hn]

/-- Witness of `merge_vertices_kernels`: merging vertex 2 into vertex 0 of a chain. -/
theorem merge_vertices_kernels_witness :
    (bundle (merge_vertices ops_chain 0 2 (chain3 5 6 7 4 4))._bglD 0).instr_list =
      (bundle (chain3 5 6 7 4 4)._bglD 0).instr_list ++
        (bundle (chain3 5 6 7 4 4)._bglD 2).instr_list ∧
    bundle (merge_vertices ops_chain 0 2 (chain3 5 6 7 4 4))._bglD 2 = ⟨[]⟩ ∧
    (∀ v, v ≠ 0 → v ≠ 2 → bundle (merge_vertices ops_chain 0 2 (chain3 5 6 7 4 4))._bglD v =
      bundle (chain3 5 6 7 4 4)._bglD v) ∧
    num_vertices (merge_vertices ops_chain 0 2 (chain3 5 6 7 4 4))._bglD =
      num_vertices (chain3 5 6 7 4 4)._bglD ∧
    num_vertices (merge_vertices ops_chain 0 2 (chain3 5 6 7 4 4))._bglW =
      num_vertices (chain3 5 6 7 4 4)._bglW :=
  merge_vertices_kernels ops_chain 0 2 (chain3 5 6 7 4 4) (by decide) (by decide) (by decide)
    (by decide) (by decide)

/-- C4: for distinct vertices `a`, `b`, the dependency edges after
`merge_vertices(a, b, dag)` are exactly the old edges not incident to `b`,
`a -> x` for every old successor `x` of `b` and `x -> a` for every old
predecessor `x` of `b` (`x` other than `a` and `b`); so `b` is isolated, the
old neighbours of `b` other than `a` are neighbours of `a` in the same
direction, and `a` gets no self-loop. -/
theorem merge_vertices_dependency_edges (ops : KernelOps I) (a b : Nat) (g : GraphDW I)
    (hab : a ≠ b) :
    (∀ x y, E (merge_vertices ops a b g)._bglD x y ↔
      (E g._bglD x y ∧ x ≠ b ∧ y ≠ b) ∨
      (x = a ∧ y ≠ a ∧ y ≠ b ∧ E g._bglD b y) ∨
      (y = a ∧ x ≠ a ∧ x ≠ b ∧ E g._bglD x b)) ∧
    (∀ x, ¬ E (merge_vertices ops a b g)._bglD x b ∧ ¬ E (merge_vertices ops a b g)._bglD b x) ∧
    (∀ x, x ≠ a → x ≠ b → E g._bglD b x → E (merge_vertices ops a b g)._bglD a x) ∧
    (∀ x, x ≠ a → x ≠ b → E g._bglD x b → E (merge_vertices ops a b g)._bglD x a) ∧
    (E (merge_vertices ops a b g)._bglD a a → E g._bglD a a) := by
  refine ⟨?_, ?_, ?_, ?_, ?_⟩
  · intro x y
    rw [merge_vertices_E]
    constructor
    · rintro ⟨h1, h2, h3 | ⟨h3, h4, h5⟩ | ⟨h3, h4, h5⟩⟩
      · exact Or.inl ⟨h3, h1, h2⟩
      · exact Or.inr (Or.inl ⟨h3, h4, h2, h5⟩)
      · exact Or.inr (Or.inr ⟨h3, h4, h1, h5⟩)
    · rintro (⟨h3, h1, h2⟩ | ⟨h3, h4, h2, h5⟩ | ⟨h3, h4, h1, h5⟩)
      · exact ⟨h1, h2, Or.inl h3⟩
      · exact ⟨h3 ▸ hab, h2, Or.inr (Or.inl ⟨h3, h4, h5⟩)⟩
      · exact ⟨h1, h3 ▸ hab, Or.inr (Or.inr ⟨h3, h4, h5⟩)⟩
  · intro x
    rw [merge_vertices_E, merge_vertices_E]
    exact ⟨fun h => h.2.1 rfl, fun h => h.1 rfl⟩
  · intro x hxa hxb h
    rw [merge_vertices_E]
    exact ⟨hab, hxb, Or.inr (Or.inl ⟨rfl, hxa, h⟩)⟩
  · intro x hxa hxb h
    rw [merge_vertices_E]
    exact ⟨hxb, hab, Or.inr (Or.inr ⟨rfl, hxa, h⟩)⟩
  · rw [merge_vertices_E]
    rintro ⟨_, _, h | ⟨_, h, _⟩ | ⟨_, h, _⟩⟩
    · exact h
    · exact absurd rfl h
    · exact absurd rfl h

/-- Witness of `merge_vertices_dependency_edges`: merging vertex 2 into vertex 0
of a chain. -/
theorem merge_vertices_dependency_edges_witness :
    (0 : Nat) ≠ 2 ∧
    ((∀ x y, E (merge_vertices ops_chain 0 2 (chain3 5 6 7 4 4))._bglD x y ↔
      (E (chain3 5 6 7 4 4)._bglD x y ∧ x ≠ 2 ∧ y ≠ 2) ∨
      (x = 0 ∧ y ≠ 0 ∧ y ≠ 2 ∧ E (chain3 5 6 7 4 4)._bglD 2 y) ∨
      (y = 0 ∧ x ≠ 0 ∧ x ≠ 2 ∧ E (chain3 5 6 7 4 4)._bglD x 2)) ∧
    (∀ x, ¬ E (merge_vertices ops_chain 0 2 (chain3 5 6 7 4 4))._bglD x 2 ∧
      ¬ E (merge_vertices ops_chain 0 2 (chain3 5 6 7 4 4))._bglD 2 x) ∧
    (∀ x, x ≠ 0 → x ≠ 2 → E (chain3 5 6 7 4 4)._bglD 2 x →
      E (merge_vertices ops_chain 0 2 (chain3 5 6 7 4 4))._bglD 0 x) ∧
    (∀ x, x ≠ 0 → x ≠ 2 → E (chain3 5 6 7 4 4)._bglD x 2 →
      E (merge_vertices ops_chain 0 2 (chain3 5 6 7 4 4))._bglD x 0) ∧
    (E (merge_vertices ops_chain 0 2 (chain3 5 6 7 4 4))._bglD 0 0 →
      E (chain3 5 6 7 4 4)._bglD 0 0)) :=
  ⟨by decide, merge_vertices_dependency_edges ops_chain 0 2 (chain3 5 6 7 4 4) (by decide)⟩

/-- C5: for an instruction list of length N and an empty kernel list,
`from_bhir` on the empty dag returns a dag with N vertices in both graphs,
vertex `k` holding the kernel of instruction `k` alone, in which every
dependency edge and every weight edge leads from a vertex to one of higher
index; the dependency graph has no self-loop and no cycle. -/
theorem from_bhir_singleton_shape (ops : KernelOps I) (is : List I) :
    ∃ g, from_bhir ops ⟨is, []⟩ GraphDW.empty = (none, g) ∧
      num_vertices g._bglD = is.length ∧ num_vertices g._bglW = is.length ∧
      (∀ k : Fin is.length, bundle g._bglD k = ⟨[is.get k]⟩) ∧
      (∀ x y, E g._bglD x y → x < y) ∧ (∀ x y, E g._bglW x y → x < y) ∧
      (∀ v, ¬ E g._bglD v v) ∧ Acyclic g._bglD := by
  obtain ⟨g, h1, hs⟩ := from_bhir_spec ops is
  have hmono := hs.edges_lt
  obtain ⟨c1, c2, _, _, _, c6⟩ := hs
  refine ⟨g, h1, by simp [num_vertices, c1], c2, ?_, hmono, ?_, ?_, ?_⟩
  · intro k
    simp only [bundle, c1]
    rw [singleton_getD is k k.2]
    rfl
  · intro x y hxy
    obtain ⟨e, he, rfl, rfl⟩ := (E_iff _ _ _).1 hxy
    exact ((c6 e).1 he).1
  · intro v hv
    exact lt_irrefl _ (hmono v v hv)
  · intro v hv
    exact lt_irrefl _ (transGen_lt hmono hv)

/-- C6: in the dag that `from_bhir` builds from the empty dag, for `j < k` the
edge `j -> k` is a dependency edge exactly when the kernel of `k` depends on
the kernel of `j` and no path of length at least 2 leads from `j` to `k`;
no dependency edge coexists with such a path between its ends. -/
theorem from_bhir_dependency_edges (ops : KernelOps I) (is : List I) :
    ∃ g, from_bhir ops ⟨is, []⟩ GraphDW.empty = (none, g) ∧
      (∀ j k : Fin is.length, j < k →
        (E g._bglD j k ↔
          ops.dependency (single (is.get k)) (single (is.get j)) = true ∧
            ¬ LongPath g._bglD j k)) ∧
      (∀ u v, E g._bglD u v → ¬ LongPath g._bglD u v) := by
  obtain ⟨g, h1, hs⟩ := from_bhir_spec ops is
  obtain ⟨_, _, _, _, c5, _⟩ := hs
  refine ⟨g, h1, ?_, ?_⟩
  · intro j k hjk
    rw [c5, singleton_getD is k k.2, singleton_getD is j j.2]
    constructor
    · exact fun h => ⟨h.2.2.1, h.2.2.2⟩
    · exact fun h => ⟨hjk, k.2, h.1, h.2⟩
  · intro u v h
    exact ((c5 u v).1 h).2.2.2

/-- C7, as stated, fails: with the predicates `ops_chain` the instructions
0, 1, 2 give the chain `0 -> 1 -> 2`; the cost of the kernels of 2 and 0 is
4 > 0 and yet no weight edge joins vertices 0 and 2. -/
theorem from_bhir_weight_edges_counterexample :
    from_bhir ops_chain ⟨[0, 1, 2], []⟩ GraphDW.empty = (none, chain3 0 1 2 4 4) ∧
    ops_chain.dependency_cost (single 2) (single 0) > 0 ∧
    has_edge (chain3 0 1 2 4 4)._bglW 0 2 = false ∧
    has_edge (chain3 0 1 2 4 4)._bglW 2 0 = false := by
  decide

/-- C7, amended: in the dag that `from_bhir` builds from the empty dag, for
`j < k` the weight graph has the edge `j -> k` exactly when no path of length
at least 2 leads from `j` to `k` in the dependency graph and the cost of the
kernels of `k` and `j` is positive, or zero with a dependency; that edge
carries the cost, and there is no weight edge `k -> j`. -/
theorem from_bhir_weight_edges (ops : KernelOps I) (is : List I) :
    ∃ g, from_bhir ops ⟨is, []⟩ GraphDW.empty = (none, g) ∧
      ∀ j k : Fin is.length, j < k →
        (E g._bglW j k ↔
          ¬ LongPath g._bglD j k ∧
          (ops.dependency_cost (single (is.get k)) (single (is.get j)) > 0 ∨
            (ops.dependency_cost (single (is.get k)) (single (is.get j)) = 0 ∧
              ops.dependency (single (is.get k)) (single (is.get j)) = true))) ∧
        (∀ e ∈ g._bglW.m_edges, e.m_source = j → e.m_target = k →
          e.m_property.value =
            ops.dependency_cost (single (is.get k)) (single (is.get j))) ∧
        ¬ E g._bglW k j := by
  obtain ⟨g, h1, hs⟩ := from_bhir_spec ops is
  obtain ⟨_, _, _, _, _, c6⟩ := hs
  refine ⟨g, h1, ?_⟩
  intro j k hjk
  have hk := singleton_getD is k k.2
  have hj := singleton_getD is j j.2
  refine ⟨?_, ?_, ?_⟩
  · rw [E_iff]
    constructor
    · rintro ⟨e, he, hs, ht⟩
      obtain ⟨_, _, _, b4, b5⟩ := (c6 e).1 he
      rw [hs, ht, hk, hj] at b5
      rw [hs, ht] at b4
      exact ⟨b4, b5⟩
    · rintro ⟨b4, b5⟩
      refine ⟨⟨j, k, ⟨ops.dependency_cost (single (is.get k)) (single (is.get j))⟩⟩, ?_,
        rfl, rfl⟩
      rw [c6]
      simp only [hk, hj]
      exact ⟨hjk, k.2, trivial, b4, b5⟩
  · intro e he hs ht
    have := ((c6 e).1 he).2.2.1
    rw [hs, ht, hk, hj] at this
    exact this
  · intro h
    obtain ⟨e, he, hs, ht⟩ := (E_iff _ _ _).1 h
    have := ((c6 e).1 he).1
    rw [hs, ht] at this
    exact absurd this (by
      have : (j : Nat) < k := hjk
      omega)

/-- C8: `from_bhir` ends with a logic error exactly when the kernel list of the
batch is non-empty, and then leaves the dag as it was; with an empty kernel
list and a well-formed dependency graph it returns. -/
theorem from_bhir_logic_error_iff (ops : KernelOps I) (bhir : bh_ir I) (g : GraphDW I) :
    ((from_bhir ops bhir g).1 = some Fault.logic_error ↔ bhir.kernel_list ≠ []) ∧
    (bhir.kernel_list ≠ [] → (from_bhir ops bhir g).2 = g) ∧
    (bhir.kernel_list = [] → WF g._bglD → (from_bhir ops bhir g).1 = none) := by
  refine ⟨?_, ?_, ?_⟩
  · constructor
    · intro h hnil
      unfold from_bhir at h
      simp only [hnil, List.length_nil, bne_self_eq_false, Bool.false_eq_true, if_false] at h
      exact from_bhir_loop_no_logic_error ops _ _ h
    · intro h
      have : (bhir.kernel_list.length != 0) = true := by
        simpa [List.length_eq_zero] using h
      simp only [from_bhir, this, if_true]
  · intro h
    have : (bhir.kernel_list.length != 0) = true := by
      simpa [List.length_eq_zero] using h
    simp only [from_bhir, this, if_true]
  · intro hnil hwf
    obtain ⟨g1, k1, _⟩ := from_bhir_loop_total ops bhir.instr_list g hwf
    simp only [from_bhir, hnil, List.length_nil, bne_self_eq_false, Bool.false_eq_true,
      if_false, k1]

/-- Witness of `from_bhir_logic_error_iff`: a batch whose kernel list holds one
kernel, on a chain. -/
theorem from_bhir_logic_error_iff_witness :
    ((from_bhir ops_chain ⟨[8, 9], [⟨[3]⟩]⟩ (chain3 5 6 7 4 4)).1 = some Fault.logic_error ↔
      (⟨[8, 9], [⟨[3]⟩]⟩ : bh_ir Nat).kernel_list ≠ []) ∧
    ((⟨[8, 9], [⟨[3]⟩]⟩ : bh_ir Nat).kernel_list ≠ [] →
      (from_bhir ops_chain ⟨[8, 9], [⟨[3]⟩]⟩ (chain3 5 6 7 4 4)).2 = chain3 5 6 7 4 4) ∧
    ((⟨[8, 9], [⟨[3]⟩]⟩ : bh_ir Nat).kernel_list = [] → WF (chain3 5 6 7 4 4)._bglD →
      (from_bhir ops_chain ⟨[8, 9], [⟨[3]⟩]⟩ (chain3 5 6 7 4 4)).1 = none) :=
  from_bhir_logic_error_iff ops_chain ⟨[8, 9], [⟨[3]⟩]⟩ (chain3 5 6 7 4 4)

/-- C9, as stated, fails: merging vertex 2 into vertex 0 of the acyclic chain
`0 -> 1 -> 2` gives the cycle `0 -> 1 -> 0`. -/
theorem merge_vertices_acyclic_counterexample :
    Acyclic (chain3 0 1 2 4 4)._bglD ∧
    (0 : Nat) ≠ 2 ∧
    ¬ Acyclic (merge_vertices ops_chain 0 2 (chain3 0 1 2 4 4))._bglD :=
  ⟨acyclic_of_cycles _ (by decide) (by decide), by decide,
    not_acyclic_of_cycles _ (by decide) (by decide)⟩

/-- C9, amended: on a well-formed dag with an acyclic dependency graph, the
dependency graph is acyclic after each call of a sequence of
`merge_vertices(a, b, dag)` calls in which, at the time of the call, no path
of length at least 2 leads from `a` to `b` or from `b` to `a`. -/
theorem merge_all_acyclic (ops : KernelOps I) :
    ∀ (l : List (Nat × Nat)) (g : GraphDW I), WF g._bglD → Acyclic g._bglD →
      MergeSafe ops l g → ∀ n, Acyclic (merge_all ops (l.take n) g)._bglD := by
  intro l
  induction l with
  | nil =>
    intro g _ hac _ n
    simpa [merge_all] using hac
  | cons e l ih =>
    intro g hwf hac hsafe n
    obtain ⟨h1, h2, h3, h4⟩ := hsafe
    cases n with
    | zero => simpa [merge_all] using hac
    | succ n =>
      have := ih (merge_vertices ops e.1 e.2 g) (merge_vertices_WF ops e.1 e.2 g hwf h1).1
        (merge_vertices_acyclic ops e.1 e.2 g hwf hac h2 h3) h4 n
      simpa [merge_all] using this

/-- Witness of `merge_all_acyclic`: merging vertex 1 into vertex 0 of a chain. -/
theorem merge_all_acyclic_witness :
    WF (chain3 0 1 2 4 4)._bglD ∧ Acyclic (chain3 0 1 2 4 4)._bglD ∧
    MergeSafe ops_chain [(0, 1)] (chain3 0 1 2 4 4) ∧
    ∀ n, Acyclic (merge_all ops_chain ([(0, 1)].take n) (chain3 0 1 2 4 4))._bglD := by
  have hmono : ∀ x y, E (chain3 0 1 2 4 4)._bglD x y → x < y := by
    intro x y h
    obtain ⟨e, he, rfl, rfl⟩ := (E_iff _ _ _).1 h
    simp only [chain3, List.mem_cons, List.mem_singleton, List.not_mem_nil, or_false] at he
    rcases he with rfl | rfl <;> decide
  have hac : Acyclic (chain3 0 1 2 4 4)._bglD := acyclic_of_cycles _ (by decide) (by decide)
  have hsafe : MergeSafe ops_chain [(0, 1)] (chain3 0 1 2 4 4) := by
    refine ⟨by decide, ?_, ?_, trivial⟩
    · rintro ⟨m, h1, h2⟩
      have := hmono _ _ h1
      have := transGen_lt hmono h2
      omega
    · intro h
      have := transGen_lt hmono h.to_transGen
      omega
  exact ⟨by decide, hac, hsafe,
    merge_all_acyclic ops_chain [(0, 1)] (chain3 0 1 2 4 4) (by decide) hac hsafe⟩

/-- C10, on the code: the chain `0 -> 1 -> 2` with weight edges of weight 3 and
5 is what `from_bhir` builds with the predicates `ops_sum`; it is acyclic.
Whatever the kernel predicates, `fuse_greedy` merges along the heavier edge
and returns; the weight edge `0 -> 1` is still there and merging along it
would leave the dependency graph acyclic. -/
theorem fuse_greedy_stops_after_one_merge (ops : KernelOps Nat) :
    from_bhir ops_sum ⟨[1, 2, 3], []⟩ GraphDW.empty = (none, chain3 1 2 3 3 5) ∧
    cycles (chain3 1 2 3 3 5)._bglD = .ok false ∧
    fuse_greedy ops (chain3 1 2 3 3 5) =
      .ok ⟨⟨[⟨[1]⟩, ⟨[2, 3]⟩, ⟨[]⟩], [⟨0, 1, ()⟩]⟩, ⟨[(), (), ()], [⟨0, 1, ⟨3⟩⟩]⟩⟩ ∧
    cycles (merge_vertices ops 0 1
      ⟨⟨[⟨[1]⟩, ⟨[2, 3]⟩, ⟨[]⟩], [⟨0, 1, ()⟩]⟩, ⟨[(), (), ()], [⟨0, 1, ⟨3⟩⟩]⟩⟩)._bglD =
      .ok false :=
  ⟨by decide, by decide, rfl, rfl⟩

end properties

section listing
variable {I : Type}

theorem indexOf_filter_lt {α : Type} [DecidableEq α] (p : α → Bool) :
    ∀ (l : List α) (x y : α), l.Nodup → p x = true → p y = true → y ∈ l →
      l.indexOf x < l.indexOf y → (l.filter p).indexOf x < (l.filter p).indexOf y := by
  intro l x y hnd hx hy hyl h
  obtain ⟨l1, l2, rfl, h1, h2⟩ := split_of_indexOf_lt l x y hyl h
  exact indexOf_lt_of_append (l1.filter p) (l2.filter p) (List.filter_append _ _)
    (hnd.filter _) (List.mem_filter.2 ⟨h1, hx⟩) (List.mem_filter.2 ⟨h2, hy⟩)

theorem indexOf_reverse_lt {α : Type} [DecidableEq α] (l : List α) (x y : α) (hnd : l.Nodup)
    (hy : y ∈ l) (h : l.indexOf x < l.indexOf y) :
    l.reverse.indexOf y < l.reverse.indexOf x := by
  obtain ⟨l1, l2, rfl, h1, h2⟩ := split_of_indexOf_lt l x y hy h
  exact indexOf_lt_of_append l2.reverse l1.reverse (List.reverse_append _ _)
    (List.nodup_reverse.2 hnd) (List.mem_reverse.2 h2) (List.mem_reverse.2 h1)

end listing

section claims2
variable {I : Type}

/-- C18: on the graph of two vertices whose only edge is `0 -> 1`, no path of length at least
2 leads from vertex 0 to vertex 1, and `path_exist(0, 1, dag)` returns true. -/
theorem path_exist_true_on_single_edge :
    WF single_edge ∧ (0 : Nat) ≠ 1 ∧ E single_edge 0 1 ∧
    (∀ x y, E single_edge x y → x = 0 ∧ y = 1) ∧
    ¬ LongPath single_edge 0 1 ∧
    path_exist 0 1 single_edge = some true := by
  have hE : ∀ x y, E single_edge x y → x = 0 ∧ y = 1 := by
    intro x y h
    obtain ⟨e, he, rfl, rfl⟩ := (E_iff _ _ _).1 h
    simp only [single_edge, List.mem_cons, List.not_mem_nil, or_false] at he
    subst he
    exact ⟨rfl, rfl⟩
  refine ⟨by decide, by decide, by decide, hE, ?_, by decide⟩
  rintro ⟨m, h1, h2⟩
  have hm := (hE _ _ h1).2
  have hlt := transGen_lt (fun x y h => by
    obtain ⟨rfl, rfl⟩ := hE x y h
    exact Nat.zero_lt_one) h2
  omega

/-- C13: on a dependency graph that is acyclic (and whose edges join vertices of the graph),
`fill_kernels` returns the given list followed by the kernels of a list `vs` of vertices that
holds exactly the vertices with a non-empty instruction list, each once, and in which `u`
comes before `v` for every edge `u -> v` between two of them. -/
theorem fill_kernels_topological_listing (g : GraphD I) (ks : List (bh_ir_kernel I))
    (hwf : WF g) (hac : Acyclic g) :
    ∃ vs : List Nat, fill_kernels g ks = .ok (ks ++ vs.map (bundle g)) ∧ vs.Nodup ∧
      (∀ v, v ∈ vs ↔ v < num_vertices g ∧ (bundle g v).instr_list ≠ []) ∧
      ∀ u v, E g u v → u ∈ vs → v ∈ vs → vs.indexOf u < vs.indexOf v := by
  obtain ⟨order, ⟨hnd, hmem, hord⟩, hfill⟩ := fill_kernels_spec g hwf hac ks
  have hp : ∀ v, decide ((bundle g v).instr_list.length > 0) = true ↔
      (bundle g v).instr_list ≠ [] := by
    intro v
    simp [List.length_pos]
  refine ⟨_, hfill, (List.nodup_reverse.2 hnd).filter _, ?_, ?_⟩
  · intro v
    rw [List.mem_filter, List.mem_reverse, hmem, hp]
  · intro u v huv hu hv
    rw [List.mem_filter, List.mem_reverse] at hu hv
    apply indexOf_filter_lt _ _ _ _ (List.nodup_reverse.2 hnd) hu.2 hv.2
      (List.mem_reverse.2 hv.1)
    exact indexOf_reverse_lt order v u hnd hu.1 (hord u v huv)

/-- Witness of `fill_kernels_topological_listing`: a chain of three kernels. -/
theorem fill_kernels_topological_listing_witness :
    WF (chain3 5 6 7 4 4)._bglD ∧ Acyclic (chain3 5 6 7 4 4)._bglD ∧
    ∃ vs : List Nat,
      fill_kernels (chain3 5 6 7 4 4)._bglD [] = .ok ([] ++ vs.map (bundle (chain3 5 6 7 4 4)._bglD)) ∧
      vs.Nodup ∧
      (∀ v, v ∈ vs ↔ v < num_vertices (chain3 5 6 7 4 4)._bglD ∧
        (bundle (chain3 5 6 7 4 4)._bglD v).instr_list ≠ []) ∧
      ∀ u v, E (chain3 5 6 7 4 4)._bglD u v → u ∈ vs → v ∈ vs → vs.indexOf u < vs.indexOf v :=
  ⟨by decide, acyclic_of_cycles _ (by decide) (by decide),
    fill_kernels_topological_listing (chain3 5 6 7 4 4)._bglD [] (by decide)
      (acyclic_of_cycles _ (by decide) (by decide))⟩

end claims2

section weights
variable {I : Type}

/-- Every weight edge out of `v` after `update_weights(v)` carries the cost of the kernels of
its endpoints, which is at least 0. -/
theorem update_weights_out_edges (ops : KernelOps I) (v : Nat) (g : GraphDW I) (e : EdgeW)
    (he : e ∈ (g.update_weights ops v)._bglW.m_edges) (hv : e.m_source = v) :
    e.m_property.value =
        ops.dependency_cost (bundle g._bglD e.m_target) (bundle g._bglD e.m_source) ∧
      0 ≤ e.m_property.value := by
  simp only [GraphDW.update_weights] at he
  rw [List.mem_filter, List.mem_map] at he
  obtain ⟨⟨e0, _, rfl⟩, h2⟩ := he
  by_cases hc : (e0.m_source == v && decide (GraphDW.edge_cost ops g e0 ≥ 0)) = true
  · beta_reduce
    rw [if_pos hc]
    simp only [Bool.and_eq_true, beq_iff_eq, decide_eq_true_eq] at hc
    exact ⟨rfl, hc.2⟩
  · exfalso
    rw [if_neg hc] at hv h2
    simp only [Bool.and_eq_true, beq_iff_eq, decide_eq_true_eq, not_and, hv, true_implies] at hc
    simp only [hv, beq_self_eq_true, Bool.true_and, Bool.not_eq_true', decide_eq_false_iff_not]
      at h2
    omega

/-- The weight edges after `update_weights(v)`: the old ones, except the out-edges of `v` whose
recomputed cost is negative. -/
theorem update_weights_EW_iff (ops : KernelOps I) (v : Nat) (g : GraphDW I) (x y : Nat) :
    E (g.update_weights ops v)._bglW x y ↔
      E g._bglW x y ∧
        (x = v → 0 ≤ ops.dependency_cost (bundle g._bglD y) (bundle g._bglD x)) := by
  constructor
  · intro h
    refine ⟨update_weights_EW ops v g x y h, ?_⟩
    obtain ⟨e, he, rfl, rfl⟩ := (E_iff _ _ _).1 h
    intro hv
    obtain ⟨h1, h2⟩ := update_weights_out_edges ops v g e he hv
    rw [← h1]
    exact h2
  · rintro ⟨h, hc⟩
    obtain ⟨e, he, rfl, rfl⟩ := (E_iff _ _ _).1 h
    rw [E_iff]
    by_cases hv : e.m_source = v
    · have hcost : GraphDW.edge_cost ops g e ≥ 0 := hc hv
      refine ⟨{ e with m_property := ⟨GraphDW.edge_cost ops g e⟩ }, ?_, rfl, rfl⟩
      simp only [GraphDW.update_weights, List.mem_filter, List.mem_map]
      refine ⟨⟨e, he, by simp [hv, hcost]⟩, ?_⟩
      have : ¬ GraphDW.edge_cost ops g e < 0 := by omega
      simp only [GraphDW.edge_cost] at this ⊢
      simp [this]
    · refine ⟨e, ?_, rfl, rfl⟩
      simp only [GraphDW.update_weights, List.mem_filter, List.mem_map]
      refine ⟨⟨e, he, by simp [hv]⟩, by simp [hv]⟩

/-- The weight edges after `merge_vertices(a, b, dag)`: the old edges and the added pairs, not
incident to `b`, except the out-edges of `a` whose recomputed cost is negative. -/
theorem merge_vertices_EW_iff (ops : KernelOps I) (a b : Nat) (g : GraphDW I) (x y : Nat) :
    E (merge_vertices ops a b g)._bglW x y ↔
      x ≠ b ∧ y ≠ b ∧
        (E g._bglW x y ∨ (x = a ∧ y ≠ a ∧ E g._bglD b y) ∨ (y = a ∧ x ≠ a ∧ E g._bglD x b)) ∧
        (x = a → 0 ≤ ops.dependency_cost (bundle (merge_vertices ops a b g)._bglD y)
          (bundle (merge_vertices ops a b g)._bglD x)) := by
  obtain ⟨g1, hg1, heq⟩ := merge_vertices_eq ops a b g
  obtain ⟨h1, h2⟩ := add_instr_foldl_edges a (bundle g._bglD b).instr_list g
  rw [← hg1] at h1 h2
  rw [heq, update_weights_EW_iff, update_weights_D, clear_vertex_EW,
    (add_edges_foldl_E x y _ _).2, mem_edges2add, h2, E_congr h1 b y, E_congr h1 x b]
  tauto

end weights

section claims3
variable {I : Type}

/-- C16: in the singleton DAG of the instructions 0, 1, 2 under `ops_share`, after
`merge_vertices(0, 2, dag)` the weight edge `1 -> 0` into the merged vertex carries -1, while
the cost of the kernels of its endpoints is 3; the weight edge `0 -> 1` out of the merged
vertex carries the cost of the kernels of its endpoints. -/
theorem merge_vertices_leaves_sentinel_weight :
    from_bhir ops_share ⟨[0, 1, 2], []⟩ GraphDW.empty = (none, dag_share) ∧
    (0 : Nat) ≠ 2 ∧
    (merge_vertices ops_share 0 2 dag_share)._bglW.m_edges = [⟨0, 1, ⟨7⟩⟩, ⟨1, 0, ⟨-1⟩⟩] ∧
    ops_share.dependency_cost (bundle (merge_vertices ops_share 0 2 dag_share)._bglD 0)
      (bundle (merge_vertices ops_share 0 2 dag_share)._bglD 1) = 3 ∧
    ops_share.dependency_cost (bundle (merge_vertices ops_share 0 2 dag_share)._bglD 1)
      (bundle (merge_vertices ops_share 0 2 dag_share)._bglD 0) = 7 := by
  decide

/-- C17, as stated, fails: `merge_vertices(0, 0, dag)` on a dag whose vertex 0 has an empty
kernel and the edge `0 -> 1` is a defined call; it returns, and in the dag it returns that
edge is gone from both graphs. -/
theorem merge_vertices_self_counterexample :
    merge_vertices_checked ops_chain 0 0 dag_hollow =
      some ⟨⟨[⟨[]⟩, ⟨[1]⟩], []⟩, ⟨[(), ()], []⟩⟩ ∧
    merge_vertices_checked ops_chain 0 0 dag_hollow ≠ some dag_hollow ∧
    E dag_hollow._bglD 0 1 ∧
    ¬ E (merge_vertices ops_chain 0 0 dag_hollow)._bglD 0 1 := by
  decide

/-- C17, amended: for a vertex `a` of a dag (well-formed) whose kernel is empty,
`merge_vertices(a, a, dag)` is a defined call and returns a dag in which every kernel is as
it was, the kernel of `a` still empty, and the edges of both graphs are the old edges that
are not incident to `a`; the number of vertices is unchanged. -/
theorem merge_vertices_self (ops : KernelOps I) (a : Nat) (g : GraphDW I)
    (hwf : WF g._bglD) (ha : a < num_vertices g._bglD)
    (hempty : (bundle g._bglD a).instr_list = []) :
    ∃ g1, merge_vertices_checked ops a a g = some g1 ∧
      bundle g1._bglD a = ⟨[]⟩ ∧
      (∀ v, bundle g1._bglD v = bundle g._bglD v) ∧
      (∀ x y, E g1._bglD x y ↔ E g._bglD x y ∧ x ≠ a ∧ y ≠ a) ∧
      (∀ x y, E g1._bglW x y ↔ E g._bglW x y ∧ x ≠ a ∧ y ≠ a) ∧
      num_vertices g1._bglD = num_vertices g._bglD := by
  have hself : bundle (merge_vertices ops a a g)._bglD a = ⟨[]⟩ := by
    rw [merge_vertices_bundle ops a a g hwf ha ha a]
    simp
  have hD : ∀ x y, E (merge_vertices ops a a g)._bglD x y ↔ E g._bglD x y ∧ x ≠ a ∧ y ≠ a := by
    intro x y
    rw [merge_vertices_E]
    constructor
    · rintro ⟨h1, h2, h | ⟨h3, _, _⟩ | ⟨h3, _, _⟩⟩
      · exact ⟨h, h1, h2⟩
      · exact absurd h3 h1
      · exact absurd h3 h2
    · rintro ⟨h, h1, h2⟩
      exact ⟨h1, h2, Or.inl h⟩
  have hW : ∀ x y, E (merge_vertices ops a a g)._bglW x y ↔ E g._bglW x y ∧ x ≠ a ∧ y ≠ a := by
    intro x y
    rw [merge_vertices_EW_iff]
    constructor
    · rintro ⟨h1, h2, h | ⟨h3, _, _⟩ | ⟨h3, _, _⟩, _⟩
      · exact ⟨h, h1, h2⟩
      · exact absurd h3 h1
      · exact absurd h3 h2
    · rintro ⟨h, h1, h2⟩
      exact ⟨h1, h2, Or.inl h, fun h3 => absurd h3 h1⟩
  have hall : ∀ v, bundle (merge_vertices ops a a g)._bglD v = bundle g._bglD v := by
    intro v
    by_cases hv : v = a
    · subst hv
      rw [hself]
      cases hb : bundle g._bglD v with
      | mk l =>
        rw [hb] at hempty
        simp only at hempty
        rw [hempty]
    · rw [merge_vertices_bundle ops a a g hwf ha ha v]
      simp [hv]
  have hc : merge_vertices_checked ops a a g = some (merge_vertices ops a a g) := by
    simp [merge_vertices_checked, hempty]
  exact ⟨merge_vertices ops a a g, hc, hself, hall, hD, hW,
    (merge_vertices_WF ops a a g hwf ha).2⟩

/-- Witness of `merge_vertices_self`: vertex 0 of `dag_hollow`, whose kernel is empty, merged
with itself. -/
theorem merge_vertices_self_witness :
    WF dag_hollow._bglD ∧ 0 < num_vertices dag_hollow._bglD ∧
    (bundle dag_hollow._bglD 0).instr_list = [] ∧
    ∃ g1, merge_vertices_checked ops_chain 0 0 dag_hollow = some g1 ∧
      bundle g1._bglD 0 = ⟨[]⟩ ∧
      (∀ v, bundle g1._bglD v = bundle dag_hollow._bglD v) ∧
      (∀ x y, E g1._bglD x y ↔ E dag_hollow._bglD x y ∧ x ≠ 0 ∧ y ≠ 0) ∧
      (∀ x y, E g1._bglW x y ↔ E dag_hollow._bglW x y ∧ x ≠ 0 ∧ y ≠ 0) ∧
      num_vertices g1._bglD = num_vertices dag_hollow._bglD :=
  ⟨by decide, by decide, by decide,
    merge_vertices_self ops_chain 0 dag_hollow (by decide) (by decide) (by decide)⟩

end claims3

section erase

/-- Erasing positions in descending order, all inside the front part of a list, leaves the
rest of the list alone. -/
theorem foldl_eraseIdx_append {α : Type} :
    ∀ (r : List Nat) (a b : List α), r.Pairwise (· > ·) → (∀ u ∈ r, u < a.length) →
      r.foldl (fun l v => l.eraseIdx v) (a ++ b) = r.foldl (fun l v => l.eraseIdx v) a ++ b := by
  intro r
  induction r with
  | nil => intro a b _ _; rfl
  | cons u r ih =>
    intro a b hpw hlt
    have hu := hlt u (List.mem_cons_self _ _)
    simp only [List.foldl_cons]
    rw [List.eraseIdx_append_of_lt_length hu]
    apply ih _ _ (List.Pairwise.of_cons hpw)
    intro v hv
    have hvu : v < u := List.rel_of_pairwise_cons hpw hv
    rw [List.length_eraseIdx_of_lt hu]
    omega

/-- Erasing, from the last to the first, the positions whose entry satisfies `p` leaves the
entries that do not satisfy `p`. -/
theorem foldl_eraseIdx_filter {α : Type} (d : α) (p : α → Bool) :
    ∀ ks : List α,
      (((List.range ks.length).filter (fun v => p (ks.getD v d))).reverse).foldl
          (fun l v => l.eraseIdx v) ks =
        ks.filter (fun k => !p k) := by
  intro ks
  induction ks using List.reverseRecOn with
  | nil => rfl
  | append_singleton ks k ih =>
    have hfront : (List.range ks.length).filter (fun v => p ((ks ++ [k]).getD v d)) =
        (List.range ks.length).filter (fun v => p (ks.getD v d)) := by
      apply List.filter_congr
      intro v hv
      rw [List.mem_range] at hv
      simp only [List.getD_eq_getElem?_getD, List.getElem?_append_left hv]
    have hlast : (ks ++ [k]).getD ks.length d = k := by
      simp [List.getD_eq_getElem?_getD]
    have hpw : (((List.range ks.length).filter (fun v => p (ks.getD v d))).reverse).Pairwise
        (· > ·) := by
      rw [List.pairwise_reverse]
      exact List.Pairwise.filter _ (List.pairwise_lt_range _)
    have hlt : ∀ u ∈ ((List.range ks.length).filter (fun v => p (ks.getD v d))).reverse,
        u < ks.length := by
      intro u hu
      rw [List.mem_reverse, List.mem_filter, List.mem_range] at hu
      exact hu.1
    rw [List.length_append, List.length_singleton, List.range_succ, List.filter_append,
      List.reverse_append, List.foldl_append, hfront, List.filter_append]
    by_cases hk : p k = true
    · have h1 : List.filter (fun v => p ((ks ++ [k]).getD v d)) [ks.length] = [ks.length] := by
        simp [hlast, hk]
      rw [h1]
      simp only [List.reverse_singleton, List.foldl_cons, List.foldl_nil]
      rw [List.eraseIdx_append_of_length_le (Nat.le_refl _)]
      simp only [Nat.sub_self, List.eraseIdx_cons_zero, List.append_nil]
      rw [ih]
      simp [hk]
    · have h1 : List.filter (fun v => p ((ks ++ [k]).getD v d)) [ks.length] = [] := by
        simp [hlast, hk]
      rw [h1]
      simp only [List.reverse_nil, List.foldl_nil]
      rw [foldl_eraseIdx_append _ _ _ hpw hlt, ih]
      simp [hk]

end erase

section degrees
variable {VP EP : Type}

theorem reindex_eq_iff (u t x : Nat) (ht : t ≠ u) : reindex u t = x ↔ t = unindex u x := by
  constructor
  · intro h
    rw [← h, unindex_reindex u t ht]
  · intro h
    rw [h, reindex_unindex]

theorem in_degree_remove_vertex (g : adjacency_list VP EP) (u x : Nat)
    (hiso : ∀ z, ¬ E g z u ∧ ¬ E g u z) :
    in_degree x (remove_vertex u g) = in_degree (unindex u x) g := by
  simp only [in_degree, remove_vertex, List.filter_map, List.length_map]
  congr 1
  apply List.filter_congr
  intro e he
  have ht : e.m_target ≠ u := by
    intro h
    exact (hiso e.m_source).1 ((E_iff _ _ _).2 ⟨e, he, rfl, h⟩)
  simp only [Function.comp]
  rw [Bool.eq_iff_iff, beq_iff_eq, beq_iff_eq]
  exact reindex_eq_iff u _ x ht

theorem out_degree_remove_vertex (g : adjacency_list VP EP) (u x : Nat)
    (hiso : ∀ z, ¬ E g z u ∧ ¬ E g u z) :
    out_degree x (remove_vertex u g) = out_degree (unindex u x) g := by
  simp only [out_degree, remove_vertex, List.filter_map, List.length_map]
  congr 1
  apply List.filter_congr
  intro e he
  have ht : e.m_source ≠ u := by
    intro h
    exact (hiso e.m_target).2 ((E_iff _ _ _).2 ⟨e, he, h, rfl⟩)
  simp only [Function.comp]
  rw [Bool.eq_iff_iff, beq_iff_eq, beq_iff_eq]
  exact reindex_eq_iff u _ x ht

end degrees

section fixpoint
variable {I : Type}

/-- A pass of `fuse_gentle` merges nothing exactly when no listed edge passes its test. -/
theorem fuse_gentle_pass_none (ops : KernelOps I) (g : GraphDW I) :
    ∀ es : List EdgeD, fuse_gentle_pass ops g es = none ↔
      ∀ e ∈ es, ¬ GentleMergeable ops g e.m_source e.m_target := by
  intro es
  induction es with
  | nil => simp [fuse_gentle_pass]
  | cons e es ih =>
    have hc : (((in_degree e.m_target g._bglD == 1 && out_degree e.m_target g._bglD == 0) ||
          (in_degree e.m_source g._bglD == 0 && out_degree e.m_source g._bglD == 1) ||
          (decide (in_degree e.m_target g._bglD ≤ 1) &&
            decide (out_degree e.m_source g._bglD ≤ 1))) &&
        ops.fusible_gently (bundle g._bglD e.m_target) (bundle g._bglD e.m_source)) = true ↔
        GentleMergeable ops g e.m_source e.m_target := by
      simp only [GentleMergeable, Bool.and_eq_true, Bool.or_eq_true, beq_iff_eq,
        decide_eq_true_eq, or_assoc]
    unfold fuse_gentle_pass
    simp only [List.forall_mem_cons]
    by_cases h : GentleMergeable ops g e.m_source e.m_target
    · rw [if_pos (hc.2 h)]
      simp [h]
    · rw [if_neg (fun h1 => h (hc.1 h1)), ih]
      simp [h]

/-- The test of `fuse_gentle` after an isolated vertex has been erased. -/
theorem GentleMergeable_remove_vertex (ops : KernelOps I) (g : GraphDW I) (u x y : Nat)
    (hiso : ∀ z, ¬ E g._bglD z u ∧ ¬ E g._bglD u z) :
    GentleMergeable ops (g.remove_vertex u) x y ↔
      GentleMergeable ops g (unindex u x) (unindex u y) := by
  simp only [GentleMergeable, GraphDW.remove_vertex, in_degree_remove_vertex _ _ _ hiso,
    out_degree_remove_vertex _ _ _ hiso, bundle_remove_vertex]

/-- Erasing empty vertices, from the last to the first, keeps the invariant of the fusion
passes and whatever the erasure of an isolated vertex keeps. -/
theorem remove_vertices_foldl_keeps (ops : KernelOps I) (is : List I) (P : GraphDW I → Prop)
    (hP : ∀ (g : GraphDW I) (u : Nat), P g →
      (∀ z, ¬ E g._bglD z u ∧ ¬ E g._bglD u z) → P (g.remove_vertex u)) :
    ∀ (l : List Nat) (g : GraphDW I) (gh : Nat → List (Fin is.length)),
      l.Pairwise (· > ·) → (∀ u ∈ l, u < num_vertices g._bglD ∧ gh u = []) →
      FusionInv ops is g._bglD gh → P g →
      P (l.foldl (fun g v => g.remove_vertex v) g) := by
  intro l
  induction l with
  | nil => intro g gh _ _ _ h; exact h
  | cons u l ih =>
    intro g gh hpw hl h hp
    obtain ⟨hu, hempty⟩ := hl u (List.mem_cons_self _ _)
    have h1 := FusionInv_remove_vertex ops is g._bglD gh u h hu hempty
    have hn := num_vertices_remove_vertex g._bglD u hu
    have hiso : ∀ z, ¬ E g._bglD z u ∧ ¬ E g._bglD u z :=
      fun z => ⟨fun hz => (h.2.2.2.2.2.2.2 z u hz).2 hempty,
        fun hz => (h.2.2.2.2.2.2.2 u z hz).1 hempty⟩
    apply ih (g.remove_vertex u) (fun v => gh (unindex u v)) (List.Pairwise.of_cons hpw) _ h1
      (hP g u hp hiso)
    intro v hv
    have hvu : v < u := List.rel_of_pairwise_cons hpw hv
    obtain ⟨hv1, hv2⟩ := hl v (List.mem_cons_of_mem _ hv)
    refine ⟨?_, ?_⟩
    · have : num_vertices (g.remove_vertex u)._bglD + 1 = num_vertices g._bglD := hn
      omega
    · simp only [unindex, hvu, if_true]
      exact hv2

theorem remove_vertices_foldl_vertices :
    ∀ (l : List Nat) (g : GraphDW I),
      (l.foldl (fun g v => g.remove_vertex v) g)._bglD.m_vertices =
        l.foldl (fun ks v => ks.eraseIdx v) g._bglD.m_vertices := by
  intro l
  induction l with
  | nil => intro g; rfl
  | cons u l ih =>
    intro g
    simp only [List.foldl_cons]
    rw [ih]
    rfl

/-- The kernels after `remove_empty_vertices`: the non-empty kernels, in their order. -/
theorem remove_empty_vertices_vertices (g : GraphDW I) :
    g.remove_empty_vertices._bglD.m_vertices =
      g._bglD.m_vertices.filter (fun k => !(k.instr_list.length == 0)) := by
  unfold GraphDW.remove_empty_vertices
  simp only
  rw [remove_vertices_foldl_vertices]
  exact foldl_eraseIdx_filter default (fun k => k.instr_list.length == 0) g._bglD.m_vertices

theorem remove_empty_vertices_nonempty (g : GraphDW I) (v : Nat)
    (hv : v < num_vertices g.remove_empty_vertices._bglD) :
    (bundle g.remove_empty_vertices._bglD v).instr_list ≠ [] := by
  have hmem : bundle g.remove_empty_vertices._bglD v ∈
      g.remove_empty_vertices._bglD.m_vertices := by
    simp only [bundle, num_vertices] at hv ⊢
    rw [List.getD_eq_getElem _ _ hv]
    exact List.getElem_mem _
  rw [remove_empty_vertices_vertices, List.mem_filter] at hmem
  intro h
  have := hmem.2
  simp [h] at this

/-- On a dag without an empty kernel `remove_empty_vertices` changes nothing. -/
theorem remove_empty_vertices_of_nonempty (g : GraphDW I)
    (h : ∀ v, v < num_vertices g._bglD → (bundle g._bglD v).instr_list ≠ []) :
    g.remove_empty_vertices = g := by
  unfold GraphDW.remove_empty_vertices
  have : (vertices g._bglD).filter (fun v => (bundle g._bglD v).instr_list.length == 0) = [] := by
    rw [List.filter_eq_nil_iff]
    intro v hv
    simp only [vertices, List.mem_range] at hv
    simpa using h v hv
  simp only [this, List.reverse_nil, List.foldl_nil]

/-- On a dag on which no edge passes its test and no kernel is empty, `fuse_gentle` returns
the dag as it is. -/
theorem fuse_gentle_of_fixed (ops : KernelOps I) (g : GraphDW I)
    (hfix : ∀ u v, E g._bglD u v → ¬ GentleMergeable ops g u v)
    (hne : ∀ v, v < num_vertices g._bglD → (bundle g._bglD v).instr_list ≠ []) :
    fuse_gentle ops g = some g := by
  have hpass : fuse_gentle_pass ops g (edges g._bglD) = none := by
    rw [fuse_gentle_pass_none]
    intro e he
    exact hfix _ _ ((E_iff _ _ _).2 ⟨e, he, rfl, rfl⟩)
  unfold fuse_gentle
  rw [fuse_gentle_loop, hpass]
  simp only
  rw [remove_empty_vertices_of_nonempty g hne]

/-- From the singleton DAG `fuse_gentle` returns a dag on which no edge passes its test and no
kernel is empty. -/
theorem fuse_gentle_reaches_fixpoint (ops : KernelOps I) (is : List I) :
    ∃ dag1 dag2 : GraphDW I,
      from_bhir ops ⟨is, []⟩ GraphDW.empty = (none, dag1) ∧
      fuse_gentle ops dag1 = some dag2 ∧
      (∀ u v, E dag2._bglD u v → ¬ GentleMergeable ops dag2 u v) ∧
      (∀ v, v < num_vertices dag2._bglD → (bundle dag2._bglD v).instr_list ≠ []) := by
  obtain ⟨dag1, h1, hs⟩ := from_bhir_spec ops is
  have hinv := FusionInv_of_singleton ops is dag1 hs
  obtain ⟨g1, k1, ⟨gh1, k2⟩, _, _, k5⟩ := fuse_gentle_loop_spec ops
    (fun g1 => ∃ gh1, FusionInv ops is g1._bglD gh1)
    (by
      rintro g1 a b ⟨gh1, h1⟩ _ hE hshape
      exact FusionInv_gentle_merge ops is g1 gh1 a b h1 hE hshape)
    (num_vertices dag1._bglD + 1) dag1 hinv.1 ⟨_, hinv⟩
    (Nat.lt_succ_of_le (active_count_le _))
  refine ⟨dag1, g1.remove_empty_vertices, h1, by simp only [fuse_gentle, k1], ?_,
    remove_empty_vertices_nonempty g1⟩
  have hfix1 : ∀ u v, E g1._bglD u v → ¬ GentleMergeable ops g1 u v := by
    intro u v huv
    obtain ⟨e, he, rfl, rfl⟩ := (E_iff _ _ _).1 huv
    exact (fuse_gentle_pass_none ops g1 _).1 k5 e he
  unfold GraphDW.remove_empty_vertices
  apply remove_vertices_foldl_keeps ops is
    (fun g => ∀ u v, E g._bglD u v → ¬ GentleMergeable ops g u v) _ _ g1 gh1 _ _ k2 hfix1
  · intro g u hp hiso x y hxy
    rw [GentleMergeable_remove_vertex ops g u x y hiso]
    exact hp _ _ ((E_remove_vertex_of_isolated g._bglD u x y hiso).1 hxy)
  · rw [List.pairwise_reverse]
    exact List.Pairwise.filter _ (List.pairwise_lt_range _)
  · intro u hu
    simp only [List.mem_reverse, List.mem_filter, vertices, List.mem_range, beq_iff_eq,
      List.length_eq_zero] at hu
    refine ⟨hu.1, ?_⟩
    have := k2.2.1 u
    rw [hu.2] at this
    exact List.map_eq_nil_iff.1 this.symm

end fixpoint

section claims4
variable {I : Type}

/-- C11: on the singleton DAG that `from_bhir` builds from a batch, `fuse_gentle` returns a dag
in which no edge `u -> v` of the dependency graph has both one of the three shapes of degrees
and `fusible_gently` of the kernel of `v` and the kernel of `u`, and in which no vertex has an
empty instruction list. -/
theorem fuse_gentle_fixpoint_without_empty_vertices (ops : KernelOps I) (is : List I) :
    ∃ dag1 dag2 : GraphDW I,
      from_bhir ops ⟨is, []⟩ GraphDW.empty = (none, dag1) ∧
      fuse_gentle ops dag1 = some dag2 ∧
      (∀ u v, E dag2._bglD u v →
        ¬ (((in_degree v dag2._bglD = 1 ∧ out_degree v dag2._bglD = 0) ∨
            (in_degree u dag2._bglD = 0 ∧ out_degree u dag2._bglD = 1) ∨
            (in_degree v dag2._bglD ≤ 1 ∧ out_degree u dag2._bglD ≤ 1)) ∧
          ops.fusible_gently (bundle dag2._bglD v) (bundle dag2._bglD u) = true)) ∧
      (∀ v, v < num_vertices dag2._bglD → (bundle dag2._bglD v).instr_list ≠ []) :=
  fuse_gentle_reaches_fixpoint ops is

/-- C12: on the singleton DAG that `from_bhir` builds from a batch, `fuse_gentle` returns a dag
on which a second `fuse_gentle` returns that same dag: both graphs, the kernels and the
weights are the same. -/
theorem fuse_gentle_idempotent (ops : KernelOps I) (is : List I) :
    ∃ dag1 dag2 : GraphDW I,
      from_bhir ops ⟨is, []⟩ GraphDW.empty = (none, dag1) ∧
      fuse_gentle ops dag1 = some dag2 ∧
      fuse_gentle ops dag2 = some dag2 := by
  obtain ⟨dag1, dag2, h1, h2, h3, h4⟩ := fuse_gentle_reaches_fixpoint ops is
  exact ⟨dag1, dag2, h1, h2, fuse_gentle_of_fixed ops dag2 h3 h4⟩

end claims4

section locmap

end locmap

section batchmerge
variable {I : Type}

end batchmerge

section gentletrace
variable {I : Type}

/-- An edge between two different vertices makes two vertices that have an edge. -/
theorem two_le_active_count {VP EP : Type} (g : adjacency_list VP EP) (hwf : WF g) {a b : Nat}
    (h : E g a b) (hab : a ≠ b) : 2 ≤ active_count g := by
  unfold active_count
  have hsub : ({a, b} : Finset Nat) ⊆
      (Finset.range (num_vertices g)).filter (fun v => 0 < in_degree v g + out_degree v g) := by
    intro v hv
    simp only [Finset.mem_insert, Finset.mem_singleton] at hv
    simp only [Finset.mem_filter, Finset.mem_range, active_iff]
    rcases hv with rfl | rfl
    · exact ⟨(hwf.lt_of_E h).1, Or.inr ⟨_, h⟩⟩
    · exact ⟨(hwf.lt_of_E h).2, Or.inl ⟨_, h⟩⟩
  calc 2 = ({a, b} : Finset Nat).card := (Finset.card_pair hab).symm
    _ ≤ _ := Finset.card_le_card hsub

/-- The loop of `fuse_gentle` returns the last dag of the list of its merges; every listed
dag keeps what the merges preserve, and the number of vertices that have an edge falls at
every merge. -/
theorem fuse_gentle_merges_spec (ops : KernelOps I) (P : GraphDW I → Prop)
    (hP : ∀ (g : GraphDW I) (a b : Nat), P g → WF g._bglD → E g._bglD a b →
      (in_degree b g._bglD = 1 ∨ out_degree a g._bglD = 1) →
      P (merge_vertices ops a b g)) :
    ∀ (fuel : Nat) (g : GraphDW I), WF g._bglD → P g → active_count g._bglD < fuel →
      ∃ g1, fuse_gentle_loop ops fuel g = some g1 ∧
        (g :: fuse_gentle_merges ops fuel g).getLast? = some g1 ∧ P g1 ∧
        (∀ g2 ∈ fuse_gentle_merges ops fuel g, P g2 ∧ WF g2._bglD) ∧
        List.Chain (fun x y => active_count y._bglD < active_count x._bglD) g
          (fuse_gentle_merges ops fuel g) ∧
        ((∀ g2, P g2 → Acyclic g2._bglD) →
          (fuse_gentle_merges ops fuel g).length ≤ active_count g._bglD - 1) := by
  intro fuel
  induction fuel with
  | zero => intro g _ _ h; omega
  | succ fuel ih =>
    intro g hwf hp hfuel
    unfold fuse_gentle_loop fuse_gentle_merges
    cases hpass : fuse_gentle_pass ops g (edges g._bglD) with
    | none =>
      exact ⟨g, rfl, rfl, hp, by simp, List.Chain.nil, fun _ => Nat.zero_le _⟩
    | some g1 =>
      simp only
      obtain ⟨e, he, hshape, _, rfl⟩ := fuse_gentle_pass_some ops g (edges g._bglD) g1
        (fun e he => he) hpass
      have hE : E g._bglD e.m_source e.m_target := (E_iff _ _ _).2 ⟨e, he, rfl, rfl⟩
      obtain ⟨hwf1, hn1⟩ := merge_vertices_WF ops e.m_source e.m_target g hwf
        (hwf.lt_of_E hE).1
      have hlt := active_count_merge ops g hwf hE
      have hp1 := hP g _ _ hp hwf hE hshape
      obtain ⟨g2, k1, k2, kp, k3, k4, k5⟩ := ih _ hwf1 hp1 (by omega)
      refine ⟨g2, k1, ?_, kp, ?_, List.Chain.cons hlt k4, ?_⟩
      · rw [List.getLast?_cons_cons]
        exact k2
      · intro g3 hg3
        rcases List.mem_cons.1 hg3 with rfl | hg3
        · exact ⟨hp1, hwf1⟩
        · exact k3 g3 hg3
      · intro hacy
        have hne : e.m_source ≠ e.m_target := by
          intro heq
          rw [heq] at hE
          exact hacy g hp _ (Relation.TransGen.single hE)
        have h2 := two_le_active_count g._bglD hwf hE hne
        have h5 := k5 hacy
        simp only [List.length_cons]
        omega

/-- A merge of `fuse_gentle` keeps the dependency graph well-formed and acyclic, and keeps
its edges away from the empty kernels. -/
theorem gentle_merge_keeps (ops : KernelOps I) (g : GraphDW I) (a b : Nat)
    (hwf : WF g._bglD) (hE : E g._bglD a b)
    (hshape : in_degree b g._bglD = 1 ∨ out_degree a g._bglD = 1) :
    (Acyclic g._bglD → Acyclic (merge_vertices ops a b g)._bglD) ∧
    (NoEdgeAtEmpty g._bglD → NoEdgeAtEmpty (merge_vertices ops a b g)._bglD) := by
  have ha := (hwf.lt_of_E hE).1
  have hb := (hwf.lt_of_E hE).2
  constructor
  · intro hac
    obtain ⟨h1, h2⟩ := no_long_path_of_shape g._bglD hac hE hshape
    exact merge_vertices_acyclic ops a b g hwf hac h1 h2
  · intro hne x y hxy
    have hk : ∀ v, v ≠ b → (bundle g._bglD v).instr_list ≠ [] →
        (bundle (merge_vertices ops a b g)._bglD v).instr_list ≠ [] := by
      intro v hvb hv
      rw [merge_vertices_bundle ops a b g hwf ha hb v]
      simp only [hvb, if_false]
      by_cases hva : v = a
      · subst hva
        simp only [if_true]
        intro h
        exact hv (List.append_eq_nil.1 h).1
      · simp only [hva, if_false]
        exact hv
    obtain ⟨hxb, hyb, h | ⟨rfl, _, h⟩ | ⟨rfl, _, h⟩⟩ := (merge_vertices_E ops a b g x y).1 hxy
    · exact ⟨hk x hxb (hne x y h).1, hk y hyb (hne x y h).2⟩
    · exact ⟨hk x hxb (hne x b hE).1, hk y hyb (hne b y h).2⟩
    · exact ⟨hk x hxb (hne x b h).1, hk y hyb (hne y b hE).1⟩

/-- Erasing a vertex that has no edge keeps the dependency graph acyclic. -/
theorem Acyclic_remove_vertex {VP EP : Type} (g : adjacency_list VP EP) (u : Nat)
    (hiso : ∀ z, ¬ E g z u ∧ ¬ E g u z) (hac : Acyclic g) : Acyclic (remove_vertex u g) := by
  intro v hv
  apply hac (unindex u v)
  exact Relation.TransGen.lift (unindex u)
    (fun a b hab => (E_remove_vertex_of_isolated g u a b hiso).1 hab) hv

/-- Erasing vertices with an empty kernel, from the last to the first, keeps what the erasure
of one such vertex keeps. -/
theorem remove_empty_foldl_keeps (Q : GraphDW I → Prop)
    (hQ : ∀ (g : GraphDW I) (u : Nat), Q g → u < num_vertices g._bglD →
      (bundle g._bglD u).instr_list = [] → Q (g.remove_vertex u)) :
    ∀ (l : List Nat) (g : GraphDW I), l.Pairwise (· > ·) →
      (∀ u ∈ l, u < num_vertices g._bglD ∧ (bundle g._bglD u).instr_list = []) → Q g →
      Q (l.foldl (fun g v => g.remove_vertex v) g) := by
  intro l
  induction l with
  | nil => intro g _ _ h; exact h
  | cons u l ih =>
    intro g hpw hl hq
    obtain ⟨hu, hempty⟩ := hl u (List.mem_cons_self _ _)
    have hn := num_vertices_remove_vertex g._bglD u hu
    apply ih (g.remove_vertex u) (List.Pairwise.of_cons hpw) _ (hQ g u hq hu hempty)
    intro v hv
    have hvu : v < u := List.rel_of_pairwise_cons hpw hv
    obtain ⟨hv1, hv2⟩ := hl v (List.mem_cons_of_mem _ hv)
    refine ⟨?_, ?_⟩
    · have : num_vertices (g.remove_vertex u)._bglD + 1 = num_vertices g._bglD := hn
      omega
    · have hb : bundle (g.remove_vertex u)._bglD v = bundle g._bglD (unindex u v) :=
        bundle_remove_vertex g._bglD u v
      rw [hb]
      simp only [unindex, hvu, if_true]
      exact hv2

/-- The method `remove_empty_vertices` keeps the dependency graph acyclic when no edge is
incident to an empty kernel. -/
theorem Acyclic_remove_empty_vertices (g : GraphDW I) (hne : NoEdgeAtEmpty g._bglD)
    (hac : Acyclic g._bglD) : Acyclic g.remove_empty_vertices._bglD := by
  have key := remove_empty_foldl_keeps
    (fun g : GraphDW I => NoEdgeAtEmpty g._bglD ∧ Acyclic g._bglD)
    (by
      rintro g u ⟨h1, h2⟩ _ hempty
      have hiso : ∀ z, ¬ E g._bglD z u ∧ ¬ E g._bglD u z :=
        fun z => ⟨fun hz => (h1 z u hz).2 hempty, fun hz => (h1 u z hz).1 hempty⟩
      refine ⟨?_, Acyclic_remove_vertex g._bglD u hiso h2⟩
      intro x y hxy
      have hb : ∀ v, bundle (g.remove_vertex u)._bglD v = bundle g._bglD (unindex u v) :=
        fun v => bundle_remove_vertex g._bglD u v
      rw [hb, hb]
      exact h1 _ _ ((E_remove_vertex_of_isolated g._bglD u x y hiso).1 hxy))
    ((vertices g._bglD).filter (fun v => (bundle g._bglD v).instr_list.length == 0)).reverse g
    (by
      rw [List.pairwise_reverse]
      exact List.Pairwise.filter _ (List.pairwise_lt_range _))
    (by
      intro u hu
      simp only [List.mem_reverse, List.mem_filter, vertices, List.mem_range, beq_iff_eq,
        List.length_eq_zero] at hu
      exact hu)
    ⟨hne, hac⟩
  exact key.2

end gentletrace

section claims5
variable {I : Type}

/-- C24, as stated, fails: the dependency graph of `dag_dangling` (edges `2 -> 0` and
`0 -> 1`, the kernel of vertex 1 empty) is acyclic; `fuse_gentle` merges nothing, erases
vertex 1 and returns a dependency graph with the edges `1 -> 0` and `0 -> 1`, a cycle. -/
theorem fuse_gentle_acyclic_counterexample :
    WF dag_dangling._bglD ∧ Acyclic dag_dangling._bglD ∧
    fuse_gentle_merges ops_chain (num_vertices dag_dangling._bglD + 1) dag_dangling = [] ∧
    fuse_gentle ops_chain dag_dangling =
      some ⟨⟨[⟨[7]⟩, ⟨[8]⟩], [⟨1, 0, ()⟩, ⟨0, 1, ()⟩]⟩, ⟨[(), ()], []⟩⟩ ∧
    ¬ Acyclic (⟨[⟨[7]⟩, ⟨[8]⟩], [⟨1, 0, ()⟩, ⟨0, 1, ()⟩]⟩ : GraphD Nat) :=
  ⟨by decide, acyclic_of_cycles _ (by decide) (by decide), by decide, by decide,
    not_acyclic_of_cycles _ (by decide) (by decide)⟩

/-- C24, amended: in an acyclic graph an edge `u -> v` that passes one of the three shapes of
degrees is the only path from `u` to `v`.  For a dag whose dependency graph is acyclic (and
well-formed), the dependency graph is acyclic after every merge that `fuse_gentle` makes and
at the end of its loop, and `fuse_gentle` returns; when no edge is incident to a vertex with
an empty kernel, the dependency graph it returns, after `remove_empty_vertices`, is
acyclic. -/
theorem fuse_gentle_keeps_acyclic (ops : KernelOps I) (g : GraphDW I) (hwf : WF g._bglD)
    (hac : Acyclic g._bglD) :
    (∀ (d : GraphD I) (u v : Nat), Acyclic d → E d u v →
      ((in_degree v d = 1 ∧ out_degree v d = 0) ∨ (in_degree u d = 0 ∧ out_degree u d = 1) ∨
        (in_degree v d ≤ 1 ∧ out_degree u d ≤ 1)) → ¬ LongPath d u v) ∧
    (∀ g2 ∈ fuse_gentle_merges ops (num_vertices g._bglD + 1) g, Acyclic g2._bglD) ∧
    ∃ g1, fuse_gentle_loop ops (num_vertices g._bglD + 1) g = some g1 ∧
      (g :: fuse_gentle_merges ops (num_vertices g._bglD + 1) g).getLast? = some g1 ∧
      Acyclic g1._bglD ∧
      fuse_gentle ops g = some g1.remove_empty_vertices ∧
      (NoEdgeAtEmpty g._bglD → Acyclic g1.remove_empty_vertices._bglD) := by
  refine ⟨?_, ?_⟩
  · intro d u v had huv hshape
    have hin : 0 < in_degree v d := (in_degree_pos_iff d v).2 ⟨u, huv⟩
    have hout : 0 < out_degree u d := (out_degree_pos_iff d u).2 ⟨v, huv⟩
    have hs : in_degree v d = 1 ∨ out_degree u d = 1 := by
      rcases hshape with h | h | h
      · exact Or.inl h.1
      · exact Or.inr h.2
      · left; omega
    exact (no_long_path_of_shape d had huv hs).1
  · obtain ⟨g1, k1, k2, ⟨kac, kne⟩, k3, _, _⟩ := fuse_gentle_merges_spec ops
      (fun g1 => Acyclic g1._bglD ∧ (NoEdgeAtEmpty g._bglD → NoEdgeAtEmpty g1._bglD))
      (by
        rintro g1 a b ⟨h1, h2⟩ hwf1 hE hshape
        obtain ⟨m1, m2⟩ := gentle_merge_keeps ops g1 a b hwf1 hE hshape
        exact ⟨m1 h1, fun h => m2 (h2 h)⟩)
      (num_vertices g._bglD + 1) g hwf ⟨hac, fun h => h⟩
      (Nat.lt_succ_of_le (active_count_le _))
    refine ⟨fun g2 hg2 => (k3 g2 hg2).1.1, g1, k1, k2, kac, by simp only [fuse_gentle, k1], ?_⟩
    intro hne
    exact Acyclic_remove_empty_vertices g1 (kne hne) kac

/-- Witness of `fuse_gentle_keeps_acyclic`: the singleton DAG of the instructions 0, 1, 2
under `ops_share`, in which no kernel is empty and on which `fuse_gentle` makes a merge: the
dependency graph returned is acyclic. -/
theorem fuse_gentle_keeps_acyclic_witness :
    WF dag_share._bglD ∧ Acyclic dag_share._bglD ∧ NoEdgeAtEmpty dag_share._bglD ∧
    (∀ g2 ∈ fuse_gentle_merges ops_share (num_vertices dag_share._bglD + 1) dag_share,
      Acyclic g2._bglD) ∧
    ∃ g1, fuse_gentle_loop ops_share (num_vertices dag_share._bglD + 1) dag_share = some g1 ∧
      (dag_share :: fuse_gentle_merges ops_share (num_vertices dag_share._bglD + 1)
        dag_share).getLast? = some g1 ∧
      Acyclic g1._bglD ∧
      fuse_gentle ops_share dag_share = some g1.remove_empty_vertices ∧
      Acyclic g1.remove_empty_vertices._bglD := by
  have hne : NoEdgeAtEmpty dag_share._bglD := by
    intro x y h
    obtain ⟨e, he, rfl, rfl⟩ := (E_iff _ _ _).1 h
    simp only [dag_share, List.mem_cons, List.not_mem_nil, or_false] at he
    rcases he with rfl | rfl <;> decide
  have hac : Acyclic dag_share._bglD := acyclic_of_cycles _ (by decide) (by decide)
  obtain ⟨_, h2, g1, k1, k2, k3, k4, k5⟩ :=
    fuse_gentle_keeps_acyclic ops_share dag_share (by decide) hac
  exact ⟨by decide, hac, hne, h2, g1, k1, k2, k3, k4, k5 hne⟩

/-- C26: on a dag whose dependency graph is well-formed, the loop of `fuse_gentle` returns,
and so does `fuse_gentle`; the number of vertices that have an edge falls at every merge; and
when the dependency graph is acyclic the merges are at most the number of vertices less
one. -/
theorem fuse_gentle_terminates (ops : KernelOps I) (g : GraphDW I) (hwf : WF g._bglD) :
    ∃ g1, fuse_gentle_loop ops (num_vertices g._bglD + 1) g = some g1 ∧
      (g :: fuse_gentle_merges ops (num_vertices g._bglD + 1) g).getLast? = some g1 ∧
      fuse_gentle ops g = some g1.remove_empty_vertices ∧
      List.Chain (fun x y => active_count y._bglD < active_count x._bglD) g
        (fuse_gentle_merges ops (num_vertices g._bglD + 1) g) ∧
      (Acyclic g._bglD →
        (fuse_gentle_merges ops (num_vertices g._bglD + 1) g).length ≤
          num_vertices g._bglD - 1) := by
  obtain ⟨g1, k1, k2, _, _, k4, _⟩ := fuse_gentle_merges_spec ops (fun _ => True)
    (fun _ _ _ _ _ _ _ => trivial) (num_vertices g._bglD + 1) g hwf trivial
    (Nat.lt_succ_of_le (active_count_le _))
  refine ⟨g1, k1, k2, by simp only [fuse_gentle, k1], k4, ?_⟩
  intro hac
  obtain ⟨_, _, _, _, _, _, k5⟩ := fuse_gentle_merges_spec ops
    (fun g1 => Acyclic g1._bglD)
    (fun g1 a b h1 hwf1 hE hshape => (gentle_merge_keeps ops g1 a b hwf1 hE hshape).1 h1)
    (num_vertices g._bglD + 1) g hwf hac (Nat.lt_succ_of_le (active_count_le _))
  have h5 := k5 (fun _ h => h)
  have := active_count_le g._bglD
  omega

/-- Witness of `fuse_gentle_terminates`: the singleton DAG of the instructions 0, 1, 2 under
`ops_share`, on which `fuse_gentle` makes one merge. -/
theorem fuse_gentle_terminates_witness :
    WF dag_share._bglD ∧
    ∃ g1, fuse_gentle_loop ops_share (num_vertices dag_share._bglD + 1) dag_share = some g1 ∧
      (dag_share :: fuse_gentle_merges ops_share (num_vertices dag_share._bglD + 1)
        dag_share).getLast? = some g1 ∧
      fuse_gentle ops_share dag_share = some g1.remove_empty_vertices ∧
      List.Chain (fun x y => active_count y._bglD < active_count x._bglD) dag_share
        (fuse_gentle_merges ops_share (num_vertices dag_share._bglD + 1) dag_share) ∧
      (Acyclic dag_share._bglD →
        (fuse_gentle_merges ops_share (num_vertices dag_share._bglD + 1) dag_share).length ≤
          num_vertices dag_share._bglD - 1) :=
  ⟨by decide, fuse_gentle_terminates ops_share dag_share (by decide)⟩

end claims5

section greedyorder
variable {I : Type}

/-- The list that `sort_weights` returns is in descending order of weight. -/
theorem sort_weights_sorted (es : List EdgeW) :
    (sort_weights es).Pairwise (fun e1 e2 => e1.m_property.value ≥ e2.m_property.value) := by
  unfold sort_weights
  haveI : IsTotal EdgeW (fun e1 e2 => e1.m_property.value ≥ e2.m_property.value) :=
    ⟨fun a b => le_total b.m_property.value a.m_property.value⟩
  haveI : IsTrans EdgeW (fun e1 e2 => e1.m_property.value ≥ e2.m_property.value) :=
    ⟨fun a b c hab hbc => le_trans hbc hab⟩
  exact List.sorted_insertionSort _ es

/-- The edge loop of `fuse_greedy` over a list in descending order of weight returns the dag
as it was when every listed merge makes a cycle, and otherwise the merge along a listed edge
that makes no cycle and is at least as heavy as every listed edge whose merge makes none. -/
theorem fuse_greedy_pass_heaviest (ops : KernelOps I) (g : GraphDW I) (hwf : WF g._bglD) :
    ∀ es : List EdgeW, (∀ e ∈ es, e.m_source < num_vertices g._bglD) →
      es.Pairwise (fun e1 e2 => e1.m_property.value ≥ e2.m_property.value) →
      ∃ g1, fuse_greedy_pass ops g es = .ok g1 ∧
        (((∀ e ∈ es, ¬ Acyclic (merge_vertices ops e.m_source e.m_target g)._bglD) ∧ g1 = g) ∨
          ∃ e ∈ es, g1 = merge_vertices ops e.m_source e.m_target g ∧ Acyclic g1._bglD ∧
            ∀ e1 ∈ es, Acyclic (merge_vertices ops e1.m_source e1.m_target g)._bglD →
              e1.m_property.value ≤ e.m_property.value) := by
  intro es
  induction es with
  | nil => intro _ _; exact ⟨g, rfl, Or.inl ⟨by simp, rfl⟩⟩
  | cons e es ih =>
    intro hes hsorted
    have hwf1 := (merge_vertices_WF ops e.m_source e.m_target g hwf
      (hes e (List.mem_cons_self _ _))).1
    rcases cycles_spec (merge_vertices ops e.m_source e.m_target g)._bglD hwf1 with
      ⟨h1, h2⟩ | ⟨h1, h2⟩
    · rw [fuse_greedy_pass_adopt ops g e es h1]
      refine ⟨_, rfl, Or.inr ⟨e, List.mem_cons_self _ _, rfl, h2, ?_⟩⟩
      intro e1 he1 _
      rcases List.mem_cons.1 he1 with rfl | he1
      · exact le_refl _
      · exact List.rel_of_pairwise_cons hsorted he1
    · rw [fuse_greedy_pass_skip ops g e es h1]
      obtain ⟨g1, k1, k2⟩ := ih (fun e he => hes e (List.mem_cons_of_mem _ he))
        (List.Pairwise.of_cons hsorted)
      refine ⟨g1, k1, ?_⟩
      rcases k2 with ⟨k2, k3⟩ | ⟨e1, he1, k2, k3, k4⟩
      · left
        refine ⟨?_, k3⟩
        intro e1 he1
        rcases List.mem_cons.1 he1 with rfl | he1
        · exact h2
        · exact k2 e1 he1
      · right
        refine ⟨e1, List.mem_cons_of_mem _ he1, k2, k3, ?_⟩
        intro e2 he2 hac2
        rcases List.mem_cons.1 he2 with rfl | he2
        · exact absurd hac2 h2
        · exact k4 e2 he2 hac2

/-- Whatever order `std::sort` gives to edges of equal weight: on any rearrangement of the
weight edges in descending order of weight, the edge loop of `fuse_greedy` returns the dag as
it was when every merge makes a cycle, and otherwise a merge that makes none, along an edge
at least as heavy as every edge whose merge makes none. -/
theorem fuse_greedy_pass_any_tie_order (ops : KernelOps I) (g : GraphDW I)
    (hwf : WF g._bglD) (hwfW : WF g._bglW)
    (hn : num_vertices g._bglW = num_vertices g._bglD) (sorted : List EdgeW)
    (hs : IsSortedWeights (edges g._bglW) sorted) :
    ∃ g1, fuse_greedy_pass ops g sorted = .ok g1 ∧
      (((∀ e ∈ edges g._bglW,
            ¬ Acyclic (merge_vertices ops e.m_source e.m_target g)._bglD) ∧ g1 = g) ∨
        ∃ e ∈ edges g._bglW, g1 = merge_vertices ops e.m_source e.m_target g ∧
          Acyclic g1._bglD ∧
          ∀ e1 ∈ edges g._bglW,
            Acyclic (merge_vertices ops e1.m_source e1.m_target g)._bglD →
              e1.m_property.value ≤ e.m_property.value) := by
  obtain ⟨hperm, hsorted⟩ := hs
  obtain ⟨g1, k1, k2⟩ := fuse_greedy_pass_heaviest ops g hwf sorted
    (by
      intro e he
      have := (hwfW e (hperm.mem_iff.1 he)).1
      omega)
    hsorted
  refine ⟨g1, k1, ?_⟩
  rcases k2 with ⟨k2, k3⟩ | ⟨e, he, k2, k3, k4⟩
  · left
    exact ⟨fun e he => k2 e (hperm.mem_iff.2 he), k3⟩
  · right
    exact ⟨e, hperm.mem_iff.1 he, k2, k3, fun e1 he1 h => k4 e1 (hperm.mem_iff.2 he1) h⟩

/-- The list that `sort_weights` returns is one of the orders that `std::sort` may give. -/
theorem sort_weights_isSortedWeights (es : List EdgeW) : IsSortedWeights es (sort_weights es) :=
  ⟨List.perm_insertionSort _ es, sort_weights_sorted es⟩

end greedyorder

section claims6
variable {I : Type}

/-- C25: on a dag whose dependency graph is acyclic (both graphs well-formed, on the same
vertices), `fuse_greedy` returns a dag with an acyclic dependency graph: the dag as it was,
when the merge along every weight edge makes a cycle (or there is no weight edge), and
otherwise the dag after `merge_vertices(source(e), target(e), dag)` for a weight edge `e`
whose merge makes no cycle and whose weight is at least that of every weight edge whose merge
makes none. -/
theorem fuse_greedy_adopts_heaviest_acyclic_merge (ops : KernelOps I) (g : GraphDW I)
    (hwf : WF g._bglD) (hwfW : WF g._bglW)
    (hn : num_vertices g._bglW = num_vertices g._bglD) (hac : Acyclic g._bglD) :
    ∃ g1, fuse_greedy ops g = .ok g1 ∧ Acyclic g1._bglD ∧
      (((∀ e ∈ edges g._bglW,
            ¬ Acyclic (merge_vertices ops e.m_source e.m_target g)._bglD) ∧ g1 = g) ∨
        ∃ e ∈ edges g._bglW, g1 = merge_vertices ops e.m_source e.m_target g ∧
          Acyclic (merge_vertices ops e.m_source e.m_target g)._bglD ∧
          ∀ e1 ∈ edges g._bglW,
            Acyclic (merge_vertices ops e1.m_source e1.m_target g)._bglD →
              e1.m_property.value ≤ e.m_property.value) := by
  obtain ⟨g1, k1, k2⟩ := fuse_greedy_pass_heaviest ops g hwf (sort_weights (edges g._bglW))
    (by
      intro e he
      rw [mem_sort_weights] at he
      have := (hwfW e he).1
      omega)
    (sort_weights_sorted _)
  refine ⟨g1, k1, ?_, ?_⟩
  · rcases k2 with ⟨_, rfl⟩ | ⟨e, _, _, h, _⟩
    · exact hac
    · exact h
  · rcases k2 with ⟨k2, k3⟩ | ⟨e, he, k2, k3, k4⟩
    · left
      exact ⟨fun e he => k2 e ((mem_sort_weights _ e).2 he), k3⟩
    · right
      refine ⟨e, (mem_sort_weights _ e).1 he, k2, k2 ▸ k3, ?_⟩
      intro e1 he1 hac1
      exact k4 e1 ((mem_sort_weights _ e1).2 he1) hac1

/-- Witness of `fuse_greedy_adopts_heaviest_acyclic_merge`: a chain of three kernels with
weight edges of weight 3 and 5. -/
theorem fuse_greedy_adopts_heaviest_acyclic_merge_witness :
    WF (chain3 1 2 3 3 5)._bglD ∧ WF (chain3 1 2 3 3 5)._bglW ∧
    num_vertices (chain3 1 2 3 3 5)._bglW = num_vertices (chain3 1 2 3 3 5)._bglD ∧
    Acyclic (chain3 1 2 3 3 5)._bglD ∧
    ∃ g1, fuse_greedy ops_sum (chain3 1 2 3 3 5) = .ok g1 ∧ Acyclic g1._bglD ∧
      (((∀ e ∈ edges (chain3 1 2 3 3 5)._bglW,
            ¬ Acyclic (merge_vertices ops_sum e.m_source e.m_target
              (chain3 1 2 3 3 5))._bglD) ∧ g1 = chain3 1 2 3 3 5) ∨
        ∃ e ∈ edges (chain3 1 2 3 3 5)._bglW,
          g1 = merge_vertices ops_sum e.m_source e.m_target (chain3 1 2 3 3 5) ∧
          Acyclic (merge_vertices ops_sum e.m_source e.m_target (chain3 1 2 3 3 5))._bglD ∧
          ∀ e1 ∈ edges (chain3 1 2 3 3 5)._bglW,
            Acyclic (merge_vertices ops_sum e1.m_source e1.m_target
              (chain3 1 2 3 3 5))._bglD →
              e1.m_property.value ≤ e.m_property.value) :=
  ⟨by decide, by decide, by decide, acyclic_of_cycles _ (by decide) (by decide),
    fuse_greedy_adopts_heaviest_acyclic_merge ops_sum (chain3 1 2 3 3 5) (by decide)
      (by decide) (by decide) (acyclic_of_cycles _ (by decide) (by decide))⟩

end claims6

section pipeline

/-- C2: with the predicates `ops_sym`, whose dependency is symmetric and whose costs are all
positive, the instructions 0, 1, 2 go through `from_bhir`, `fuse_gentle`, `fuse_greedy` and
`fill_kernels` without a fault and come out in the order 0, 2, 1, although the singleton
kernel of 2 depends on that of 1: `fuse_gentle` merges vertex 2 into vertex 0 and turns the
dependency edge `1 -> 2` into `1 -> 0`, and `fuse_greedy` then merges vertex 1 into vertex 0
along the weight edge `0 -> 1`, a merge that makes no cycle. -/
theorem full_pipeline_breaks_dependency_order :
    (∀ k o, ops_sym.dependency k o = ops_sym.dependency o k) ∧
    (∀ k o, 0 < ops_sym.dependency_cost k o) ∧
    from_bhir ops_sym ⟨[0, 1, 2], []⟩ GraphDW.empty =
      (none, ⟨⟨[⟨[0]⟩, ⟨[1]⟩, ⟨[2]⟩], [⟨1, 2, ()⟩, ⟨0, 2, ()⟩]⟩,
        ⟨[(), (), ()], [⟨0, 1, ⟨5⟩⟩, ⟨1, 2, ⟨5⟩⟩, ⟨0, 2, ⟨5⟩⟩]⟩⟩) ∧
    fuse_gentle ops_sym ⟨⟨[⟨[0]⟩, ⟨[1]⟩, ⟨[2]⟩], [⟨1, 2, ()⟩, ⟨0, 2, ()⟩]⟩,
        ⟨[(), (), ()], [⟨0, 1, ⟨5⟩⟩, ⟨1, 2, ⟨5⟩⟩, ⟨0, 2, ⟨5⟩⟩]⟩⟩ =
      some ⟨⟨[⟨[0, 2]⟩, ⟨[1]⟩], [⟨1, 0, ()⟩]⟩,
        ⟨[(), ()], [⟨0, 1, ⟨5⟩⟩, ⟨1, 0, ⟨-1⟩⟩]⟩⟩ ∧
    cycles (merge_vertices ops_sym 0 1 ⟨⟨[⟨[0, 2]⟩, ⟨[1]⟩], [⟨1, 0, ()⟩]⟩,
        ⟨[(), ()], [⟨0, 1, ⟨5⟩⟩, ⟨1, 0, ⟨-1⟩⟩]⟩⟩)._bglD = .ok false ∧
    fuse_greedy ops_sym ⟨⟨[⟨[0, 2]⟩, ⟨[1]⟩], [⟨1, 0, ()⟩]⟩,
        ⟨[(), ()], [⟨0, 1, ⟨5⟩⟩, ⟨1, 0, ⟨-1⟩⟩]⟩⟩ =
      .ok ⟨⟨[⟨[0, 2, 1]⟩, ⟨[]⟩], []⟩, ⟨[(), ()], []⟩⟩ ∧
    fill_kernels (⟨[⟨[0, 2, 1]⟩, ⟨[]⟩], []⟩ : GraphD Nat) [] = .ok [⟨[0, 2, 1]⟩] ∧
    ops_sym.dependency (single 2) (single 1) = true ∧
    [0, 2, 1].indexOf 2 < [0, 2, 1].indexOf 1 := by
  refine ⟨?_, ?_, by decide, by decide, by decide, by decide, by decide, by decide, by decide⟩
  · intro k o
    simp only [ops_sym]
    exact Bool.or_comm _ _
  · intro k o
    simp only [ops_sym]
    decide

end pipeline

end dag
end bohrium

namespace bh

section queue

theorem batch_store (f : bh_instruction → bh_instruction) (s : State)
    (h : s.queue_size < BH_CPP_QUEUE_MAX) :
    ∃ s1, s.store f = some s1 ∧ s1.batch = s.batch ++ [f (s.queue s.queue_size)] ∧
      s1.queue_size = s.queue_size + 1 ∧ s1.executed = s.executed ∧
      s1.messages = s.messages ∧
      ∀ k, k ≠ s.queue_size → s1.queue k = s.queue k := by
  refine ⟨{ s with queue := Function.update s.queue s.queue_size (f (s.queue s.queue_size)),
                    queue_size := s.queue_size + 1 },
    by simp only [State.store, if_pos h], ?_, rfl, rfl, rfl, ?_⟩
  · simp only [State.batch, List.range_succ, List.map_append, List.map_cons, List.map_nil,
      Function.update_same]
    congr 1
    apply List.map_congr_left
    intro k hk
    rw [List.mem_range] at hk
    exact Function.update_noteq (by omega) _ _
  · intro k hk
    exact Function.update_noteq hk _ _

theorem store_none (f : bh_instruction → bh_instruction) (s : State)
    (h : BH_CPP_QUEUE_MAX ≤ s.queue_size) : s.store f = none := by
  simp only [State.store, if_neg (by omega : ¬ s.queue_size < BH_CPP_QUEUE_MAX)]

theorem flush_if_full_of_lt (s : State) (h : s.queue_size < BH_CPP_QUEUE_MAX) :
    s.flush_if_full = s := by
  simp only [State.flush_if_full, ge_iff_le, if_neg (by omega : ¬ BH_CPP_QUEUE_MAX ≤ s.queue_size)]

theorem flush_if_full_of_ge (s : State) (h : BH_CPP_QUEUE_MAX ≤ s.queue_size) :
    s.flush_if_full = s.execute := by
  simp only [State.flush_if_full, ge_iff_le, if_pos h]

theorem batch_execute (s : State) : s.execute.batch = [] := by
  simp [State.batch, State.execute]

theorem free_discard_of_not_temp (op : Vector) (s : State) (h : op.temp = false) :
    s.free_discard op = some s := by
  simp [State.free_discard, Vector.isTemp, h]

theorem free_discard_of_temp (op : Vector) (s : State) (h : op.temp = true)
    (hr : s.queue_size + 2 ≤ BH_CPP_QUEUE_MAX) :
    ∃ s1, s.free_discard op = some s1 ∧
      s1.batch = s.batch ++
        [assign_free op (s.queue s.queue_size),
         assign_discard op (s.queue (s.queue_size + 1))] ∧
      s1.queue_size = s.queue_size + 2 ∧ s1.executed = s.executed ∧
      s1.messages = s.messages ∧
      ∀ k, s.queue_size + 2 ≤ k → s1.queue k = s.queue k := by
  obtain ⟨t1, e1, b1, q1, x1, m1, r1⟩ := batch_store (assign_free op) s (by omega)
  obtain ⟨t2, e2, b2, q2, x2, m2, r2⟩ := batch_store (assign_discard op) t1 (by omega)
  refine ⟨t2, ?_, ?_, by omega, by rw [x2, x1], by rw [m2, m1], ?_⟩
  · simp only [State.free_discard, Vector.isTemp, h, if_true, e1, Option.bind, e2]
  · rw [b2, b1, q1, r1 _ (by omega)]
    simp
  · intro k hk
    rw [r2 k (by omega), r1 k (by omega)]

/-- What one call without a temporary operand does: the guard, then one store. -/
theorem run_no_temp (c : Call) (s : State) (hc : c.no_temp = true) :
    ∃ s1 i, c.run s = some s1 ∧ c.wrote i ∧ s1.batch = s.flush_if_full.batch ++ [i] ∧
      s1.queue_size = s.flush_if_full.queue_size + 1 ∧
      s1.executed = s.flush_if_full.executed ∧ s1.messages = s.messages := by
  have hlt : s.flush_if_full.queue_size < BH_CPP_QUEUE_MAX := by
    by_cases h : BH_CPP_QUEUE_MAX ≤ s.queue_size
    · rw [flush_if_full_of_ge s h]
      simp [State.execute, BH_CPP_QUEUE_MAX]
    · rw [flush_if_full_of_lt s (by omega)]
      omega
  have hm : s.flush_if_full.messages = s.messages := by
    unfold State.flush_if_full State.execute
    split <;> rfl
  cases c with
  | vvv o a b c =>
    simp only [Call.no_temp, Vector.isTemp, Bool.and_eq_true, Bool.not_eq_true'] at hc
    obtain ⟨t, e, hb, hq, hx, hmm, -⟩ := batch_store (assign_vvv o a b c) s.flush_if_full hlt
    refine ⟨t, _, ?_, ?_, hb, hq, hx, by rw [hmm, hm]⟩
    · simp only [Call.run, enqueue_vvv, e, Option.bind, free_discard_of_not_temp _ _ hc.1,
        free_discard_of_not_temp _ _ hc.2]
    · exact ⟨rfl, rfl, rfl, rfl⟩
  | vvc o a b c =>
    simp only [Call.no_temp, Vector.isTemp, Bool.not_eq_true'] at hc
    obtain ⟨t, e, hb, hq, hx, hmm, -⟩ := batch_store (assign_vvc o a b c) s.flush_if_full hlt
    refine ⟨t, _, ?_, ?_, hb, hq, hx, by rw [hmm, hm]⟩
    · simp only [Call.run, enqueue_vvc, e, Option.bind, free_discard_of_not_temp _ _ hc]
    · exact ⟨rfl, rfl, rfl, rfl, rfl⟩
  | vcv o a b c =>
    simp only [Call.no_temp, Vector.isTemp, Bool.not_eq_true'] at hc
    obtain ⟨t, e, hb, hq, hx, hmm, -⟩ := batch_store (assign_vcv o a b c) s.flush_if_full hlt
    refine ⟨t, _, ?_, ?_, hb, hq, hx, by rw [hmm, hm]⟩
    · simp only [Call.run, enqueue_vcv, e, Option.bind, free_discard_of_not_temp _ _ hc]
    · exact ⟨rfl, rfl, rfl, rfl, rfl⟩
  | vv o a b =>
    simp only [Call.no_temp, Vector.isTemp, Bool.not_eq_true'] at hc
    obtain ⟨t, e, hb, hq, hx, hmm, -⟩ := batch_store (assign_vv o a b) s.flush_if_full hlt
    refine ⟨t, _, ?_, ?_, hb, hq, hx, by rw [hmm, hm]⟩
    · simp only [Call.run, enqueue_vv, e, Option.bind, free_discard_of_not_temp _ _ hc]
    · exact ⟨rfl, rfl, rfl, rfl⟩
  | vc o a b =>
    obtain ⟨t, e, hb, hq, hx, hmm, -⟩ := batch_store (assign_vc o a b) s.flush_if_full hlt
    refine ⟨t, _, ?_, ?_, hb, hq, hx, by rw [hmm, hm]⟩
    · simp only [Call.run, enqueue_vc, e]
    · exact ⟨rfl, rfl, rfl, rfl, rfl⟩

end queue

end bh

namespace bh

section queue

theorem batch_length (s : State) : s.batch.length = s.queue_size := by
  simp [State.batch]

theorem batch_of_empty (s : State) (h : s.queue_size = 0) : s.batch = [] := by
  simp [State.batch, h]

/-- Calls without temporary operands keep the batches already handed over full, and the
instructions handed over or still queued are the ones written, in the order of the calls. -/
theorem run_calls_no_temp (calls : List Call) (hnt : ∀ c ∈ calls, c.no_temp = true) :
    ∀ s : State, s.queue_size ≤ 1024 →
      ∃ (s1 : State) (B : List (List bh_instruction)) (L : List bh_instruction),
        run_calls calls s = some s1 ∧ s1.executed = s.executed ++ B ∧
        (∀ b ∈ B, b.length = 1024) ∧ s1.queue_size ≤ 1024 ∧
        ((calls ≠ [] ∨ 1 ≤ s.queue_size) → 1 ≤ s1.queue_size) ∧
        B.length * 1024 + s1.queue_size = s.queue_size + calls.length ∧
        B.flatten ++ s1.batch = s.batch ++ L ∧ List.Forall₂ Call.wrote calls L ∧
        s1.messages = s.messages := by
  induction calls with
  | nil =>
    intro s hs
    exact ⟨s, [], [], rfl, by simp, by simp, hs, by simp, by simp, by simp,
      List.Forall₂.nil, rfl⟩
  | cons c cs ih =>
    intro s hs
    obtain ⟨t, i, ht, hw, htb, htq, htx, htm⟩ :=
      run_no_temp c s (hnt c (List.mem_cons_self _ _))
    by_cases hfull : BH_CPP_QUEUE_MAX ≤ s.queue_size
    · have hq : s.queue_size = 1024 := by
        simp only [BH_CPP_QUEUE_MAX] at hfull
        omega
      rw [flush_if_full_of_ge s hfull] at htb htq htx
      rw [batch_execute] at htb
      have htq1 : t.queue_size = 1 := by simpa [State.execute] using htq
      have htx1 : t.executed = s.executed ++ [s.batch] := by simpa [State.execute] using htx
      obtain ⟨s1, B, L, h1, h2, h3, h4, h5, h6, h7, h8, h9⟩ :=
        ih (fun c hc => hnt c (List.mem_cons_of_mem _ hc)) t (by omega)
      refine ⟨s1, s.batch :: B, i :: L, ?_, ?_, ?_, h4, fun _ => h5 (Or.inr (by omega)), ?_, ?_,
        List.Forall₂.cons hw h8, by rw [h9, htm]⟩
      · simp only [run_calls, ht, Option.bind, h1]
      · rw [h2, htx1, List.append_assoc]
        rfl
      · intro b hb
        rcases List.mem_cons.1 hb with rfl | hb
        · rw [batch_length, hq]
        · exact h3 b hb
      · simp only [List.length_cons]
        omega
      · rw [List.flatten_cons, List.append_assoc, h7, htb]
        simp
    · have hlt : s.queue_size < BH_CPP_QUEUE_MAX := by omega
      rw [flush_if_full_of_lt s hlt] at htb htq htx
      simp only [BH_CPP_QUEUE_MAX] at hlt
      obtain ⟨s1, B, L, h1, h2, h3, h4, h5, h6, h7, h8, h9⟩ :=
        ih (fun c hc => hnt c (List.mem_cons_of_mem _ hc)) t (by omega)
      refine ⟨s1, B, i :: L, ?_, by rw [h2, htx], h3, h4, fun _ => h5 (Or.inr (by omega)), ?_, ?_,
        List.Forall₂.cons hw h8, by rw [h9, htm]⟩
      · simp only [run_calls, ht, Option.bind, h1]
      · simp only [List.length_cons]
        omega
      · rw [h7, htb]
        simp

theorem shutdown_of_pos (vem_execute : Nat → List bh_instruction → bh_error) (s : State)
    (h : 0 < s.queue_size) :
    (shutdown vem_execute s).executed = s.executed ++ [s.batch] ∧
      (shutdown vem_execute s).queue_size = 0 := by
  unfold shutdown flush
  simp only [gt_iff_lt, h, if_true]
  split <;> simp

/-- C19: from an empty queue, `n >= 1` calls of `enqueue` without a temporary operand, followed
by `shutdown`, all return, and the backend is handed `(n-1)/1024` batches of 1024 instructions
and a last batch of the rest, whose concatenation is the `n` instructions written by the calls,
in the order of the calls; for `n = 2050` the sizes are 1024, 1024, 2. -/
theorem queue_delivers_fifo_batches (vem_execute : Nat → List bh_instruction → bh_error)
    (calls : List Call) (s : State) (hne : calls ≠ [])
    (hnt : ∀ c ∈ calls, c.no_temp = true) (hs : s.queue_size = 0) :
    ∃ (s1 : State) (batches : List (List bh_instruction)),
      run_calls calls s = some s1 ∧
      (shutdown vem_execute s1).executed = s.executed ++ batches ∧
      (shutdown vem_execute s1).queue_size = 0 ∧
      batches.map List.length =
        List.replicate ((calls.length - 1) / 1024) 1024 ++
          [calls.length - 1024 * ((calls.length - 1) / 1024)] ∧
      List.Forall₂ Call.wrote calls batches.flatten ∧
      (calls.length = 2050 → batches.map List.length = [1024, 1024, 2]) := by
  obtain ⟨s1, B, L, h1, h2, h3, h4, h5, h6, h7, h8, -⟩ :=
    run_calls_no_temp calls hnt s (by omega)
  have hpos : 1 ≤ s1.queue_size := h5 (Or.inl hne)
  have hlen : 1 ≤ calls.length := by
    cases calls with
    | nil => exact absurd rfl hne
    | cons c cs => simp
  obtain ⟨hx, hq⟩ := shutdown_of_pos vem_execute s1 (by omega)
  have hB : B.length = (calls.length - 1) / 1024 := by omega
  have hlast : s1.queue_size = calls.length - 1024 * ((calls.length - 1) / 1024) := by omega
  have hsizes : (B ++ [s1.batch]).map List.length =
      List.replicate ((calls.length - 1) / 1024) 1024 ++
        [calls.length - 1024 * ((calls.length - 1) / 1024)] := by
    rw [List.map_append, List.map_cons, List.map_nil, batch_length, ← hlast, ← hB]
    congr 1
    rw [List.eq_replicate_iff]
    refine ⟨by simp, ?_⟩
    intro n hn
    obtain ⟨b, hb, rfl⟩ := List.mem_map.1 hn
    exact h3 b hb
  refine ⟨s1, B ++ [s1.batch], h1, by rw [hx, h2, List.append_assoc], hq, hsizes, ?_, ?_⟩
  · rw [List.flatten_append, List.flatten_singleton, h7, batch_of_empty s hs]
    exact h8
  · intro h
    rw [hsizes, h]
    rfl

/-- Witness of `queue_delivers_fifo_batches`: 2050 additions on the queue at start-up. -/
theorem queue_delivers_fifo_batches_witness :
    List.replicate 2050 (Call.vvv .BH_ADD ⟨0, false⟩ ⟨1, false⟩ ⟨2, false⟩) ≠ [] ∧
    (∀ c ∈ List.replicate 2050 (Call.vvv .BH_ADD ⟨0, false⟩ ⟨1, false⟩ ⟨2, false⟩),
      c.no_temp = true) ∧
    State.init.queue_size = 0 ∧
    ∃ (s1 : State) (batches : List (List bh_instruction)),
      run_calls (List.replicate 2050 (Call.vvv .BH_ADD ⟨0, false⟩ ⟨1, false⟩ ⟨2, false⟩))
        State.init = some s1 ∧
      (shutdown (fun _ _ => BH_SUCCESS) s1).executed = State.init.executed ++ batches ∧
      batches.map List.length = [1024, 1024, 2] := by
  have hne : List.replicate 2050 (Call.vvv .BH_ADD ⟨0, false⟩ ⟨1, false⟩ ⟨2, false⟩) ≠ [] := by
    intro h
    have h2 := congrArg List.length h
    rw [List.length_replicate] at h2
    exact absurd h2 (by decide)
  have hnt : ∀ c ∈ List.replicate 2050 (Call.vvv .BH_ADD ⟨0, false⟩ ⟨1, false⟩ ⟨2, false⟩),
      c.no_temp = true := by
    intro c hc
    rw [List.eq_of_mem_replicate hc]
    rfl
  obtain ⟨s1, batches, h1, h2, -, -, -, h6⟩ :=
    queue_delivers_fifo_batches (fun _ _ => BH_SUCCESS) _ State.init hne hnt rfl
  exact ⟨hne, hnt, rfl, s1, batches, h1, h2, h6 (List.length_replicate _ _)⟩

/-- C20: the overload of `enqueue` with three arrays, on a queue with room for every slot it
writes, returns with the old queue followed by the instruction, then `BH_FREE` and `BH_DISCARD`
of `op1` if `op1` is temporary, then `BH_FREE` and `BH_DISCARD` of `op2` if `op2` is temporary,
and nothing else; no batch is handed to the backend.  With only `op1` temporary on an empty
queue, the queue holds exactly these three instructions. -/
theorem enqueue_tears_down_temporaries (opcode : bh_opcode) (op0 op1 op2 : Vector) (s : State)
    (hroom : s.queue_size + 1 + (if op1.isTemp then 2 else 0) + (if op2.isTemp then 2 else 0) ≤
      BH_CPP_QUEUE_MAX) :
    ∃ s1 : State, enqueue_vvv opcode op0 op1 op2 s = some s1 ∧
      s1.executed = s.executed ∧
      s1.batch = s.batch ++ [assign_vvv opcode op0 op1 op2 (s.queue s.queue_size)] ++
        (if op1.isTemp then
          [assign_free op1 (s.queue (s.queue_size + 1)),
           assign_discard op1 (s.queue (s.queue_size + 2))] else []) ++
        (if op2.isTemp then
          [assign_free op2 (s.queue (s.queue_size + 1 + (if op1.isTemp then 2 else 0))),
           assign_discard op2 (s.queue (s.queue_size + 2 + (if op1.isTemp then 2 else 0)))]
         else []) ∧
      (s.queue_size = 0 → op1.isTemp = true → op2.isTemp = false →
        s1.batch = [assign_vvv opcode op0 op1 op2 (s.queue 0), assign_free op1 (s.queue 1),
          assign_discard op1 (s.queue 2)]) := by
  have hlt : s.queue_size < BH_CPP_QUEUE_MAX := by omega
  obtain ⟨t0, e0, b0, q0, x0, -, r0⟩ := batch_store (assign_vvv opcode op0 op1 op2) s hlt
  have key : ∃ s1 : State, enqueue_vvv opcode op0 op1 op2 s = some s1 ∧
      s1.executed = s.executed ∧
      s1.batch = s.batch ++ [assign_vvv opcode op0 op1 op2 (s.queue s.queue_size)] ++
        (if op1.isTemp then
          [assign_free op1 (s.queue (s.queue_size + 1)),
           assign_discard op1 (s.queue (s.queue_size + 2))] else []) ++
        (if op2.isTemp then
          [assign_free op2 (s.queue (s.queue_size + 1 + (if op1.isTemp then 2 else 0))),
           assign_discard op2 (s.queue (s.queue_size + 2 + (if op1.isTemp then 2 else 0)))]
         else []) := by
    cases h1 : op1.temp <;> cases h2 : op2.temp <;>
      simp only [Vector.isTemp, h1, h2, if_true, if_false, Bool.false_eq_true] at hroom ⊢
    · refine ⟨t0, ?_, x0, by simp [b0]⟩
      simp only [enqueue_vvv, flush_if_full_of_lt s hlt, e0, Option.bind,
        free_discard_of_not_temp _ _ h1, free_discard_of_not_temp _ _ h2]
    · obtain ⟨t2, e2, b2, q2, x2, -, r2⟩ := free_discard_of_temp op2 t0 h2 (by omega)
      refine ⟨t2, ?_, by rw [x2, x0], ?_⟩
      · simp only [enqueue_vvv, flush_if_full_of_lt s hlt, e0, Option.bind,
          free_discard_of_not_temp _ _ h1, e2]
      · rw [b2, b0, q0, r0 _ (by omega), r0 _ (by omega)]
        simp
    · obtain ⟨t1, e1, b1, q1, x1, -, r1⟩ := free_discard_of_temp op1 t0 h1 (by omega)
      refine ⟨t1, ?_, by rw [x1, x0], ?_⟩
      · simp only [enqueue_vvv, flush_if_full_of_lt s hlt, e0, Option.bind, e1,
          free_discard_of_not_temp _ _ h2]
      · rw [b1, b0, q0, r0 _ (by omega), r0 _ (by omega)]
        simp
    · obtain ⟨t1, e1, b1, q1, x1, -, r1⟩ := free_discard_of_temp op1 t0 h1 (by omega)
      obtain ⟨t2, e2, b2, q2, x2, -, r2⟩ := free_discard_of_temp op2 t1 h2 (by omega)
      refine ⟨t2, ?_, by rw [x2, x1, x0], ?_⟩
      · simp only [enqueue_vvv, flush_if_full_of_lt s hlt, e0, Option.bind, e1, e2]
      · rw [b2, b1, b0, q1, q0, r1 _ (by omega), r1 _ (by omega), r0 _ (by omega),
          r0 _ (by omega), r0 _ (by omega), r0 _ (by omega)]
  obtain ⟨s1, h1, h2, h3⟩ := key
  refine ⟨s1, h1, h2, h3, ?_⟩
  intro hq ht1 ht2
  rw [h3, batch_of_empty s hq, hq, ht1, ht2]
  simp

/-- Witness of `enqueue_tears_down_temporaries`: an addition whose second operand is
temporary, on the queue at start-up. -/
theorem enqueue_tears_down_temporaries_witness :
    (State.init.queue_size + 1 + (if (⟨1, true⟩ : Vector).isTemp then 2 else 0) +
      (if (⟨2, false⟩ : Vector).isTemp then 2 else 0) ≤ BH_CPP_QUEUE_MAX) ∧
    ∃ s1 : State, enqueue_vvv .BH_ADD ⟨0, false⟩ ⟨1, true⟩ ⟨2, false⟩ State.init = some s1 ∧
      s1.batch = [⟨.BH_ADD, some 0, some 1, some 2, none⟩, ⟨.BH_FREE, some 1, none, none, none⟩,
        ⟨.BH_DISCARD, some 1, none, none, none⟩] := by
  obtain ⟨s1, h1, -, -, h4⟩ := enqueue_tears_down_temporaries .BH_ADD ⟨0, false⟩ ⟨1, true⟩
    ⟨2, false⟩ State.init (by decide)
  exact ⟨by decide, s1, h1, h4 rfl rfl rfl⟩

end queue

end bh

namespace bh

section flushing

theorem run_calls_append (cs1 cs2 : List Call) :
    ∀ s : State, run_calls (cs1 ++ cs2) s = (run_calls cs1 s).bind (run_calls cs2) := by
  induction cs1 with
  | nil => intro s; rfl
  | cons c cs ih =>
    intro s
    simp only [List.cons_append, run_calls]
    cases c.run s with
    | none => rfl
    | some t => exact ih t

theorem flush_of_empty (vem_execute : Nat → List bh_instruction → bh_error) (s : State)
    (h : s.queue_size = 0) : flush vem_execute s = (0, s) := by
  unfold flush
  simp [h]

theorem flush_of_pos (vem_execute : Nat → List bh_instruction → bh_error) (s : State)
    (h : 0 < s.queue_size) :
    (flush vem_execute s).1 = s.queue_size ∧
    (flush vem_execute s).2.queue_size = 0 ∧
    (flush vem_execute s).2.queue = s.queue ∧
    (flush vem_execute s).2.executed = s.executed ++ [s.batch] ∧
    (flush vem_execute s).2.messages =
      if vem_execute s.executed.length s.batch ≠ BH_SUCCESS
      then s.messages ++ [vem_execute s.executed.length s.batch] else s.messages := by
  unfold flush
  simp only [gt_iff_lt, h, if_true]
  split <;> simp

/-- C21: from the queue at start-up, 1023 calls of `enqueue` without a temporary operand
return with `queue_size = 1023` and no batch handed over; a further call of the overload with
three arrays whose `op1` is temporary passes the guard, stores its instruction in the last
slot, making `queue_size` 1024, and then stores `BH_FREE` at index 1024, outside the array, so
that the call fails. -/
theorem enqueue_stores_outside_the_queue :
    ∃ s1 s2 : State,
      run_calls (List.replicate 1023 (Call.vc .BH_ADD ⟨0, false⟩ 1)) State.init = some s1 ∧
      s1.queue_size = 1023 ∧ s1.executed = [] ∧
      s1.flush_if_full = s1 ∧
      s1.store (assign_vvv .BH_ADD ⟨0, false⟩ ⟨1, true⟩ ⟨2, false⟩) = some s2 ∧
      s2.queue_size = 1024 ∧ ¬ s2.queue_size < BH_CPP_QUEUE_MAX ∧
      s2.store (assign_free ⟨1, true⟩) = none ∧
      enqueue_vvv .BH_ADD ⟨0, false⟩ ⟨1, true⟩ ⟨2, false⟩ s1 = none ∧
      run_calls (List.replicate 1023 (Call.vc .BH_ADD ⟨0, false⟩ 1) ++
        [Call.vvv .BH_ADD ⟨0, false⟩ ⟨1, true⟩ ⟨2, false⟩]) State.init = none := by
  have hnt : ∀ c ∈ List.replicate 1023 (Call.vc .BH_ADD ⟨0, false⟩ 1), c.no_temp = true := by
    intro c hc
    rw [List.eq_of_mem_replicate hc]
    rfl
  obtain ⟨s1, B, L, h1, h2, h3, h4, h5, h6, h7, h8, h9⟩ :=
    run_calls_no_temp _ hnt State.init (by decide)
  have hpos : 1 ≤ s1.queue_size := h5 (Or.inl (by
    intro h
    have h0 := congrArg List.length h
    rw [List.length_replicate] at h0
    exact absurd h0 (by decide)))
  rw [List.length_replicate] at h6
  have hq0 : State.init.queue_size = 0 := rfl
  have hB : B = [] := by
    cases B with
    | nil => rfl
    | cons b B =>
      simp only [List.length_cons] at h6
      omega
  subst hB
  have hq : s1.queue_size = 1023 := by
    simp only [List.length_nil] at h6
    omega
  have hlt : s1.queue_size < BH_CPP_QUEUE_MAX := by
    rw [hq]
    decide
  have hfif := flush_if_full_of_lt s1 hlt
  obtain ⟨s2, e2, -, q2, -, -, -⟩ :=
    batch_store (assign_vvv .BH_ADD ⟨0, false⟩ ⟨1, true⟩ ⟨2, false⟩) s1 hlt
  have hq2 : s2.queue_size = 1024 := by omega
  have hge : BH_CPP_QUEUE_MAX ≤ s2.queue_size := by
    rw [hq2]
    decide
  have hfree : s2.store (assign_free ⟨1, true⟩) = none := store_none _ s2 hge
  have henq : enqueue_vvv .BH_ADD ⟨0, false⟩ ⟨1, true⟩ ⟨2, false⟩ s1 = none := by
    simp only [enqueue_vvv, hfif, e2, Option.bind, State.free_discard, Vector.isTemp, if_true,
      hfree]
  refine ⟨s1, s2, h1, hq, by simpa using h2, hfif, e2, hq2, by omega, hfree, henq, ?_⟩
  rw [run_calls_append, h1]
  simp only [Option.bind, run_calls, Call.run, henq]

/-- C22: after `flush` the queue is empty; on an empty queue `flush` changes nothing and
hands nothing to the backend; on a queue of `n > 0` instructions it hands the backend one
batch, the `n` queued instructions; a second `flush` changes nothing more. -/
theorem flush_empties_and_is_idempotent (vem_execute : Nat → List bh_instruction → bh_error)
    (s : State) :
    (flush vem_execute s).2.queue_size = 0 ∧
    (s.queue_size = 0 → (flush vem_execute s).2 = s) ∧
    (0 < s.queue_size →
      (flush vem_execute s).2.executed = s.executed ++ [s.batch] ∧
      s.batch.length = s.queue_size) ∧
    (flush vem_execute (flush vem_execute s).2).2 = (flush vem_execute s).2 := by
  have hzero : (flush vem_execute s).2.queue_size = 0 := by
    by_cases h : 0 < s.queue_size
    · exact (flush_of_pos vem_execute s h).2.1
    · rw [flush_of_empty vem_execute s (by omega)]
      show s.queue_size = 0
      omega
  refine ⟨hzero, ?_, ?_, ?_⟩
  · intro h
    rw [flush_of_empty vem_execute s h]
  · intro h
    exact ⟨(flush_of_pos vem_execute s h).2.2.2.1, batch_length s⟩
  · rw [flush_of_empty vem_execute _ hzero]

/-- C23, as stated, fails: with one instruction queued and a backend that answers the error
code 7, `flush` returns 1, the number of instructions that were queued. -/
theorem flush_returns_size_counterexample :
    ∃ s : State, enqueue_vc .BH_ADD ⟨0, false⟩ 1 State.init = some s ∧
      0 < s.queue_size ∧
      (7 : bh_error) ≠ BH_SUCCESS ∧
      (flush (fun _ _ => 7) s).1 = 1 ∧
      (flush (fun _ _ => 7) s).1 ≠ 7 := by
  obtain ⟨s, e, -, q, -, -, -⟩ := batch_store (assign_vc .BH_ADD ⟨0, false⟩ 1) State.init
    (by decide)
  have hq : s.queue_size = 1 := q
  have hret := (flush_of_pos (fun _ _ => 7) s (by omega)).1
  refine ⟨s, ?_, by omega, by decide, by rw [hret, hq], by rw [hret, hq]; decide⟩
  simp only [enqueue_vc, flush_if_full_of_lt State.init (by decide), e]

/-- C23, amended: `flush` returns the number of instructions that were queued, whatever the
backend answers; on a non-empty queue, when the backend answers a code other than
`BH_SUCCESS`, that code is reported in a printed message and the queue is emptied. -/
theorem flush_returns_size (vem_execute : Nat → List bh_instruction → bh_error) (s : State) :
    (flush vem_execute s).1 = s.queue_size ∧
    (0 < s.queue_size → vem_execute s.executed.length s.batch ≠ BH_SUCCESS →
      (flush vem_execute s).2.messages = s.messages ++ [vem_execute s.executed.length s.batch] ∧
      (flush vem_execute s).2.queue_size = 0) := by
  constructor
  · by_cases h : 0 < s.queue_size
    · exact (flush_of_pos vem_execute s h).1
    · rw [flush_of_empty vem_execute s (by omega)]
      show 0 = s.queue_size
      omega
  · intro h hres
    obtain ⟨-, h2, -, -, h5⟩ := flush_of_pos vem_execute s h
    rw [if_pos hres] at h5
    exact ⟨h5, h2⟩

end flushing

end bh

